import Mathlib

/-!
# CodeCanvas: the technology-detection engine, the line classifier and the file index

A shallow embedding of `internal/engine/engine.go`, `internal/engine/match.go`, the line
classifier of `internal/analyzer` (`counter.go`, `filelangsats.go`), the profiling run of
`internal/analyzer/analyzer.go` with the language table of `langdefine.go`, the language
classifier of `internal/langengine` (`langclassify.go`, `langutils.go`) with `ExpandLanguages`,
and `expandLanguages` of `canvas/codecanvas.go`.

Conventions of the embedding.

* A Go `string` and a Go `[]byte` are both Lean `String`s, that is UTF-8 text, on which the
  substring relation on bytes and the one on characters agree; the nil byte slice is the
  empty string (`string(nil) == ""`), which is all the engine ever observes of it.
* A Go `map[string]V` is an association list read with `List.lookup`.
* A Go pointer that may be nil is an `Option`.
* A run that aborts with a run-time panic (nil dereference, index out of range) is `none`.
* What the engine obtains from outside the repository (the file system, the `regexp` package,
  `filepath.ToSlash`) is the record `Host`; the index matcher built from the file index is
  represented by its `FindFiles` method.
* What `FindFiles` obtains from outside the repository (`filepath.Join`, `path.Match`, and the
  letter case functions `strings.ToLower` and `strings.EqualFold`, which rest on the Unicode
  tables) is the record `PathLib`; the theorems hold for every such record.
* The lines of a file, as `bufio.Scanner` delivers them, are given by a `FileScanner`.
* The directory that the profiling run walks is a tree of entries (`DirTree`); the goroutines
  of the run are not modelled: the walk, the collector and the assembly of the profile are
  functions, and the order in which results reach the collector is the order of a list.
* Counters of files and lines in the line classifier and in the collector are natural
  numbers. The numbers of the profile are Go `int` values: integers kept in `intBits` bits
  (32 or 64, the width of `int` on the platform) in two's complement, so that a sum that does
  not fit wraps around (`goInt`).
* The dependencies that the classifier reads from the file `package.json` and the matches of
  `filepath.Glob` on the disk are parameters of the classifier.
-/

set_option autoImplicit false

namespace CodeCanvas

/-! ## Data model (`internal/model`) -/

/-- Rule type constant `model.RuleTypeFramework`. -/
def RuleTypeFramework : String := "framework"

/-- Rule type constant `model.RuleTypeComponent`. -/
def RuleTypeComponent : String := "component"

/-- Modelled from the spec: the constant `model.ConfidenceHigh`, whose declaration is not part
of the sources; the confidence values are `high`, `medium` and `low`. -/
def ConfidenceHigh : String := "high"

/-- Modelled from the spec: the constant `model.ConfidenceMedium` (declaration missing). -/
def ConfidenceMedium : String := "medium"

/-- Modelled from the spec: the constant `model.ConfidenceLow` (declaration missing). -/
def ConfidenceLow : String := "low"

/-- Modelled from the spec: the version extractor referenced by a tier (declaration missing);
the engine only reads its `Pattern`. -/
structure VersionExtractor where
  Pattern : String
deriving DecidableEq, Repr

/-- Modelled from the spec: `model.RuleSet`, one tier of a rule (declaration missing); the
fields are the ones the engine reads. -/
structure RuleSet where
  Paths : List String
  Contains : List String
  ExtractVersionFromText : Option VersionExtractor
  ExtractVersionFromPath : Option VersionExtractor
deriving DecidableEq, Repr

/-- Modelled from the spec: `model.FrameworkRuleDefinition` (declaration missing). `Levels` is
the Go `map[string]*RuleSet`: a key may be absent, or present with a nil tier body. -/
structure FrameworkRuleDefinition where
  Name : String
  Type_ : String
  Language : String
  Category : String
  Levels : List (String × Option RuleSet)
deriving DecidableEq, Repr

/-- The detected item `model.DetectedItem`, with the fields the engine fills in; the field
`Confidence`, which `report.go` does not declare, is the one the engine sets and the
specification lists. -/
structure DetectedItem where
  Name : String
  Type_ : String
  Language : String
  Version : String
  Category : String
  Confidence : String
  Evidence : String
deriving DecidableEq, Repr

/-- The result `model.DetectionResult`. -/
structure DetectionResult where
  Frameworks : List DetectedItem
  Components : List DetectedItem
deriving DecidableEq, Repr

/-- The engine `CanvasEngine`. -/
structure CanvasEngine where
  rules : List FrameworkRuleDefinition
  frameworkRules : List (String × FrameworkRuleDefinition)
  componentRules : List (String × FrameworkRuleDefinition)
deriving DecidableEq, Repr

/-! ## The host: file system, regular expressions, path separators -/

/-- A compiled regular expression, represented by `FindSubmatch` (and `FindStringSubmatch`):
the empty list when there is no match, otherwise the leftmost match followed by the text of
each capture group. -/
structure Regexp where
  FindSubmatch : String → List String

/-- An opened file: `Stat` gives the size or fails, `ReadAll` is `io.ReadAll(f)` and
`ReadAllLimit n` is `io.ReadAll(io.LimitReader(f, n))`; `none` is an error. -/
structure OsFile where
  Stat : Option Nat
  ReadAll : Option String
  ReadAllLimit : Nat → Option String

/-- The services the engine calls outside the repository. -/
structure Host where
  Open : String → Option OsFile
  Compile : String → Option Regexp
  ToSlash : String → String

/-- An error value returned next to a result. -/
abbrev GoError := String

/-- The index matcher, represented by its method `FindFiles`: for a pattern, `none` when the
lookup aborts, otherwise the list of matching paths and the error value. -/
abbrev IndexMatcher := String → Option (List String × Option GoError)

/-! ## `match.go` -/

/-- Search of `substr` at every offset of the text: `strings.Contains` on character lists. -/
def containsAt (substr : List Char) : List Char → Bool
  | [] => substr.isPrefixOf []
  | c :: cs => substr.isPrefixOf (c :: cs) || containsAt substr cs

/-- The library function `strings.Contains`. -/
def stringsContains (s substr : String) : Bool :=
  containsAt substr.data s.data

/-- Loop of `containsAllKeywords` over the keywords. -/
def keywordLoop (contentText : String) : List String → Bool
  | [] => true
  | kw :: rest => if !stringsContains contentText kw then false else keywordLoop contentText rest

/-- The function `containsAllKeywords` of `match.go`. -/
def containsAllKeywords (content : String) (keywords : List String) : Bool :=
  if keywords.length = 0 then true
  else keywordLoop content keywords

/-- The function `extractVersionFromText` of `match.go`. -/
def extractVersionFromText (h : Host) (content : String) (pattern : String) : String :=
  match h.Compile pattern with
  | none => ""
  | some re =>
    let ms := re.FindSubmatch content
    if ms.length < 2 then "" else ms.getD 1 ""

/-- The function `extractVersionFromPath` of `match.go`. -/
def extractVersionFromPath (h : Host) (filePath : String) (pattern : String) : String :=
  let filePath := h.ToSlash filePath
  match h.Compile pattern with
  | none => ""
  | some re =>
    let ms := re.FindSubmatch filePath
    if ms.length < 2 then "" else ms.getD 1 ""

/-- The function `mapConfidenceLevel` of `match.go`. -/
def mapConfidenceLevel (level : String) : String :=
  if level = "L1" then ConfidenceHigh
  else if level = "L2" then ConfidenceMedium
  else if level = "L3" then ConfidenceLow
  else ConfidenceLow

/-! ## `engine.go` -/

/-- Assignment `m[k] = v` on a Go map. -/
def mapSet {β : Type} (m : List (String × β)) (k : String) (v : β) : List (String × β) :=
  (k, v) :: m.filter (fun p => p.1 != k)

/-- The test of `addRule` for an existing rule: same name, type and language. -/
def sameIdentity (r rule : FrameworkRuleDefinition) : Bool :=
  r.Name == rule.Name && r.Type_ == rule.Type_ && r.Language == rule.Language

/-- The first loop of `addRule`: position of the first rule with the identity of `rule`,
or `-1`. -/
def existingIndexLoop (rule : FrameworkRuleDefinition) : List FrameworkRuleDefinition → Nat → Int
  | [], _ => -1
  | r :: rest, i => if sameIdentity r rule then (i : Int) else existingIndexLoop rule rest (i + 1)

/-- The method `CanvasEngine.addRule`. -/
def addRule (e : CanvasEngine) (rule : FrameworkRuleDefinition) : CanvasEngine :=
  let existingIndex := existingIndexLoop rule e.rules 0
  let rules :=
    if existingIndex ≠ -1 then e.rules.set existingIndex.toNat rule
    else e.rules ++ [rule]
  if rule.Type_ = RuleTypeFramework then
    { rules := rules, frameworkRules := mapSet e.frameworkRules rule.Name rule,
      componentRules := e.componentRules }
  else if rule.Type_ = RuleTypeComponent then
    { rules := rules, frameworkRules := e.frameworkRules,
      componentRules := mapSet e.componentRules rule.Name rule }
  else
    { rules := rules, frameworkRules := e.frameworkRules, componentRules := e.componentRules }

/-- The empty engine created at the start of `NewCanvasEngine`. -/
def emptyEngine : CanvasEngine :=
  { rules := [], frameworkRules := [], componentRules := [] }

/-- The method `loadEmbeddedRules`, and the inner loop of `loadRulesFromDirectory`: every rule
of the list is added with `addRule`, in order. -/
def loadEmbeddedRules (e : CanvasEngine) (embeddedRules : List FrameworkRuleDefinition) :
    CanvasEngine :=
  embeddedRules.foldl addRule e

/-- Inner loop of `filterRulesByLanguages`: is the language of the rule one of the list. -/
def languageLoop (rule : FrameworkRuleDefinition) : List String → Bool
  | [] => false
  | lang :: rest => if rule.Language = lang then true else languageLoop rule rest

/-- Outer loop of `filterRulesByLanguages`. -/
def filterLoop (languages : List String) :
    List FrameworkRuleDefinition → List FrameworkRuleDefinition → List FrameworkRuleDefinition
  | [], filtered => filtered
  | rule :: rest, filtered =>
    if languageLoop rule languages then filterLoop languages rest (filtered ++ [rule])
    else filterLoop languages rest filtered

/-- The method `CanvasEngine.filterRulesByLanguages`. -/
def filterRulesByLanguages (e : CanvasEngine) (languages : List String) :
    List FrameworkRuleDefinition :=
  filterLoop languages e.rules []

/-- The closure `getFileContent` of `DetectFrameworks`: the content or an error, and the
cache after the call. -/
def getFileContent (h : Host) (fileContentCache : List (String × String)) (path : String) :
    Option String × List (String × String) :=
  match fileContentCache.lookup path with
  | some content => (some content, fileContentCache)
  | none =>
    match h.Open path with
    | none => (none, fileContentCache)
    | some f =>
      if f.Stat.any (fun size => size > 5 * 1024 * 1024) then
        match f.ReadAllLimit (1 * 1024 * 1024) with
        | none => (none, fileContentCache)
        | some content => (some content, (path, content) :: fileContentCache)
      else
        match f.ReadAll with
        | none => (none, fileContentCache)
        | some content => (some content, (path, content) :: fileContentCache)

/-- The mutable state of one run of `DetectFrameworks`: the two result lists and the cache. -/
structure DetectState where
  Frameworks : List DetectedItem
  Components : List DetectedItem
  fileContentCache : List (String × String)

/-- The version chosen for an accepted path (`engine.go`, "提取版本"). -/
def chooseVersion (h : Host) (ruleSet : RuleSet) (matchPath content : String) : String :=
  match ruleSet.ExtractVersionFromText with
  | some x => extractVersionFromText h content x.Pattern
  | none =>
    match ruleSet.ExtractVersionFromPath with
    | some y => extractVersionFromPath h matchPath y.Pattern
    | none => ""

/-- The evidence text of an accepted path. -/
def buildEvidence (ruleSet : RuleSet) (matchPath : String) : String :=
  let evidence := "Found " ++ matchPath
  if ruleSet.Contains.length > 0 then
    evidence ++ (" containing " ++ String.intercalate ", " ruleSet.Contains)
  else evidence

/-- The item built for an accepted path. -/
def buildItem (h : Host) (rule : FrameworkRuleDefinition) (level : String) (ruleSet : RuleSet)
    (matchPath content : String) : DetectedItem :=
  { Name := rule.Name
    Type_ := rule.Type_
    Language := rule.Language
    Version := chooseVersion h ruleSet matchPath content
    Category := rule.Category
    Confidence := mapConfidenceLevel level
    Evidence := buildEvidence ruleSet matchPath }

/-- The `switch rule.Type` that appends the item to one of the result lists. -/
def appendItem (st : DetectState) (rule : FrameworkRuleDefinition) (item : DetectedItem) :
    DetectState :=
  if rule.Type_ = RuleTypeFramework then
    { st with Frameworks := st.Frameworks ++ [item] }
  else if rule.Type_ = RuleTypeComponent then
    { st with Components := st.Components ++ [item] }
  else st

/-- The loop over the matched paths of one pattern; the flag is `matchFound`. -/
def matchLoop (h : Host) (rule : FrameworkRuleDefinition) (level : String) (ruleSet : RuleSet) :
    List String → DetectState → DetectState × Bool
  | [], st => (st, false)
  | matchPath :: rest, st =>
    if ruleSet.Contains.length > 0 || ruleSet.ExtractVersionFromText.isSome then
      match getFileContent h st.fileContentCache matchPath with
      | (none, cache) => matchLoop h rule level ruleSet rest { st with fileContentCache := cache }
      | (some content, cache) =>
        let st := { st with fileContentCache := cache }
        if !containsAllKeywords content ruleSet.Contains then
          matchLoop h rule level ruleSet rest st
        else
          (appendItem st rule (buildItem h rule level ruleSet matchPath content), true)
    else
      if !containsAllKeywords "" ruleSet.Contains then
        matchLoop h rule level ruleSet rest st
      else
        (appendItem st rule (buildItem h rule level ruleSet matchPath ""), true)

/-- The loop over the path patterns of one tier; `none` when `FindFiles` aborts. -/
def patternLoop (h : Host) (matcher : IndexMatcher) (rule : FrameworkRuleDefinition)
    (level : String) (ruleSet : RuleSet) :
    List String → DetectState → Option (DetectState × Bool)
  | [], st => some (st, false)
  | pathPattern :: rest, st =>
    match matcher pathPattern with
    | none => none
    | some (_, some _) => patternLoop h matcher rule level ruleSet rest st
    | some (ms, none) =>
      match matchLoop h rule level ruleSet ms st with
      | (st, true) => some (st, true)
      | (st, false) => patternLoop h matcher rule level ruleSet rest st

/-- The loop over the levels `L1`, `L2`, `L3` of one rule; `none` when a tier key is present
with a nil body (its `Paths` cannot be read) or when `FindFiles` aborts. -/
def levelLoop (h : Host) (matcher : IndexMatcher) (rule : FrameworkRuleDefinition) :
    List String → DetectState → Option (DetectState × Bool)
  | [], st => some (st, false)
  | level :: rest, st =>
    match rule.Levels.lookup level with
    | none => levelLoop h matcher rule rest st
    | some none => none
    | some (some ruleSet) =>
      match patternLoop h matcher rule level ruleSet ruleSet.Paths st with
      | none => none
      | some (st, true) => some (st, true)
      | some (st, false) => levelLoop h matcher rule rest st

/-- The loop over the filtered rules. -/
def ruleLoop (h : Host) (matcher : IndexMatcher) :
    List FrameworkRuleDefinition → DetectState → Option DetectState
  | [], st => some st
  | rule :: rest, st =>
    match levelLoop h matcher rule ["L1", "L2", "L3"] st with
    | none => none
    | some (st, _) => ruleLoop h matcher rest st

/-- The method `CanvasEngine.DetectFrameworks`: the result and the (always nil) error, or
`none` when the run aborts. -/
def DetectFrameworks (h : Host) (e : CanvasEngine) (matcher : IndexMatcher)
    (languages : List String) : Option (DetectionResult × Option GoError) :=
  let filteredRules := filterRulesByLanguages e languages
  match ruleLoop h matcher filteredRules
      { Frameworks := [], Components := [], fileContentCache := [] } with
  | none => none
  | some st => some ({ Frameworks := st.Frameworks, Components := st.Components }, none)

/-! ## A model of a fragment of the `regexp` package

Used to run the engine on concrete projects. The fragment: literal characters, `.`, character
classes with ranges and negation, the escapes `\d`, `\w`, `\s` and escaped punctuation,
the greedy repetitions `*`, `+`, `?`, alternation and capture groups, with the leftmost-first
match of a backtracking search. A pattern outside the fragment is rejected. -/

/-- Abstract syntax of the fragment. -/
inductive Re where
  | empty : Re
  | chr (c : Char) : Re
  | any : Re
  | cls (neg : Bool) (ranges : List (Char × Char)) : Re
  | seq (a b : Re) : Re
  | alt (a b : Re) : Re
  | star (a : Re) : Re
  | group (i : Nat) (a : Re) : Re
deriving Repr

/-- The text captured so far by each group. -/
abbrev Caps := List (Option (List Char))

/-- Where a match ends: the rest of the input and the captures. -/
abbrev MatchEnd := List Char × Caps

/-- Greedy repetition of a matcher; an iteration must consume input. -/
def starLoop (ma : List Char → Caps → (List Char → Caps → Option MatchEnd) → Option MatchEnd) :
    Nat → List Char → Caps → (List Char → Caps → Option MatchEnd) → Option MatchEnd
  | 0, s, c, k => k s c
  | n + 1, s, c, k =>
    match ma s c (fun s1 c1 => if s1.length < s.length then starLoop ma n s1 c1 k else none) with
    | some r => some r
    | none => k s c

/-- Backtracking match of an expression at the start of the input, then the continuation. -/
def Re.run : Re → List Char → Caps → (List Char → Caps → Option MatchEnd) → Option MatchEnd
  | .empty, s, c, k => k s c
  | .chr x, s, c, k =>
    match s with
    | y :: t => if x = y then k t c else none
    | [] => none
  | .any, s, c, k =>
    match s with
    | y :: t => if y = '\n' then none else k t c
    | [] => none
  | .cls neg rs, s, c, k =>
    match s with
    | y :: t =>
      if (rs.any fun r => decide (r.1 ≤ y) && decide (y ≤ r.2)) != neg then k t c else none
    | [] => none
  | .seq a b, s, c, k => a.run s c (fun s1 c1 => b.run s1 c1 k)
  | .alt a b, s, c, k =>
    match a.run s c k with
    | some r => some r
    | none => b.run s c k
  | .star a, s, c, k => starLoop a.run s.length s c k
  | .group i a, s, c, k =>
    a.run s c (fun s1 c1 => k s1 (c1.set i (some (s.take (s.length - s1.length)))))

/-- The submatches of a match starting here: the matched text, then each group. -/
def submatchesAt (re : Re) (n : Nat) (s : List Char) : Option (List String) :=
  match re.run s (List.replicate n none) (fun s1 c1 => some (s1, c1)) with
  | some (s1, c1) =>
    some (String.mk (s.take (s.length - s1.length)) :: c1.map (fun o => String.mk (o.getD [])))
  | none => none

/-- Leftmost match: the first start position, left to right, that has a match. -/
def findFrom (re : Re) (n : Nat) : List Char → List String
  | [] => (submatchesAt re n []).getD []
  | c :: t =>
    match submatchesAt re n (c :: t) with
    | some ms => ms
    | none => findFrom re n t

/-- One open parenthesis (or the top level) while a pattern is read. -/
structure Frame where
  groupIdx : Nat
  alts : List Re
  cur : List Re

/-- What the reader of a pattern is inside of. -/
inductive Mode where
  | normal
  | escape
  | cls (raw : List Char)
  | clsEscape (raw : List Char)

/-- State of the reader of a pattern. -/
structure PState where
  stack : List Frame
  top : Frame
  nGroups : Nat
  mode : Mode
  repeated : Bool

/-- The class `\d`. -/
def digitRanges : List (Char × Char) := [('0', '9')]

/-- The class `\w`. -/
def wordRanges : List (Char × Char) := [('0', '9'), ('a', 'z'), ('A', 'Z'), ('_', '_')]

/-- The class `\s`. -/
def spaceRanges : List (Char × Char) :=
  [(' ', ' '), ('\t', '\t'), ('\n', '\n'), ('\r', '\r'), (Char.ofNat 12, Char.ofNat 12)]

/-- An escaped character that stands for itself: ASCII punctuation. -/
def literalEscape (c : Char) : Bool :=
  !c.isAlphanum && decide (c.toNat < 128)

/-- The ranges of the body of a character class. -/
def classItems : List Char → Option (List (Char × Char))
  | [] => some []
  | '\\' :: 'd' :: t => (classItems t).map (digitRanges ++ ·)
  | '\\' :: 'w' :: t => (classItems t).map (wordRanges ++ ·)
  | '\\' :: 's' :: t => (classItems t).map (spaceRanges ++ ·)
  | '\\' :: c :: t => if literalEscape c then (classItems t).map ((c, c) :: ·) else none
  | ['\\'] => none
  | a :: '-' :: b :: t =>
    if b ≠ '\\' ∧ a ≤ b then (classItems t).map ((a, b) :: ·) else none
  | a :: t => (classItems t).map ((a, a) :: ·)

/-- The class expression of the text between the brackets. -/
def mkClass (raw : List Char) : Option Re :=
  match raw with
  | '^' :: body => if body.isEmpty then none else (classItems body).map (Re.cls true)
  | body => if body.isEmpty then none else (classItems body).map (Re.cls false)

/-- Concatenation of the atoms read so far (latest first). -/
def mkSeq (atomsRev : List Re) : Re :=
  atomsRev.foldl (fun acc a => Re.seq a acc) Re.empty

/-- The alternation a frame stands for. -/
def closeFrame (f : Frame) : Re :=
  f.alts.foldl (fun acc a => Re.alt a acc) (mkSeq f.cur)

/-- Append an atom to the current concatenation. -/
def pushAtom (st : PState) (a : Re) : PState :=
  { st with top := { st.top with cur := a :: st.top.cur }, mode := Mode.normal,
            repeated := false }

/-- The expression of an escape outside a class. -/
def escapeAtom (c : Char) : Option Re :=
  if c = 'd' then some (Re.cls false digitRanges)
  else if c = 'w' then some (Re.cls false wordRanges)
  else if c = 's' then some (Re.cls false spaceRanges)
  else if literalEscape c then some (Re.chr c)
  else none

/-- Apply a repetition operator to the last atom. -/
def repeatLast (st : PState) (f : Re → Re) : Option PState :=
  if st.repeated then none
  else
    match st.top.cur with
    | [] => none
    | a :: rest => some { st with top := { st.top with cur := f a :: rest }, repeated := true }

/-- One character of a pattern. -/
def parseStep (st : PState) (c : Char) : Option PState :=
  match st.mode with
  | Mode.escape => (escapeAtom c).map (pushAtom st)
  | Mode.clsEscape raw => some { st with mode := Mode.cls (raw ++ ['\\', c]) }
  | Mode.cls raw =>
    if c = ']' then (mkClass raw).map (pushAtom st)
    else if c = '\\' then some { st with mode := Mode.clsEscape raw }
    else some { st with mode := Mode.cls (raw ++ [c]) }
  | Mode.normal =>
    if c = '\\' then some { st with mode := Mode.escape }
    else if c = '[' then some { st with mode := Mode.cls [] }
    else if c = '(' then
      some { st with stack := st.top :: st.stack,
                     top := { groupIdx := st.nGroups, alts := [], cur := [] },
                     nGroups := st.nGroups + 1, repeated := false }
    else if c = ')' then
      match st.stack with
      | [] => none
      | parent :: rest =>
        some { st with stack := rest,
                       top := { parent with
                         cur := Re.group st.top.groupIdx (closeFrame st.top) :: parent.cur },
                       repeated := false }
    else if c = '|' then
      some { st with top := { st.top with alts := mkSeq st.top.cur :: st.top.alts, cur := [] },
                     repeated := false }
    else if c = '*' then repeatLast st Re.star
    else if c = '+' then repeatLast st (fun a => Re.seq a (Re.star a))
    else if c = '?' then repeatLast st (fun a => Re.alt a Re.empty)
    else if c = '.' then some (pushAtom st Re.any)
    else if c = '^' || c = '$' || c = ']' || c.toNat = 123 || c.toNat = 125 then none
    else some (pushAtom st (Re.chr c))

/-- All characters of a pattern, left to right. -/
def parseLoop : List Char → PState → Option PState
  | [], st => some st
  | c :: cs, st =>
    match parseStep st c with
    | none => none
    | some st1 => parseLoop cs st1

/-- The expression of a pattern and its number of groups, or `none` for a rejected pattern. -/
def parseRe (pattern : String) : Option (Re × Nat) :=
  match parseLoop pattern.data
      { stack := [], top := { groupIdx := 0, alts := [], cur := [] }, nGroups := 0,
        mode := Mode.normal, repeated := false } with
  | none => none
  | some st =>
    match st.mode, st.stack with
    | Mode.normal, [] => some (closeFrame st.top, st.nGroups)
    | _, _ => none

/-- The model of `regexp.Compile`. -/
def modelCompile (pattern : String) : Option Regexp :=
  (parseRe pattern).map fun p => { FindSubmatch := fun s => findFrom p.1 p.2 s.data }

/-! ## A concrete project, used to run the engine -/

/-- The files of the project and their contents. -/
def demoFiles : List (String × String) :=
  [("/proj/index.js", "const x = require('express')"),
   ("/proj/pom.xml", "<project><version>7.8.9</version></project>"),
   ("/proj/lib/core-2.4.1.jar", "binary")]

/-- The host of the project: its files, the regexp model, Unix path separators. -/
def demoHost : Host :=
  { Open := fun p => (demoFiles.lookup p).map fun c =>
      { Stat := some c.length, ReadAll := some c,
        ReadAllLimit := fun n => some (String.mk (c.data.take n)) }
    Compile := modelCompile
    ToSlash := fun p => p }

/-- The matcher of the project: what `FindFiles` returns for the patterns of the rules. -/
def demoMatcher : IndexMatcher := fun pattern =>
  if pattern = "*.js" then some (["/proj/index.js"], none)
  else if pattern = "pom.xml" then some (["/proj/pom.xml"], none)
  else if pattern = "*.jar" then some (["/proj/lib/core-2.4.1.jar"], none)
  else some ([], none)

/-- A framework rule with an `L1` tier that needs a keyword and an `L2` tier that does not. -/
def expressRule : FrameworkRuleDefinition :=
  { Name := "Express", Type_ := "framework", Language := "JavaScript", Category := "backend"
    Levels :=
      [("L1", some { Paths := ["package.json", "*.js"], Contains := ["express"],
                     ExtractVersionFromText := none, ExtractVersionFromPath := none }),
       ("L2", some { Paths := ["*.js"], Contains := [],
                     ExtractVersionFromText := none, ExtractVersionFromPath := none })] }

/-- A component rule whose tier has both a content-version and a path-version regex. -/
def mavenRule : FrameworkRuleDefinition :=
  { Name := "Maven", Type_ := "component", Language := "Java", Category := "backend"
    Levels :=
      [("L1", some { Paths := ["pom.xml"], Contains := [],
                     ExtractVersionFromText := some { Pattern := "<version>([^<]+)</version>" },
                     ExtractVersionFromPath := some { Pattern := "([a-z]+)\\.xml" } })] }

/-- A component rule found at `L2` only, with a path-version regex. -/
def coreJarRule : FrameworkRuleDefinition :=
  { Name := "core", Type_ := "component", Language := "Java", Category := "backend"
    Levels :=
      [("L1", some { Paths := ["*.jar"], Contains := ["no such text"],
                     ExtractVersionFromText := none, ExtractVersionFromPath := none }),
       ("L2", some { Paths := ["*.jar"], Contains := [],
                     ExtractVersionFromText := none,
                     ExtractVersionFromPath := some { Pattern := "core-([\\d.]+)\\.jar" } })] }

/-- A rule for a language the project does not have. -/
def djangoRule : FrameworkRuleDefinition :=
  { Name := "Django", Type_ := "framework", Language := "Python", Category := "backend"
    Levels :=
      [("L1", some { Paths := ["*.js"], Contains := [],
                     ExtractVersionFromText := none, ExtractVersionFromPath := none })] }

/-- An earlier version of the Maven rule, overridden when `mavenRule` is loaded after it. -/
def oldMavenRule : FrameworkRuleDefinition :=
  { Name := "Maven", Type_ := "component", Language := "Java", Category := "build"
    Levels :=
      [("L3", some { Paths := ["*.jar"], Contains := [],
                     ExtractVersionFromText := none, ExtractVersionFromPath := none })] }

/-- A rule whose type is neither framework nor component; its tier accepts `index.js`. -/
def lodashRule : FrameworkRuleDefinition :=
  { Name := "lodash", Type_ := "library", Language := "JavaScript", Category := "frontend"
    Levels :=
      [("L1", some { Paths := ["*.js"], Contains := [],
                     ExtractVersionFromText := none, ExtractVersionFromPath := none })] }

/-- The rules in load order. -/
def demoRules : List FrameworkRuleDefinition :=
  [oldMavenRule, expressRule, djangoRule, lodashRule, mavenRule, coreJarRule]

/-- The engine after loading the rules. -/
def demoEngine : CanvasEngine := loadEmbeddedRules emptyEngine demoRules

/-- The languages detected in the project. -/
def demoLanguages : List String := ["JavaScript", "Java"]

/-- The item detected for the Express rule. -/
def expressItem : DetectedItem :=
  { Name := "Express", Type_ := "framework", Language := "JavaScript", Version := "",
    Category := "backend", Confidence := "high",
    Evidence := "Found /proj/index.js containing express" }

/-- The item detected for the Maven rule. -/
def mavenItem : DetectedItem :=
  { Name := "Maven", Type_ := "component", Language := "Java", Version := "7.8.9",
    Category := "backend", Confidence := "high", Evidence := "Found /proj/pom.xml" }

/-- The item detected for the core rule. -/
def coreJarItem : DetectedItem :=
  { Name := "core", Type_ := "component", Language := "Java", Version := "2.4.1",
    Category := "backend", Confidence := "medium",
    Evidence := "Found /proj/lib/core-2.4.1.jar" }

/-- The result of detection on the project. -/
def demoResult : DetectionResult :=
  { Frameworks := [expressItem], Components := [mavenItem, coreJarItem] }

/-! ## Specification vocabulary: the nested early-exit search -/

/-- What reading a file yields on the host when nothing is cached: the content, or `none`
when the file cannot be opened or read. -/
def readContent (h : Host) (path : String) : Option String :=
  (getFileContent h [] path).1

/-- The paths `FindFiles` returns for a pattern; no path when it reports an error or aborts. -/
def foundPaths (matcher : IndexMatcher) (pattern : String) : List String :=
  match matcher pattern with
  | some (ms, none) => ms
  | _ => []

/-- A tier needs the content of a path when it has keywords or a content-version regex. -/
def needsContent (ruleSet : RuleSet) : Prop :=
  ruleSet.Contains ≠ [] ∨ ruleSet.ExtractVersionFromText ≠ none

instance (ruleSet : RuleSet) : Decidable (needsContent ruleSet) := by
  unfold needsContent; infer_instance

/-- Acceptance of a path by a tier, following the specification: the content is loaded only
when needed and must then be readable, and every required keyword is a literal substring of
the content. The value is the content in hand at acceptance (empty when none was loaded). -/
def acceptedContent (h : Host) (ruleSet : RuleSet) (path : String) : Option String :=
  if needsContent ruleSet then
    match readContent h path with
    | none => none
    | some content =>
      if ∀ kw ∈ ruleSet.Contains, kw.data <:+: content.data then some content else none
  else some ""

/-- An accepted path together with where it was found. -/
structure Hit where
  level : String
  ruleSet : RuleSet
  path : String
  content : String
deriving DecidableEq, Repr

/-- First accepted path among the paths matched by one pattern. -/
def firstHitOfPaths (h : Host) (level : String) (ruleSet : RuleSet) (paths : List String) :
    Option Hit :=
  paths.findSome? fun p =>
    (acceptedContent h ruleSet p).map fun c => ⟨level, ruleSet, p, c⟩

/-- First accepted path of a tier: first pattern that has one, first such path. -/
def firstHitOfTier (h : Host) (matcher : IndexMatcher) (level : String) (ruleSet : RuleSet) :
    Option Hit :=
  ruleSet.Paths.findSome? fun pat => firstHitOfPaths h level ruleSet (foundPaths matcher pat)

/-- First accepted path over a list of tier labels, visited in order; a label with no tier
body contributes nothing. -/
def firstHitOfLevels (h : Host) (matcher : IndexMatcher) (rule : FrameworkRuleDefinition)
    (levels : List String) : Option Hit :=
  levels.findSome? fun lv =>
    match rule.Levels.lookup lv with
    | some (some ruleSet) => firstHitOfTier h matcher lv ruleSet
    | _ => none

/-- First accepted path of a rule: tiers in the fixed order `L1`, `L2`, `L3`. -/
def firstHit (h : Host) (matcher : IndexMatcher) (rule : FrameworkRuleDefinition) : Option Hit :=
  firstHitOfLevels h matcher rule ["L1", "L2", "L3"]

/-- The item a rule yields for a hit. -/
def hitItem (h : Host) (rule : FrameworkRuleDefinition) (hit : Hit) : DetectedItem :=
  buildItem h rule hit.level hit.ruleSet hit.path hit.content

/-- The item a rule yields, if any: the one of its first hit. -/
def ruleItem (h : Host) (matcher : IndexMatcher) (rule : FrameworkRuleDefinition) :
    Option DetectedItem :=
  (firstHit h matcher rule).map (hitItem h rule)

/-- The items of the rules of one type, in rule order. -/
def itemsOfType (h : Host) (matcher : IndexMatcher) (ty : String)
    (rules : List FrameworkRuleDefinition) : List DetectedItem :=
  rules.filterMap fun r => if r.Type_ = ty then ruleItem h matcher r else none

/-- No path that `FindFiles` returns for a pattern of the tier is accepted. -/
def NoAcceptedPath (h : Host) (matcher : IndexMatcher) (ruleSet : RuleSet) : Prop :=
  ∀ pat ∈ ruleSet.Paths, ∀ p ∈ foundPaths matcher pat, acceptedContent h ruleSet p = none

/-- Nothing can abort a run over these rules: `FindFiles` returns for every pattern, and no
rule has one of the keys `L1`, `L2`, `L3` present with a nil tier body. -/
def NoAbort (matcher : IndexMatcher) (rules : List FrameworkRuleDefinition) : Prop :=
  (∀ pat, matcher pat ≠ none) ∧
  ∀ r ∈ rules, ∀ lv ∈ ["L1", "L2", "L3"], r.Levels.lookup lv ≠ some none

/-- The identity of a rule: name, type and language. -/
def ruleIdentity (r : FrameworkRuleDefinition) : String × String × String :=
  (r.Name, r.Type_, r.Language)

/-- The identity of the rule an item was built from. -/
def itemIdentity (i : DetectedItem) : String × String × String :=
  (i.Name, i.Type_, i.Language)

/-- Every cached content is the content the host yields for that path. -/
def CacheOK (h : Host) (cache : List (String × String)) : Prop :=
  ∀ p c, cache.lookup p = some c → readContent h p = some c

/-- What a rule contributes to the result list of type `ty`: its item when the rule has that
type. -/
def emitted (ty : String) (rule : FrameworkRuleDefinition) (o : Option DetectedItem) :
    List DetectedItem :=
  if rule.Type_ = ty then o.toList else []

/-- Replacement in place of the first rule with the identity of `rule`, or insertion at the
end: the effect of `addRule` on the rule list. -/
def upsert (rule : FrameworkRuleDefinition) :
    List FrameworkRuleDefinition → List FrameworkRuleDefinition
  | [] => [rule]
  | r :: rest => if sameIdentity r rule then rule :: rest else r :: upsert rule rest

/-! ## Library functions on strings (`strings`, `unicode`)

The functions that depend on the letter case tables of Unicode, `strings.ToLower` and
`strings.EqualFold`, are parameters of the matcher (`PathLib`). The versions below are their
restriction to the texts made of ASCII characters, the long s U+017F and the Kelvin sign
U+212A (the two other code points that fold to an ASCII letter), and the dotted capital I
U+0130 (whose lowercase form is the ASCII letter `i`). -/

/-- The library function `strings.HasPrefix`. -/
def stringsHasPrefix (s pre : String) : Bool :=
  pre.data.isPrefixOf s.data

/-- The library function `strings.HasSuffix`. -/
def stringsHasSuffix (s suf : String) : Bool :=
  suf.data.reverse.isPrefixOf s.data.reverse

/-- The library function `strings.TrimPrefix`. -/
def stringsTrimPrefix (s pre : String) : String :=
  if stringsHasPrefix s pre then String.mk (s.data.drop pre.data.length) else s

/-- The slice `s[n:]` of a string. -/
def sliceFrom (s : String) (n : Nat) : String :=
  String.mk (s.data.drop n)

/-- The library function `unicode.ToLower` on these characters: a capital becomes its small
letter, the Kelvin sign becomes `k`, the dotted capital I becomes `i`, and the long s, a small
letter, stays. -/
def unicodeToLower (c : Char) : Char :=
  if c.toNat = 8490 then 'k' else if c.toNat = 304 then 'i' else c.toLower

/-- The smallest member of the orbit of a code point under `unicode.SimpleFold`, on the same
characters: the orbit of `k` holds the Kelvin sign, the orbit of `s` holds the long s, and the
dotted capital I is alone in its orbit. -/
def foldOrbit (c : Char) : Char :=
  if c.toNat = 8490 then 'K' else if c.toNat = 383 then 'S' else c.toUpper

/-- The library function `strings.ToLower` on these texts. -/
def stringsToLower (s : String) : String :=
  String.mk (s.data.map unicodeToLower)

/-- The loop of `strings.EqualFold`: the texts are equal code point by code point, up to
simple case folding. -/
def foldEq : List Char → List Char → Bool
  | [], [] => true
  | a :: s, b :: t => foldOrbit a == foldOrbit b && foldEq s t
  | _, _ => false

/-- The library function `strings.EqualFold` on these texts. -/
def stringsEqualFold (s t : String) : Bool :=
  foldEq s.data t.data

/-- The library function `unicode.IsSpace`: the white space characters of Unicode. -/
def isSpace (c : Char) : Bool :=
  let n := c.toNat
  n = 9 || n = 10 || n = 11 || n = 12 || n = 13 || n = 32 || n = 133 || n = 160 ||
  n = 5760 || (8192 ≤ n && n ≤ 8202) || n = 8232 || n = 8233 || n = 8239 || n = 8287 ||
  n = 12288

/-- The library function `strings.TrimSpace`: leading and trailing white space removed. -/
def stringsTrimSpace (s : String) : String :=
  String.mk ((s.data.dropWhile isSpace).reverse.dropWhile isSpace).reverse

/-! ## `internal/analyzer`: the line classifier (`counter.go`, `filelangsats.go`) -/

/-- The type `LanguageDefinition` of `languages.go`; an entry of `MultiLine` is a pair
`[Start, End]`, as its declaration says. -/
structure LanguageDefinition where
  Name : String
  LineComments : List String
  MultiLine : List (String × String)
  Extensions : List String
  Filenames : List String
deriving DecidableEq, Repr

/-- The type `FileStats`; each counter grows by one a line, so the `int64` counters are natural
numbers here. -/
structure FileStats where
  Code : Nat
  Comment : Nat
  Blank : Nat
  Lines : Nat
deriving DecidableEq, Repr

/-- What opening and scanning a file yields: the error of `os.Open`, or the texts
`scanner.Text()` of the successful calls of `scanner.Scan()`, in order, with the final
`scanner.Err()`. -/
abbrev FileScanner := String → Except GoError (List String × Option GoError)

/-- The variables of the scanning loop of `CountFile`. -/
structure CountState where
  stats : FileStats
  inBlockComment : Bool
  currentBlockEnd : String
deriving DecidableEq, Repr

/-- The state before the first line. -/
def initialCountState : CountState :=
  { stats := { Code := 0, Comment := 0, Blank := 0, Lines := 0 },
    inBlockComment := false, currentBlockEnd := "" }

/-- The statement `stats.Comment++`. -/
def incComment (st : CountState) : CountState :=
  { st with stats := { st.stats with Comment := st.stats.Comment + 1 } }

/-- The statement `stats.Blank++`. -/
def incBlank (st : CountState) : CountState :=
  { st with stats := { st.stats with Blank := st.stats.Blank + 1 } }

/-- The statement `stats.Code++`. -/
def incCode (st : CountState) : CountState :=
  { st with stats := { st.stats with Code := st.stats.Code + 1 } }

/-- The statement `stats.Lines++`. -/
def incLines (st : CountState) : CountState :=
  { st with stats := { st.stats with Lines := st.stats.Lines + 1 } }

/-- The loop of `CountFile` over `lang.MultiLine`; the flag is `blockStarted`. -/
def blockStartLoop (line : String) : List (String × String) → CountState → CountState × Bool
  | [], st => (st, false)
  | block :: rest, st =>
    if stringsHasPrefix line block.1 then
      let st := incComment { st with inBlockComment := true, currentBlockEnd := block.2 }
      if stringsContains (sliceFrom line block.1.length) block.2 then
        ({ st with inBlockComment := false, currentBlockEnd := "" }, true)
      else (st, true)
    else blockStartLoop line rest st

/-- The loop of `CountFile` over `lang.LineComments`; the flag is `isLineComment`. -/
def lineCommentLoop (line : String) : List String → CountState → CountState × Bool
  | [], st => (st, false)
  | c :: rest, st =>
    if stringsHasPrefix line c then (incComment st, true)
    else lineCommentLoop line rest st

/-- The body of the scanning loop of `CountFile` for one scanned text. -/
def countLine (lang : LanguageDefinition) (st : CountState) (text : String) : CountState :=
  let line := stringsTrimSpace text
  let st := incLines st
  if line = "" then
    if st.inBlockComment then incComment st else incBlank st
  else if st.inBlockComment then
    let st := incComment st
    if stringsContains line st.currentBlockEnd then
      { st with inBlockComment := false, currentBlockEnd := "" }
    else st
  else
    match blockStartLoop line lang.MultiLine st with
    | (st, true) => st
    | (st, false) =>
      match lineCommentLoop line lang.LineComments st with
      | (st, true) => st
      | (st, false) => incCode st

/-- The scanning loop of `CountFile` over the scanned texts. -/
def countLines (lang : LanguageDefinition) (st : CountState) (texts : List String) :
    CountState :=
  texts.foldl (countLine lang) st

/-- The function `CountFile` of `counter.go`. -/
def CountFile (scan : FileScanner) (path : String) (lang : LanguageDefinition) :
    FileStats × Option GoError :=
  match scan path with
  | .error err => ({ Code := 0, Comment := 0, Blank := 0, Lines := 0 }, some err)
  | .ok (texts, scanErr) => ((countLines lang initialCountState texts).stats, scanErr)

/-- The variables of the scanning loop of `CountFileStats`. -/
structure StatsState where
  stats : FileStats
  inBlockComment : Bool
deriving DecidableEq, Repr

/-- The body of the scanning loop of `CountFileStats` for one scanned text. -/
def countStatsLine (st : StatsState) (line : String) : StatsState :=
  let st := { st with stats := { st.stats with Lines := st.stats.Lines + 1 } }
  let trimmedLine := stringsTrimSpace line
  if trimmedLine = "" then
    if st.inBlockComment then
      { st with stats := { st.stats with Comment := st.stats.Comment + 1 } }
    else { st with stats := { st.stats with Blank := st.stats.Blank + 1 } }
  else if st.inBlockComment then
    let st := { st with stats := { st.stats with Comment := st.stats.Comment + 1 } }
    if stringsContains line "*/" then { st with inBlockComment := false } else st
  else if stringsContains line "/*" then
    let st := { st with stats := { st.stats with Comment := st.stats.Comment + 1 } }
    if !stringsContains line "*/" then { st with inBlockComment := true } else st
  else if stringsHasPrefix trimmedLine "//" || stringsHasPrefix trimmedLine "#" then
    { st with stats := { st.stats with Comment := st.stats.Comment + 1 } }
  else if stringsContains line "//" || stringsContains line "#" then
    { st with stats := { st.stats with Code := st.stats.Code + 1 } }
  else { st with stats := { st.stats with Code := st.stats.Code + 1 } }

/-- The function `CountFileStats` of `filelangsats.go`. -/
def CountFileStats (scan : FileScanner) (path : String) : FileStats × Option GoError :=
  match scan path with
  | .error err => ({ Code := 0, Comment := 0, Blank := 0, Lines := 0 }, some err)
  | .ok (texts, scanErr) =>
    ((texts.foldl countStatsLine
      { stats := { Code := 0, Comment := 0, Blank := 0, Lines := 0 },
        inBlockComment := false }).stats, scanErr)

/-! ## Concrete files, used to run the line classifier -/

/-- The definition of Go in `languages.go`. -/
def goLanguage : LanguageDefinition :=
  { Name := "Go", LineComments := ["//"], MultiLine := [("/*", "*/")],
    Extensions := [".go"], Filenames := [] }

/-- The definition of Python in `languages.go`: two pairs of block-comment markers. -/
def pythonLanguage : LanguageDefinition :=
  { Name := "Python", LineComments := ["#"],
    MultiLine := [("\"\"\"", "\"\"\""), ("'''", "'''")],
    Extensions := [".py"], Filenames := [] }

/-- A definition with two pairs that share the start marker and differ in the end marker. -/
def markupLanguage : LanguageDefinition :=
  { Name := "Markup", LineComments := [], MultiLine := [("<!--", "--!>"), ("<!--", "-->")],
    Extensions := [".mu"], Filenames := [] }

/-- A definition whose only pair has empty markers. -/
def emptyMarkerLanguage : LanguageDefinition :=
  { Name := "Empty", LineComments := [], MultiLine := [("", "")],
    Extensions := [], Filenames := [] }

/-- The scanned texts of the files of the project. -/
def demoTexts : List (String × List String) :=
  [("/proj/main.go",
      ["package main", "", "// comment", "/* one line */", "x := 1 /* start", "  y := 2",
       "/* open", "", "   still */", "z := 3"]),
   ("/proj/plain.go", ["package main", "   ", "x := 1", "", "y := 2"]),
   ("/proj/doc.py", ["''' open", "", "\"\"\"", "x = 1", "closed ''' here", "y = 2"]),
   ("/proj/page.mu", ["<!-- note -->", "x = 1"])]

/-- The scanner of the project: a file that is not listed cannot be opened. -/
def demoScanner : FileScanner := fun path =>
  match demoTexts.lookup path with
  | some texts => .ok (texts, none)
  | none => .error "open: no such file"

/-! ## Library functions on paths (`path`, `path/filepath`, `regexp`) -/

/-- The library function `path.Base` on characters: trailing slashes are removed and the text
after the last slash is kept; `.` for the empty path and `/` for a path of slashes only. -/
def baseChars (p : List Char) : List Char :=
  if p = [] then ['.']
  else
    let stripped := (p.reverse.dropWhile (fun c => c == '/')).reverse
    let last := (stripped.reverse.takeWhile (fun c => c != '/')).reverse
    if last = [] then ['/'] else last

/-- The library function `path.Base`. -/
def pathBase (p : String) : String :=
  String.mk (baseChars p.data)

/-- The library function `filepath.Ext` on characters, read from the end of the path: the
suffix that begins at the last dot of the last element, or nothing. -/
def extChars : List Char → List Char → List Char
  | [], _ => []
  | c :: before, after =>
    if c = '/' then []
    else if c = '.' then c :: after
    else extChars before (c :: after)

/-- The library function `filepath.Ext` (with `/` as the path separator). -/
def filepathExt (p : String) : String :=
  String.mk (extChars p.data.reverse [])

/-- The library function `strings.ReplaceAll` for a non-empty `old`: the first argument counts
the characters of a replaced occurrence that are still to be skipped. -/
def replaceChars (old new : List Char) : Nat → List Char → List Char
  | _, [] => []
  | skip + 1, _ :: cs => replaceChars old new skip cs
  | 0, c :: cs =>
    if old.isPrefixOf (c :: cs) then new ++ replaceChars old new (old.length - 1) cs
    else c :: replaceChars old new 0 cs

/-- The library function `strings.ReplaceAll`, for a non-empty `old`. -/
def stringsReplaceAll (s old new : String) : String :=
  String.mk (replaceChars old.data new.data 0 s.data)

/-- A character that `regexp.QuoteMeta` escapes. -/
def isRegexpMeta (c : Char) : Bool :=
  c = '\\' || c = '.' || c = '+' || c = '*' || c = '?' || c = '(' || c = ')' || c = '|' ||
  c = '[' || c = ']' || c.toNat = 123 || c.toNat = 125 || c = '^' || c = '$'

/-- The library function `regexp.QuoteMeta`. -/
def regexpQuoteMeta (s : String) : String :=
  String.mk (s.data.flatMap fun c => if isRegexpMeta c then ['\\', c] else [c])

/-- The library function `regexp.MatchString`: the pattern is compiled and searched in the
text. -/
def regexpMatchString (h : Host) (pattern s : String) : Bool × Option GoError :=
  match h.Compile pattern with
  | none => (false, some "regexp: error parsing pattern")
  | some re => (!(re.FindSubmatch s).isEmpty, none)

/-- The library functions the matcher calls whose rules or tables are outside the repository:
`filepath.Join` of two elements, `path.Match`, and the letter case functions `strings.ToLower`
and `strings.EqualFold`. -/
structure PathLib where
  Join : String → String → String
  Match : String → String → Bool × Option GoError
  ToLower : String → String
  EqualFold : String → String → Bool

/-! ## The file index and `IndexMatcher.FindFiles` (`match.go`) -/

/-- Modelled from the spec: `model.FileIndex`, whose declaration is not part of the sources:
the ordered relative paths, the map from a lowercase filename to positions, the map from a
lowercase extension to positions, and the absolute root directory. A position is a Go
`int`. -/
structure FileIndex where
  RootDir : String
  Files : List String
  NameMap : List (String × List Int)
  ExtensionMap : List (String × List Int)
deriving DecidableEq, Repr

/-- The index expression `m.Index.Files[idx]`: `none` when the position is out of range. -/
def fileAt (index : FileIndex) (idx : Int) : Option String :=
  if 0 ≤ idx then index.Files[idx.toNat]? else none

/-- The value of a Go map of position lists at a key; an absent key gives no position. -/
def positionsAt (m : List (String × List Int)) (key : String) : List Int :=
  (m.lookup key).getD []

/-- The loops of `FindFiles` over a list of positions: the absolute form of every file at a
listed position that passes the test is appended; `none` when a position is out of range. -/
def collectAt (lib : PathLib) (index : FileIndex) (keep : String → Bool) :
    List Int → List String → Option (List String)
  | [], results => some results
  | idx :: rest, results =>
    match fileAt index idx with
    | none => none
    | some f =>
      if keep f then collectAt lib index keep rest (results ++ [lib.Join index.RootDir f])
      else collectAt lib index keep rest results

/-- The loops of `FindFiles` over all indexed paths: the absolute form of every path that
passes the test is appended. -/
def collectFiles (lib : PathLib) (index : FileIndex) (keep : String → Bool) :
    List String → List String → List String
  | [], results => results
  | fileRelPath :: rest, results =>
    if keep fileRelPath then
      collectFiles lib index keep rest (results ++ [lib.Join index.RootDir fileRelPath])
    else collectFiles lib index keep rest results

/-- The function `matchPath` of `match.go`. -/
def matchPath (h : Host) (lib : PathLib) (pattern name : String) : Bool × Option GoError :=
  let pattern := h.ToSlash pattern
  if stringsContains pattern "**" then
    let regexPat := regexpQuoteMeta pattern
    let regexPat := stringsReplaceAll regexPat "\\*\\*" ".*"
    let regexPat := stringsReplaceAll regexPat "\\*" "[^/]*"
    let regexPat := "^" ++ regexPat ++ "$"
    regexpMatchString h ("(?i:" ++ regexPat ++ ")") name
  else lib.Match (lib.ToLower pattern) (lib.ToLower name)

/-- The method `IndexMatcher.FindFiles`: the matching absolute paths and the (always nil)
error, or `none` when an index access is out of range. -/
def FindFiles (h : Host) (lib : PathLib) (index : FileIndex) (pattern : String) :
    Option (List String × Option GoError) :=
  if stringsHasPrefix pattern "/" then
    let target := stringsTrimPrefix pattern "/"
    match collectAt lib index (fun f => lib.EqualFold f target)
        (positionsAt index.NameMap (lib.ToLower (pathBase target))) [] with
    | none => none
    | some results => some (results, none)
  else if !stringsContains pattern "/" && !stringsContains pattern "*" then
    match collectAt lib index (fun _ => true)
        (positionsAt index.NameMap (lib.ToLower pattern)) [] with
    | none => none
    | some results => some (results, none)
  else if stringsHasPrefix pattern "*." && !stringsContains (sliceFrom pattern 1) "/" then
    let ext := lib.ToLower (sliceFrom pattern 1)
    match collectAt lib index (fun _ => true) (positionsAt index.ExtensionMap ext) [] with
    | none => none
    | some results => some (results, none)
  else if stringsHasSuffix pattern "/" then
    let patternLower := lib.ToLower pattern
    some (collectFiles lib index
      (fun fileRelPath => stringsHasPrefix (lib.ToLower fileRelPath) patternLower)
      index.Files [], none)
  else
    some (collectFiles lib index
      (fun fileRelPath =>
        match matchPath h lib pattern fileRelPath with
        | (matched, err) => err.isNone && matched)
      index.Files [], none)

/-- The index matcher of a file index (`NewIndexMatcher`), as used by `DetectFrameworks`. -/
def NewIndexMatcher (h : Host) (lib : PathLib) (index : FileIndex) : IndexMatcher :=
  FindFiles h lib index

/-! ## The index invariant -/

/-- The filename map lists, under each lowercase filename, exactly the positions of the
paths with that filename. -/
def NameMapExact (lib : PathLib) (index : FileIndex) : Prop :=
  ∀ key idx, idx ∈ positionsAt index.NameMap key ↔
    ∃ f, fileAt index idx = some f ∧ lib.ToLower (pathBase f) = key

/-- The extension of an indexed path: the extension of its filename, as the walk passes it to
`AddFile`. -/
def fileExtension (f : String) : String :=
  filepathExt (pathBase f)

/-- The extension map lists, under each lowercase extension, exactly the positions of the
paths with that extension. Nothing is asked of the entry of the files without extension. -/
def ExtensionMapExact (lib : PathLib) (index : FileIndex) : Prop :=
  ∀ ext, ext ≠ "" → ∀ idx, idx ∈ positionsAt index.ExtensionMap (lib.ToLower ext) ↔
    ∃ f, fileAt index idx = some f ∧ lib.ToLower (fileExtension f) = lib.ToLower ext

/-- Every position stored in the filename map and in the extension map is a valid index into
the path sequence. -/
def PositionsValid (index : FileIndex) : Prop :=
  (∀ key, ∀ idx ∈ positionsAt index.NameMap key, ∃ f, fileAt index idx = some f) ∧
  (∀ key, ∀ idx ∈ positionsAt index.ExtensionMap key, ∃ f, fileAt index idx = some f)

/-! ## Building the file index -/

/-- Modelled from the spec: `model.NewFileIndex`, which is not part of the sources: the empty
index of a root directory. -/
def NewFileIndex (rootDir : String) : FileIndex :=
  { RootDir := rootDir, Files := [], NameMap := [], ExtensionMap := [] }

/-- The statement `m[key] = append(m[key], idx)` on a map of position lists. -/
def mapAppend (m : List (String × List Int)) (key : String) (idx : Int) :
    List (String × List Int) :=
  mapSet m key (positionsAt m key ++ [idx])

/-- Modelled from the spec: `FileIndex.AddFile(relPath, name, ext)`, which is not part of the
sources: the path is appended to the ordered sequence and its position is recorded under the
lowercase filename and under the lowercase extension. -/
def AddFile (lib : PathLib) (index : FileIndex) (relPath name ext : String) : FileIndex :=
  { RootDir := index.RootDir
    Files := index.Files ++ [relPath]
    NameMap := mapAppend index.NameMap (lib.ToLower name) (index.Files.length : Int)
    ExtensionMap := mapAppend index.ExtensionMap (lib.ToLower ext)
      (index.Files.length : Int) }

/-- The index after the walk of `AnalyzeCodeProfile` has met the given relative paths, in
order: each is added with its filename and the extension of the filename. -/
def indexOfPaths (lib : PathLib) (rootDir : String) (relPaths : List String) : FileIndex :=
  relPaths.foldl (fun index relPath => AddFile lib index relPath (pathBase relPath)
    (filepathExt (pathBase relPath))) (NewFileIndex rootDir)

/-! ## A model of `path.Match` for patterns of literal characters and `*` -/

/-- Match of a pattern of literal characters and `*` against a name; `*` stands for any
sequence of characters other than `/`. -/
def globChars : List Char → List Char → Bool
  | [], name => name.isEmpty
  | '*' :: ps, name =>
    ((name.takeWhile (fun c => c != '/')).inits).any fun taken =>
      globChars ps (name.drop taken.length)
  | p :: ps, name =>
    match name with
    | [] => false
    | c :: cs => p == c && globChars ps cs

/-- The model of `path.Match`; a pattern with `?`, `[` or a backslash is outside the model
and reported as a bad pattern. -/
def modelMatch (pattern name : String) : Bool × Option GoError :=
  if pattern.data.any (fun c => c = '?' || c = '[' || c = '\\') then
    (false, some "syntax error in pattern")
  else (globChars pattern.data name.data, none)

/-! ## A concrete file index -/

/-- The library functions of the concrete project: clean paths joined by a slash, and the
letter case functions on its texts. -/
def demoLib : PathLib :=
  { Join := fun root rel => root ++ "/" ++ rel
    Match := modelMatch
    ToLower := stringsToLower
    EqualFold := stringsEqualFold }

/-- The relative paths of the project, in discovery order. -/
def demoPaths : List String :=
  ["index.js", "pom.xml", "src/App/Main.GO", "docs/README.md", "SRC/main.go", "Makefile"]

/-- The file index of the project. -/
def demoIndex : FileIndex := indexOfPaths demoLib "/proj" demoPaths

/-- A project whose only file has a name that starts with the long s. -/
def longSPaths : List String :=
  ["ſetup.py"]

/-- The file index of that project. -/
def longSIndex : FileIndex := indexOfPaths demoLib "/proj" longSPaths

/-- A rule whose tier key `L1` is present with no tier body. -/
def brokenRule : FrameworkRuleDefinition :=
  { Name := "Broken", Type_ := "framework", Language := "Go", Category := "backend"
    Levels := [("L1", none)] }

/-! ## The general glob class of `FindFiles` -/

/-- The pattern reaches the last loop of `FindFiles` (general glob matching): none of the four
earlier tests of the method holds. -/
def isGeneralGlob (pattern : String) : Bool :=
  !stringsHasPrefix pattern "/" &&
  !(!stringsContains pattern "/" && !stringsContains pattern "*") &&
  !(stringsHasPrefix pattern "*." && !stringsContains (sliceFrom pattern 1) "/") &&
  !stringsHasSuffix pattern "/"

/-- The test of the last loop of `FindFiles`: `matchPath` reports no error and a match. -/
def globAccepts (h : Host) (lib : PathLib) (pattern fileRelPath : String) : Bool :=
  match matchPath h lib pattern fileRelPath with
  | (matched, err) => err.isNone && matched

/-- Every position list of the two maps is in strictly increasing order. -/
def PositionsIncreasing (index : FileIndex) : Prop :=
  (∀ key, (positionsAt index.NameMap key).Pairwise (fun a b => a < b)) ∧
  (∀ key, (positionsAt index.ExtensionMap key).Pairwise (fun a b => a < b))

/-- The glob semantics of the specification, on characters: the whole name matches the whole
pattern, `**` stands for any sequence of characters, a single `*` for any sequence of
characters other than `/`, and any other character of the pattern for itself up to letter case
(`sameLetter`). -/
def globMatches_spec (sameLetter : Char → Char → Bool) : List Char → List Char → Bool
  | [], name => name.isEmpty
  | '*' :: '*' :: ps, name => name.tails.any fun rest => globMatches_spec sameLetter ps rest
  | '*' :: ps, name =>
    ((name.takeWhile (fun c => c != '/')).inits).any fun taken =>
      globMatches_spec sameLetter ps (name.drop taken.length)
  | p :: ps, name =>
    match name with
    | [] => false
    | c :: cs => sameLetter p c && globMatches_spec sameLetter ps cs

/-! ## A model of `regexp` for the expressions that `matchPath` builds

The expression is `(?i:^` body `$)`, where the body is made of characters that stand for
themselves, escaped punctuation, `.*` and `[^/]*`. Under the flag `i` a character matches the
members of its orbit under simple case folding; `.` matches any character but the newline; the
negated class matches any character but `/`; `^` and `$` match at the two ends of the text. -/

/-- One item of the body of such an expression. -/
inductive GlobItem where
  | lit (c : Char) : GlobItem
  | anySeq : GlobItem
  | segSeq : GlobItem
deriving DecidableEq, Repr

/-- The items of the text that follows `(?i:^`, up to the closing `$)`; the first argument
bounds the number of items. -/
def parseGlobFuel : Nat → List Char → Option (List GlobItem)
  | 0, _ => none
  | n + 1, s =>
    if s = ['$', ')'] then some []
    else if ['.', '*'].isPrefixOf s then
      (parseGlobFuel n (s.drop 2)).map (GlobItem.anySeq :: ·)
    else if ['[', '^', '/', ']', '*'].isPrefixOf s then
      (parseGlobFuel n (s.drop 5)).map (GlobItem.segSeq :: ·)
    else
      match s with
      | [] => none
      | c :: rest =>
        if c = '\\' then
          match rest with
          | [] => none
          | d :: rest2 =>
            if isRegexpMeta d then (parseGlobFuel n rest2).map (GlobItem.lit d :: ·) else none
        else if isRegexpMeta c then none
        else (parseGlobFuel n rest).map (GlobItem.lit c :: ·)

/-- The items of the text that follows `(?i:^`, up to the closing `$)`. -/
def parseGlobItems (s : List Char) : Option (List GlobItem) :=
  parseGlobFuel (s.length + 1) s

/-- Match of the items against the whole of a text. -/
def globItemsMatch : List GlobItem → List Char → Bool
  | [], text => text.isEmpty
  | GlobItem.lit c :: items, text =>
    match text with
    | [] => false
    | x :: xs => foldOrbit c == foldOrbit x && globItemsMatch items xs
  | GlobItem.anySeq :: items, text =>
    ((text.takeWhile (fun c => c != '\n')).inits).any fun taken =>
      globItemsMatch items (text.drop taken.length)
  | GlobItem.segSeq :: items, text =>
    ((text.takeWhile (fun c => c != '/')).inits).any fun taken =>
      globItemsMatch items (text.drop taken.length)

/-- The model of `regexp.Compile` with the expressions of `matchPath`: an expression that starts
with `(?i:^` is read as above, any other by `modelCompile`. -/
def globCompile (pattern : String) : Option Regexp :=
  if ['(', '?', 'i', ':', '^'].isPrefixOf pattern.data then
    (parseGlobItems (pattern.data.drop 5)).map fun items =>
      { FindSubmatch := fun s => if globItemsMatch items s.data then [s] else [] }
  else modelCompile pattern

/-- The host of the concrete project with this model of `regexp`. -/
def globHost : Host :=
  { Open := demoHost.Open, Compile := globCompile, ToSlash := demoHost.ToSlash }

/-- A project with a directory whose name holds a newline. -/
def newlinePaths : List String :=
  ["my\ndir/file.go", "src/app/Main.GO", "main.go", "src/app/notes.md"]

/-- The file index of that project. -/
def newlineIndex : FileIndex := indexOfPaths demoLib "/proj" newlinePaths

/-! ## `internal/analyzer`: the profiling run (`analyzer.go`, `langdefine.go`)

The counters of the collector (`int`, `int64`) are natural numbers: each grows by one a file
or a line. The numbers of the profile that `convertToCodeProfile` assembles are `int` values
with wrap-around (`goInt`). The worker pool and the collector run concurrently in the source; here the walk, the
classification of a task and the fold of the collector over the results are functions, and the
order in which the results reach the collector is the order of the list it is given. -/

/-- The type `LangDefine` of `langdefine.go`, which has the fields of `LanguageDefinition`. -/
abbrev LangDefine := LanguageDefinition

/-- The table `LangDefines` of `langdefine.go` (the table `languages` of `languages.go` holds
the same entries). -/
def LangDefines : List LangDefine :=
  [ { Name := "Go", LineComments := ["//"], MultiLine := [("/*", "*/")],
      Extensions := [".go"], Filenames := [] },
    { Name := "Java", LineComments := ["//"], MultiLine := [("/*", "*/")],
      Extensions := [".java"], Filenames := [] },
    { Name := "C", LineComments := ["//"], MultiLine := [("/*", "*/")],
      Extensions := [".c", ".h"], Filenames := [] },
    { Name := "C++", LineComments := ["//"], MultiLine := [("/*", "*/")],
      Extensions := [".cpp", ".hpp", ".cc", ".cxx", ".hxx"], Filenames := [] },
    { Name := "C#", LineComments := ["//"], MultiLine := [("/*", "*/")],
      Extensions := [".cs"], Filenames := [] },
    { Name := "Python", LineComments := ["#"],
      MultiLine := [("\"\"\"", "\"\"\""), ("'''", "'''")],
      Extensions := [".py"], Filenames := [] },
    { Name := "JavaScript", LineComments := ["//"], MultiLine := [("/*", "*/")],
      Extensions := [".js", ".mjs", ".cjs"], Filenames := [] },
    { Name := "TypeScript", LineComments := ["//"], MultiLine := [("/*", "*/")],
      Extensions := [".ts"], Filenames := [] },
    { Name := "JSX", LineComments := ["//"], MultiLine := [("/*", "*/")],
      Extensions := [".jsx"], Filenames := [] },
    { Name := "TSX", LineComments := ["//"], MultiLine := [("/*", "*/")],
      Extensions := [".tsx"], Filenames := [] },
    { Name := "Vue", LineComments := ["//"], MultiLine := [("<!--", "-->"), ("/*", "*/")],
      Extensions := [".vue"], Filenames := [] },
    { Name := "HTML", LineComments := [], MultiLine := [("<!--", "-->")],
      Extensions := [".html", ".htm"], Filenames := [] },
    { Name := "CSS", LineComments := [], MultiLine := [("/*", "*/")],
      Extensions := [".css"], Filenames := [] },
    { Name := "SCSS", LineComments := ["//"], MultiLine := [("/*", "*/")],
      Extensions := [".scss"], Filenames := [] },
    { Name := "Less", LineComments := ["//"], MultiLine := [("/*", "*/")],
      Extensions := [".less"], Filenames := [] },
    { Name := "JSON", LineComments := [], MultiLine := [],
      Extensions := [".json"], Filenames := [] },
    { Name := "YAML", LineComments := ["#"], MultiLine := [],
      Extensions := [".yaml", ".yml"], Filenames := [] },
    { Name := "XML", LineComments := [], MultiLine := [("<!--", "-->")],
      Extensions := [".xml"], Filenames := [] },
    { Name := "PHP", LineComments := ["//", "#"], MultiLine := [("/*", "*/")],
      Extensions := [".php"], Filenames := [] },
    { Name := "Ruby", LineComments := ["#"], MultiLine := [("=begin", "=end")],
      Extensions := [".rb"], Filenames := [] },
    { Name := "Rust", LineComments := ["//"], MultiLine := [("/*", "*/")],
      Extensions := [".rs"], Filenames := [] },
    { Name := "Kotlin", LineComments := ["//"], MultiLine := [("/*", "*/")],
      Extensions := [".kt", ".kts"], Filenames := [] },
    { Name := "Swift", LineComments := ["//"], MultiLine := [("/*", "*/")],
      Extensions := [".swift"], Filenames := [] },
    { Name := "Shell", LineComments := ["#"], MultiLine := [],
      Extensions := [".sh", ".bash", ".zsh"], Filenames := [] },
    { Name := "PowerShell", LineComments := ["#"], MultiLine := [("<#", "#>")],
      Extensions := [".ps1"], Filenames := [] },
    { Name := "SQL", LineComments := ["--"], MultiLine := [("/*", "*/")],
      Extensions := [".sql"], Filenames := [] },
    { Name := "Lua", LineComments := ["--"], MultiLine := [("--[[", "]]")],
      Extensions := [".lua"], Filenames := [] },
    { Name := "Markdown", LineComments := [], MultiLine := [("<!--", "-->")],
      Extensions := [".md", ".markdown"], Filenames := [] },
    { Name := "Dockerfile", LineComments := ["#"], MultiLine := [],
      Extensions := [], Filenames := ["Dockerfile"] },
    { Name := "Makefile", LineComments := ["#"], MultiLine := [],
      Extensions := [], Filenames := ["Makefile"] } ]

/-- The two package variables `extToLanguage` and `fileToLanguage`; a pointer into the table
is the definition it points to. -/
structure LangMaps where
  extToLanguage : List (String × LangDefine)
  fileToLanguage : List (String × LangDefine)

/-- The two maps as the package creates them: empty. -/
def emptyLangMaps : LangMaps :=
  { extToLanguage := [], fileToLanguage := [] }

/-- The body of the loop of `initFileInfoToLangeMap` for one definition: each of its
extensions, then each of its filenames, is registered. -/
def registerLang (maps : LangMaps) (lang : LangDefine) : LangMaps :=
  { extToLanguage := lang.Extensions.foldl (fun m ext => mapSet m ext lang) maps.extToLanguage
    fileToLanguage := lang.Filenames.foldl (fun m name => mapSet m name lang)
      maps.fileToLanguage }

/-- The function `initFileInfoToLangeMap`, over a table of definitions. -/
def initFileInfoToLangeMap (defines : List LangDefine) (maps : LangMaps) : LangMaps :=
  defines.foldl registerLang maps

/-- The maps after `initFileInfoToLangeMap` has run on the table `LangDefines`. -/
def langMaps : LangMaps :=
  initFileInfoToLangeMap LangDefines emptyLangMaps

/-- The function `parseFileLangByLangeMap`; `name` is `dirEntry.Name()` and `none` is the nil
pointer. -/
def parseFileLangByLangeMap (lib : PathLib) (maps : LangMaps) (path name : String) :
    Option LangDefine :=
  let ext := filepathExt path
  match maps.extToLanguage.lookup (lib.ToLower ext) with
  | some langDef => some langDef
  | none => maps.fileToLanguage.lookup name

/-- The number of workers of `AnalyzeCodeProfile`, `runtime.NumCPU() / 4`: the loop that starts
the pool starts one worker for every `i` from 0 below this number. -/
def workers (numCPU : Nat) : Nat :=
  numCPU / 4

/-- The type `AnalysisTask`. -/
structure AnalysisTask where
  Path : String
  LangDef : LangDefine
deriving DecidableEq, Repr

/-- The type `AnalysisResult` of `analyzer.go`. -/
structure AnalysisResult where
  LangName : String
  Stats : FileStats
  Err : Option GoError
deriving DecidableEq, Repr

/-- The type `model.LangSummary`. -/
structure LangSummary where
  Name : String
  Code : Nat
  Comment : Nat
  Blank : Nat
  Count : Nat
deriving DecidableEq, Repr

/-- What is below the directory a walk starts from: a file, or a directory with its entries in
the order `filepath.WalkDir` reads them. Every entry is readable. -/
inductive DirTree where
  | file (name : String) : DirTree
  | dir (name : String) (entries : List DirTree) : DirTree
deriving Repr

/-- The variables the callback of the walk writes: the file index and the tasks sent so far. -/
structure WalkState where
  fileIndex : FileIndex
  tasks : List AnalysisTask

/-- The test of the callback on a directory: the walk skips the directory (`filepath.SkipDir`)
when its name begins with `.` and is not `.` itself. -/
def skipsDir (name : String) : Bool :=
  stringsHasPrefix name "." && name != "."

/-- The relative path of an entry of the directory with relative path `rel`
(`filepath.ToSlash(filepath.Rel(absPath, path))`); the root has the relative path `.`. -/
def relJoin (rel name : String) : String :=
  if rel = "." then name else rel ++ "/" ++ name

/-- The callback of the walk on a file: the file is added to the index, and a task is sent
when a language definition is found for it. -/
def visitFile (lib : PathLib) (maps : LangMaps) (st : WalkState) (path relPath name : String) :
    WalkState :=
  let fileIndex := AddFile lib st.fileIndex relPath name (filepathExt name)
  match parseFileLangByLangeMap lib maps path name with
  | some langDef =>
    let task : AnalysisTask := { Path := path, LangDef := langDef }
    { fileIndex := fileIndex, tasks := st.tasks ++ [task] }
  | none => { fileIndex := fileIndex, tasks := st.tasks }

mutual
/-- The walk of `filepath.WalkDir` below a directory, on one entry: the callback runs on the
entry, and the entries of a directory that the callback does not skip are walked in order. -/
def walkEntry (lib : PathLib) (maps : LangMaps) (dirPath rel : String) :
    DirTree → WalkState → WalkState
  | DirTree.file name, st =>
    visitFile lib maps st (lib.Join dirPath name) (relJoin rel name) name
  | DirTree.dir name entries, st =>
    if skipsDir name then st
    else walkEntries lib maps (lib.Join dirPath name) (relJoin rel name) entries st
/-- The walk over the entries of a directory, in order. -/
def walkEntries (lib : PathLib) (maps : LangMaps) (dirPath rel : String) :
    List DirTree → WalkState → WalkState
  | [], st => st
  | entry :: rest, st =>
    walkEntries lib maps dirPath rel rest (walkEntry lib maps dirPath rel entry st)
end

/-- The walk of `AnalyzeCodeProfile` from the absolute path of the project, a directory with
the given entries: the callback runs first on the root, whose entry bears the last element of
the path as its name, and the walk ends at once when the callback skips it. -/
def walkProject (lib : PathLib) (maps : LangMaps) (absPath : String) (entries : List DirTree) :
    WalkState :=
  let st : WalkState := { fileIndex := NewFileIndex absPath, tasks := [] }
  if skipsDir (pathBase absPath) then st
  else walkEntries lib maps absPath "." entries st

/-- The state of the collector: the summaries by language name and the count of error
files. -/
structure Collected where
  stats : List (String × LangSummary)
  errorFiles : Nat

/-- The body of the loop of the collector for one result. -/
def collectResult (st : Collected) (res : AnalysisResult) : Collected :=
  if res.Err.isSome then { stats := st.stats, errorFiles := st.errorFiles + 1 }
  else
    let summary : LangSummary :=
      match st.stats.lookup res.LangName with
      | some summary => summary
      | none => { Name := res.LangName, Code := 0, Comment := 0, Blank := 0, Count := 0 }
    let updated : LangSummary :=
      { Name := summary.Name, Code := summary.Code + res.Stats.Code,
        Comment := summary.Comment + res.Stats.Comment,
        Blank := summary.Blank + res.Stats.Blank, Count := summary.Count + 1 }
    { stats := mapSet st.stats res.LangName updated, errorFiles := st.errorFiles }

/-- The loop of the collector over the results, in the order they arrive, from the empty map
and the count zero. -/
def collectResults (results : List AnalysisResult) : Collected :=
  results.foldl collectResult { stats := [], errorFiles := 0 }

/-! ## `langengine.ExpandLanguages` (`langutils.go`) -/

/-- The read `seen[l]` of a Go `map[string]bool`: false for an absent key. -/
def seenAt (seen : List (String × Bool)) (l : String) : Bool :=
  (seen.lookup l).getD false

/-- The variables that the closure `add` of `ExpandLanguages` captures. -/
structure ExpandState where
  langs : List String
  seen : List (String × Bool)

/-- The closure `add` of `ExpandLanguages`: the language is appended unless it was seen. -/
def addLang (st : ExpandState) (newLang : String) : ExpandState :=
  if !seenAt st.seen newLang then
    { langs := st.langs ++ [newLang], seen := mapSet st.seen newLang true }
  else st

/-- The function `langengine.ExpandLanguages`. -/
def ExpandLanguages (langs : List String) : List String :=
  let seen := langs.foldl (fun seen l => mapSet seen l true) []
  let st : ExpandState := { langs := langs, seen := seen }
  let st :=
    if seenAt st.seen "TypeScript" || seenAt st.seen "TSX" || seenAt st.seen "JSX" ||
        seenAt st.seen "Vue" then addLang st "JavaScript"
    else st
  let st := if seenAt st.seen "SCSS" || seenAt st.seen "Less" then addLang st "CSS" else st
  let st := if seenAt st.seen "Kotlin" then addLang st "Java" else st
  let st := if seenAt st.seen "C++" then addLang st "C" else st
  st.langs

/-! ## `convertToCodeProfile` (`analyzer.go`) -/

/-- The value of a Go `int` of `intBits` bits that an integer is kept as: the integer itself
when it lies between `-2 ^ (intBits - 1)` and `2 ^ (intBits - 1) - 1`, and the value with the
same low `intBits` bits in two's complement otherwise. It is the result of the conversion
`int(x)` and, applied to a sum, of the addition of two `int` values. -/
def goInt (intBits : Nat) (x : Int) : Int :=
  (x + 2 ^ (intBits - 1)) % 2 ^ intBits - 2 ^ (intBits - 1)

/-- The type `model.LangInfo`; the fields of type `int` are integers. -/
structure LangInfo where
  Name : String
  Files : Int
  CodeLines : Int
  CommentLines : Int
  BlankLines : Int
deriving DecidableEq, Repr

/-- The type `model.CodeProfile`; the fields of type `int` are integers. -/
structure CodeProfile where
  Path : String
  TotalFiles : Int
  TotalLines : Int
  ErrorFiles : Int
  LanguageInfos : List LangInfo
  FrontendLanguages : List String
  BackendLanguages : List String
  DesktopLanguages : List String
  OtherLanguages : List String
  Languages : List String
  ExpandLanguages : List String
deriving DecidableEq, Repr

/-- The five lists that `DetectCategories` returns: frontend, backend, desktop, other, all. -/
structure Categories where
  frontend : List String
  backend : List String
  desktop : List String
  other : List String
  all : List String

/-- The method `DetectCategories` of the language classifier with its embedded rules, which
reads the project directory: a parameter of `convertToCodeProfile` here. -/
abbrev Classifier := String → List LangInfo → Categories

/-- The body of the second loop of `convertToCodeProfile`: the counts of the summary (`int64`,
natural numbers in the collector) are converted to `int`, the language info is appended and
the totals grow; every addition is an addition of `int` values of `intBits` bits. -/
def addLangInfo (intBits : Nat) (profile : CodeProfile) (stat : LangSummary) : CodeProfile :=
  let langInfo : LangInfo :=
    { Name := stat.Name, Files := goInt intBits stat.Count,
      CodeLines := goInt intBits stat.Code, CommentLines := goInt intBits stat.Comment,
      BlankLines := goInt intBits stat.Blank }
  { profile with
    LanguageInfos := profile.LanguageInfos ++ [langInfo]
    TotalFiles := goInt intBits (profile.TotalFiles + langInfo.Files)
    TotalLines := goInt intBits (profile.TotalLines +
      goInt intBits (goInt intBits (langInfo.CodeLines + langInfo.CommentLines) +
        langInfo.BlankLines)) }

/-- The function `convertToCodeProfile`, for an `int` of `intBits` bits; the map of summaries
is given with its entries in the order in which the first loop meets them. -/
def convertToCodeProfile (intBits : Nat) (classify : Classifier) (absPath : String)
    (stats : List (String × LangSummary)) (errorFiles : Int) : CodeProfile :=
  let profile : CodeProfile :=
    { Path := absPath, TotalFiles := 0, TotalLines := 0, ErrorFiles := errorFiles,
      FrontendLanguages := [], BackendLanguages := [], DesktopLanguages := [],
      OtherLanguages := [], Languages := [], ExpandLanguages := [], LanguageInfos := [] }
  let summaries := stats.foldl (fun summaries entry => summaries ++ [entry.2]) []
  let profile := summaries.foldl (addLangInfo intBits) profile
  let cats := classify absPath profile.LanguageInfos
  { profile with
    FrontendLanguages := cats.frontend
    BackendLanguages := cats.backend
    DesktopLanguages := cats.desktop
    OtherLanguages := cats.other
    Languages := cats.all
    ExpandLanguages := ExpandLanguages cats.all }

/-! ## A concrete profiling run -/

/-- The entries of the project directory: two sources, a hidden directory, a directory of
sources, a build file and a file of no language. -/
def demoEntries : List DirTree :=
  [ DirTree.file "main.go",
    DirTree.dir ".git" [DirTree.file "config", DirTree.file "hook.sh"],
    DirTree.dir "src" [DirTree.file "App.TSX", DirTree.dir ".cache" [DirTree.file "x.js"],
      DirTree.file "notes"],
    DirTree.file "Makefile" ]

/-- Results of the workers: two Go files, a TSX file, and a Go file that could not be read
to the end. -/
def demoResults : List AnalysisResult :=
  [ { LangName := "Go", Stats := { Code := 10, Comment := 2, Blank := 3, Lines := 15 },
      Err := none },
    { LangName := "TSX", Stats := { Code := 7, Comment := 0, Blank := 1, Lines := 8 },
      Err := none },
    { LangName := "Go", Stats := { Code := 4, Comment := 1, Blank := 0, Lines := 5 },
      Err := some "read error" },
    { LangName := "Go", Stats := { Code := 1, Comment := 1, Blank := 1, Lines := 3 },
      Err := none } ]

/-- A classifier that puts every language in the list of the other languages. -/
def demoClassifier : Classifier := fun _ infos =>
  { frontend := [], backend := [], desktop := [], other := infos.map (fun li => li.Name),
    all := infos.map (fun li => li.Name) }

/-- Two states of the collector hold the same summaries and the same error count: the count of
error files is the same and every language name has the same summary (or none) in both. -/
def SameSummaries (a b : Collected) : Prop :=
  a.errorFiles = b.errorFiles ∧ ∀ name, a.stats.lookup name = b.stats.lookup name

/-- The sum of the file counts of the summaries of a map. -/
def totalCount (stats : List (String × LangSummary)) : Nat :=
  (stats.map fun entry => entry.2.Count).sum

/-- The summary a result without error leaves under its language name. -/
def summaryAfter (st : Collected) (res : AnalysisResult) : LangSummary :=
  match st.stats.lookup res.LangName with
  | some summary =>
    { Name := summary.Name, Code := summary.Code + res.Stats.Code,
      Comment := summary.Comment + res.Stats.Comment,
      Blank := summary.Blank + res.Stats.Blank, Count := summary.Count + 1 }
  | none =>
    { Name := res.LangName, Code := res.Stats.Code, Comment := res.Stats.Comment,
      Blank := res.Stats.Blank, Count := 1 }

/-- The summary of a language in the map of the collector, or the fresh summary the collector
would create for it. -/
def summaryOf (stats : List (String × LangSummary)) (name : String) : LangSummary :=
  (stats.lookup name).getD { Name := name, Code := 0, Comment := 0, Blank := 0, Count := 0 }

/-- The language info that `convertToCodeProfile` builds from a summary: the name and the
four counts, as `int` values of `intBits` bits. -/
def langInfoOf (intBits : Nat) (stat : LangSummary) : LangInfo :=
  { Name := stat.Name, Files := goInt intBits stat.Count,
    CodeLines := goInt intBits stat.Code, CommentLines := goInt intBits stat.Comment,
    BlankLines := goInt intBits stat.Blank }

/-- The language info with the counts of a summary as they are. -/
def exactLangInfo (stat : LangSummary) : LangInfo :=
  { Name := stat.Name, Files := stat.Count, CodeLines := stat.Code,
    CommentLines := stat.Comment, BlankLines := stat.Blank }

/-- A map with one summary whose line counts do not fit together in 64 bits. -/
def hugeStats : List (String × LangSummary) :=
  [("Go", { Name := "Go", Code := 9223372036854775807, Comment := 1, Blank := 0, Count := 1 })]

/-! ## The expression of a pattern, item by item -/

/-- The items of a glob pattern, read left to right: two stars, one star, or a character. -/
def globTokens : List Char → List GlobItem
  | [] => []
  | '*' :: '*' :: ps => GlobItem.anySeq :: globTokens ps
  | '*' :: ps => GlobItem.segSeq :: globTokens ps
  | c :: ps => GlobItem.lit c :: globTokens ps

/-- The text of `regexp.QuoteMeta` for one character. -/
def quoteChar (c : Char) : List Char :=
  if isRegexpMeta c then ['\\', c] else [c]

/-- The text of an item after the first replacement of `matchPath`: two stars have become
`.*`, one star is still quoted. -/
def renderQuoted : GlobItem → List Char
  | GlobItem.lit c => quoteChar c
  | GlobItem.anySeq => ['.', '*']
  | GlobItem.segSeq => ['\\', '*']

/-- The text of an item in the final expression. -/
def renderItem : GlobItem → List Char
  | GlobItem.lit c => quoteChar c
  | GlobItem.anySeq => ['.', '*']
  | GlobItem.segSeq => ['[', '^', '/', ']', '*']

/-- A character item stands for a character other than the star and the backslash. -/
def plainItem : GlobItem → Bool
  | GlobItem.lit c => c != '*' && c != '\\'
  | _ => true

/-! ## `canvas.expandLanguages` (`canvas/codecanvas.go`) -/

/-- The function `expandLanguages` of package `canvas`: `Analyze` applies it to the names of the
profiled languages and hands the result to `DetectFrameworks`. -/
def expandLanguages (langs : List String) : List String :=
  let seen := langs.foldl (fun seen l => mapSet seen l true) []
  if seenAt seen "TypeScript" || seenAt seen "TSX" || seenAt seen "JSX" then
    if !seenAt seen "JavaScript" then langs ++ ["JavaScript"]
    else langs
  else langs

/-! ## The language classifier (`internal/model/lang.go`, `internal/langengine`)

The dependencies of the project, which `readPackageJSONDeps` reads from the file `package.json`
of the root directory, and the matches of `filepath.Glob` on the disk are parameters. -/

/-- The constant `model.CategoryFrontend`. -/
def CategoryFrontend : String := "frontend"

/-- The constant `model.CategoryBackend`. -/
def CategoryBackend : String := "backend"

/-- The constant `model.CategoryDesktop`. -/
def CategoryDesktop : String := "desktop"

/-- The constant `model.CategoryOther`. -/
def CategoryOther : String := "other"

/-- The type `model.LangFeatures`. -/
structure LangFeatures where
  Name : String
  Tokens : List String
  FilePatterns : List String
  Dependencies : List String
deriving DecidableEq, Repr

/-- The type `model.LangRule`. -/
structure LangRule where
  Name : String
  Category : String
  Features : LangFeatures
deriving DecidableEq, Repr

/-- The loop of `applyHeuristics` over the dependencies of the rule: is one of them, in
lowercase, a dependency of the project. -/
def dependencyLoop (lib : PathLib) (deps : List (String × Bool)) : List String → Bool
  | [] => false
  | d :: rest => if seenAt deps (lib.ToLower d) then true else dependencyLoop lib deps rest

/-- The loop of `applyHeuristics` over the file patterns of the rule: the category returned at
the first pattern with a match on the disk, `none` when the loop ends without a return. -/
def filePatternLoop (lib : PathLib) (glob : String → List String) (root : String)
    (r : LangRule) : List String → Option String
  | [] => none
  | p :: rest =>
    if (glob (lib.Join root p)).length > 0 then
      if stringsContains (lib.ToLower r.Name) "jsx" ||
          stringsContains (lib.ToLower r.Name) "tsx" ||
          stringsContains (lib.ToLower r.Name) "html" ||
          stringsContains (lib.ToLower r.Name) "css" then some CategoryFrontend
      else some CategoryBackend
    else filePatternLoop lib glob root r rest

/-- The function `applyHeuristics` of `langutils.go`; `glob` gives the matches of
`filepath.Glob` (its error is discarded by the function). -/
def applyHeuristics (lib : PathLib) (glob : String → List String) (root : String)
    (r : LangRule) (deps : List (String × Bool)) : String :=
  let name := lib.ToLower r.Name
  if (name = "javascript" ∨ name = "typescript") ∧
      (seenAt deps "express" || seenAt deps "koa" || seenAt deps "nestjs" ||
        seenAt deps "fastify" || seenAt deps "hapi") = true then CategoryBackend
  else if (name = "javascript" ∨ name = "typescript") ∧
      (seenAt deps "react" || seenAt deps "vue" || seenAt deps "@angular/core" ||
        seenAt deps "next" || seenAt deps "nuxt") = true then CategoryFrontend
  else if r.Category = CategoryFrontend ∨ r.Category = CategoryBackend ∨
      r.Category = CategoryDesktop ∨ r.Category = CategoryOther then r.Category
  else if r.Features.Dependencies.length > 0 ∧
      dependencyLoop lib deps r.Features.Dependencies = true then CategoryFrontend
  else
    match filePatternLoop lib glob root r r.Features.FilePatterns with
    | some category => category
    | none => CategoryOther

/-- The five sets of `DetectCategories`. -/
structure CategorySets where
  frontedSet : List (String × Bool)
  backendSet : List (String × Bool)
  desktopSet : List (String × Bool)
  otherSet : List (String × Bool)
  allSet : List (String × Bool)
deriving DecidableEq, Repr

/-- The body of the loop of `DetectCategories` for one language info. -/
def detectCategory (lib : PathLib) (glob : String → List String)
    (ruleMap : List (String × LangRule)) (root : String) (deps : List (String × Bool))
    (sets : CategorySets) (li : LangInfo) : CategorySets :=
  let name := lib.ToLower li.Name
  let sets :=
    match ruleMap.lookup name with
    | some langRule =>
      let cat := applyHeuristics lib glob root langRule deps
      if cat = CategoryFrontend then
        { sets with frontedSet := mapSet sets.frontedSet li.Name true }
      else if cat = CategoryBackend then
        { sets with backendSet := mapSet sets.backendSet li.Name true }
      else if cat = CategoryDesktop then
        { sets with desktopSet := mapSet sets.desktopSet li.Name true }
      else if cat = CategoryOther then
        { sets with otherSet := mapSet sets.otherSet li.Name true }
      else sets
    | none => { sets with otherSet := mapSet sets.otherSet li.Name true }
  { sets with allSet := mapSet sets.allSet li.Name true }

/-- Modelled from the spec: `utils.Mapkeys`, which is not part of the sources: the keys of a
set, each once. Go leaves the order of the keys open; here it is the order of the association
list, and the theorems speak of membership and of duplicates only. -/
def Mapkeys (m : List (String × Bool)) : List String :=
  m.map Prod.fst

/-- The method `DetectCategories` of `langclassify.go`, for the rule map of the classifier;
`packageDeps` stands for `readPackageJSONDeps`. -/
def DetectCategories (lib : PathLib) (glob : String → List String)
    (ruleMap : List (String × LangRule)) (packageDeps : String → List (String × Bool))
    (root : String) (langs : List LangInfo) : Categories :=
  let deps := packageDeps root
  let start : CategorySets :=
    { frontedSet := [], backendSet := [], desktopSet := [], otherSet := [], allSet := [] }
  let sets := langs.foldl (detectCategory lib glob ruleMap root deps) start
  { frontend := Mapkeys sets.frontedSet
    backend := Mapkeys sets.backendSet
    desktop := Mapkeys sets.desktopSet
    other := Mapkeys sets.otherSet
    all := Mapkeys sets.allSet }

/-! ## `GetSupportedFrameworks` (`engine.go`) -/

/-- The type `model.FrameworkMetadata`. -/
structure FrameworkMetadata where
  Name : String
  Language : String
  Levels : List (String × String)
deriving DecidableEq, Repr

/-- The inner loop of `GetSupportedFrameworks` over the tiers of a rule: the first path of
every tier that has one; `none` when a tier body is nil. -/
def metadataLevels :
    List (String × Option RuleSet) → List (String × String) → Option (List (String × String))
  | [], levels => some levels
  | (_, none) :: _, _ => none
  | (level, some ruleSet) :: rest, levels =>
    if ruleSet.Paths.length > 0 then
      match ruleSet.Paths[0]? with
      | none => none
      | some first => metadataLevels rest (mapSet levels level first)
    else metadataLevels rest levels

/-- The outer loop of `GetSupportedFrameworks` over the entries of the map `frameworkRules`. -/
def frameworksLoop :
    List (String × FrameworkRuleDefinition) → List FrameworkMetadata →
      Option (List FrameworkMetadata)
  | [], frameworks => some frameworks
  | (_, rule) :: rest, frameworks =>
    match metadataLevels rule.Levels [] with
    | none => none
    | some levels =>
      frameworksLoop rest
        (frameworks ++ [FrameworkMetadata.mk rule.Name rule.Language levels])

/-- The order `<` of Go on strings, character by character. -/
def lessChars : List Char → List Char → Bool
  | _, [] => false
  | [], _ :: _ => true
  | a :: s, b :: t =>
    if a.toNat < b.toNat then true
    else if b.toNat < a.toNat then false
    else lessChars s t

/-- Insertion of an entry before the first entry with a greater name. -/
def insertByName (x : FrameworkMetadata) : List FrameworkMetadata → List FrameworkMetadata
  | [] => [x]
  | y :: rest =>
    if lessChars x.Name.data y.Name.data then x :: y :: rest else y :: insertByName x rest

/-- The call `sort.Slice` of `GetSupportedFrameworks` with the order of the names: one of the
results that the library may give (entries with the same name may come in any order). -/
def sortByName (frameworks : List FrameworkMetadata) : List FrameworkMetadata :=
  frameworks.foldr insertByName []

/-- The method `CanvasEngine.GetSupportedFrameworks`; the map `frameworkRules` is read in the
order of its association list. -/
def GetSupportedFrameworks (e : CanvasEngine) : Option (List FrameworkMetadata) :=
  (frameworksLoop e.frameworkRules []).map sortByName

/-! ## Concrete inputs for the classifier, the framework list and the suffix patterns -/

/-- A framework rule named `Spring` for the language Java. -/
def springJavaRule : FrameworkRuleDefinition :=
  { Name := "Spring", Type_ := "framework", Language := "Java", Category := "backend"
    Levels := [("L1", some (RuleSet.mk ["pom.xml"] ["spring-boot"] none none))] }

/-- A framework rule with the same name for the language Kotlin. -/
def springKotlinRule : FrameworkRuleDefinition :=
  { Name := "Spring", Type_ := "framework", Language := "Kotlin", Category := "backend"
    Levels := [("L1", some (RuleSet.mk ["build.gradle.kts"] ["spring-boot"] none none))] }

/-- A framework rule named `Gin` for the language Go. -/
def ginRule : FrameworkRuleDefinition :=
  { Name := "Gin", Type_ := "framework", Language := "Go", Category := "backend"
    Levels := [("L1", some (RuleSet.mk ["go.mod"] ["gin-gonic/gin"] none none))] }

/-- A rule with the identity of the first one and no tier. -/
def springOverride : FrameworkRuleDefinition :=
  { Name := "Spring", Type_ := "framework", Language := "Java", Category := "web"
    Levels := [] }

/-- The engine after the three rules are added to the empty engine, in this order. -/
def springEngine : CanvasEngine :=
  addRule (addRule (addRule emptyEngine springJavaRule) ginRule) springKotlinRule

/-- A project with minified scripts and a compressed archive. -/
def minifiedPaths : List String :=
  ["app.min.js", "dist/vendor.MIN.js", "main.js", "backup.tar.gz"]

/-- The file index of that project. -/
def minifiedIndex : FileIndex := indexOfPaths demoLib "/proj" minifiedPaths

/-- A file index whose maps hold the position 3, while the path sequence has one path. -/
def danglingIndex : FileIndex :=
  { RootDir := "/proj", Files := ["main.go"]
    NameMap := [("main.go", [0]), ("gone.go", [3])]
    ExtensionMap := [(".go", [0, 3])] }

/-- No features. -/
def noFeatures : LangFeatures :=
  { Name := "", Tokens := [], FilePatterns := [], Dependencies := [] }

/-- A rule map: JavaScript and TypeScript declared frontend, Go declared backend, Swift
declared desktop, HTML without a declared category and with a file pattern, Elm without a
declared category and with a dependency, Zig with neither. -/
def demoRuleMap : List (String × LangRule) :=
  [("javascript", LangRule.mk "JavaScript" "frontend" noFeatures),
   ("typescript", LangRule.mk "TypeScript" "frontend" noFeatures),
   ("go", LangRule.mk "Go" "backend" noFeatures),
   ("swift", LangRule.mk "Swift" "desktop" noFeatures),
   ("html", LangRule.mk "HTML" "" (LangFeatures.mk "" [] ["*.html"] [])),
   ("elm", LangRule.mk "Elm" "" (LangFeatures.mk "" [] [] ["Elm-UI"])),
   ("zig", LangRule.mk "Zig" "" noFeatures)]

/-- The disk of the concrete project for `filepath.Glob`: one pattern has a match. -/
def demoGlob (pattern : String) : List String :=
  if pattern = "/proj/*.html" then ["/proj/index.html"] else []

/-- The dependencies of the concrete project: a backend and a frontend dependency. -/
def demoDeps (_root : String) : List (String × Bool) :=
  [("express", true), ("react", true), ("elm-ui", true)]

/-- The language infos of the concrete project; `Go` comes twice and `Rust` has no rule. -/
def demoLangs : List LangInfo :=
  [LangInfo.mk "Go" 3 10 0 0, LangInfo.mk "TypeScript" 1 5 0 0, LangInfo.mk "HTML" 1 7 0 0,
   LangInfo.mk "Swift" 1 2 0 0, LangInfo.mk "Go" 3 10 0 0, LangInfo.mk "Rust" 1 1 0 0,
   LangInfo.mk "Elm" 1 1 0 0, LangInfo.mk "Zig" 1 1 0 0]

/-! ## Vocabulary for the classifier -/

/-- The category that the loop of `DetectCategories` gives to a language name: the result of
`applyHeuristics` on the rule of the lowercase name, and other when there is no rule. -/
def categoryOf (lib : PathLib) (glob : String → List String)
    (ruleMap : List (String × LangRule)) (root : String) (deps : List (String × Bool))
    (name : String) : String :=
  match ruleMap.lookup (lib.ToLower name) with
  | some langRule => applyHeuristics lib glob root langRule deps
  | none => CategoryOther

/-- The five sets hold the names met so far, each name under its category, and no key twice. -/
def SetsClassify (cat : String → String) (done : List String) (sets : CategorySets) : Prop :=
  (∀ x, x ∈ Mapkeys sets.frontedSet ↔ x ∈ done ∧ cat x = CategoryFrontend) ∧
  (∀ x, x ∈ Mapkeys sets.backendSet ↔ x ∈ done ∧ cat x = CategoryBackend) ∧
  (∀ x, x ∈ Mapkeys sets.desktopSet ↔ x ∈ done ∧ cat x = CategoryDesktop) ∧
  (∀ x, x ∈ Mapkeys sets.otherSet ↔ x ∈ done ∧ cat x = CategoryOther) ∧
  (∀ x, x ∈ Mapkeys sets.allSet ↔ x ∈ done) ∧
  (Mapkeys sets.frontedSet).Nodup ∧ (Mapkeys sets.backendSet).Nodup ∧
  (Mapkeys sets.desktopSet).Nodup ∧ (Mapkeys sets.otherSet).Nodup ∧
  (Mapkeys sets.allSet).Nodup

/-- The map `frameworkRules` agrees with the rule list: every value is a framework rule of the
list stored under its name, every framework rule of the list has its name as a key, and no
key comes twice. -/
def FrameworkMapOK (e : CanvasEngine) : Prop :=
  (∀ name r, e.frameworkRules.lookup name = some r →
    r ∈ e.rules ∧ r.Type_ = RuleTypeFramework ∧ r.Name = name) ∧
  (∀ r ∈ e.rules, r.Type_ = RuleTypeFramework →
    ∃ r2, e.frameworkRules.lookup r.Name = some r2) ∧
  (e.frameworkRules.map Prod.fst).Nodup

/-! ## Theorems -/

open List

theorem containsAt_iff (sub : List Char) (l : List Char) :
    containsAt sub l = true ↔ sub <:+: l := by
  induction l with
  | nil => simp [containsAt]
  | cons c cs ih =>
    simp only [containsAt, Bool.or_eq_true, ih, List.infix_cons_iff, List.isPrefixOf_iff_prefix]

theorem keywordLoop_iff (c : String) (kws : List String) :
    keywordLoop c kws = true ↔ ∀ kw ∈ kws, kw.data <:+: c.data := by
  induction kws with
  | nil => simp [keywordLoop]
  | cons kw rest ih =>
    simp only [keywordLoop, List.mem_cons, forall_eq_or_imp]
    by_cases hk : stringsContains c kw = true
    · have := (containsAt_iff kw.data c.data).1 hk
      simp [hk, ih, this]
    · have : ¬ kw.data <:+: c.data := fun hh => hk ((containsAt_iff kw.data c.data).2 hh)
      simp [hk, this]

theorem containsAllKeywords_iff (c : String) (kws : List String) :
    containsAllKeywords c kws = true ↔ ∀ kw ∈ kws, kw.data <:+: c.data := by
  unfold containsAllKeywords
  split
  · rename_i h0
    have : kws = [] := List.length_eq_zero.mp h0
    simp [this]
  · exact keywordLoop_iff c kws

theorem cacheOK_nil (h : Host) : CacheOK h [] := by
  intro p c hc
  simp at hc

theorem getFileContent_spec (h : Host) (cache : List (String × String)) (path : String)
    (hc : CacheOK h cache) :
    (getFileContent h cache path).1 = readContent h path ∧
      CacheOK h (getFileContent h cache path).2 := by
  unfold getFileContent
  cases hl : cache.lookup path with
  | some content => exact ⟨(hc path content hl).symm, hc⟩
  | none =>
    have hins : ∀ content, readContent h path = some content →
        CacheOK h ((path, content) :: cache) := by
      intro content hr p c hp
      rw [List.lookup_cons] at hp
      by_cases hpe : p == path
      · rw [hpe] at hp
        have : p = path := by simpa using hpe
        simp only [Option.some.injEq] at hp
        rw [this, ← hp]; exact hr
      · have hpf : (p == path) = false := by simpa using hpe
        rw [hpf] at hp
        exact hc p c hp
    simp only [readContent, getFileContent, List.lookup_nil]
    cases ho : h.Open path with
    | none => exact ⟨rfl, hc⟩
    | some f =>
      have hread : readContent h path =
          (if f.Stat.any (fun size => size > 5 * 1024 * 1024) then
            f.ReadAllLimit (1 * 1024 * 1024) else f.ReadAll) := by
        simp only [readContent, getFileContent, List.lookup_nil, ho]
        split <;> split <;> simp_all
      by_cases hbig : f.Stat.any (fun size => size > 5 * 1024 * 1024) = true
      · simp only [hbig, if_true] at hread ⊢
        cases hr : f.ReadAllLimit (1 * 1024 * 1024) with
        | none => exact ⟨rfl, hc⟩
        | some content => exact ⟨rfl, hins content (by rw [hread, hr])⟩
      · simp only [hbig] at hread ⊢
        cases hr : f.ReadAll with
        | none => exact ⟨rfl, hc⟩
        | some content => exact ⟨rfl, hins content (by rw [hread]; simpa using hr)⟩

theorem needsContent_iff (rs : RuleSet) :
    (decide (rs.Contains.length > 0) || rs.ExtractVersionFromText.isSome) = true ↔
      needsContent rs := by
  unfold needsContent
  simp only [Bool.or_eq_true, decide_eq_true_eq, List.length_pos, ne_eq, Option.isSome_iff_ne_none]

theorem firstHitOfPaths_cons (h : Host) (level : String) (rs : RuleSet) (p : String)
    (rest : List String) :
    firstHitOfPaths h level rs (p :: rest) =
      match acceptedContent h rs p with
      | some c => some ⟨level, rs, p, c⟩
      | none => firstHitOfPaths h level rs rest := by
  simp only [firstHitOfPaths, List.findSome?_cons]
  cases acceptedContent h rs p <;> rfl

theorem appendItem_cache (st : DetectState) (rule : FrameworkRuleDefinition)
    (item : DetectedItem) :
    (appendItem st rule item).fileContentCache = st.fileContentCache := by
  unfold appendItem
  split
  · rfl
  · split <;> rfl

theorem appendItem_frameworks (st : DetectState) (rule : FrameworkRuleDefinition)
    (item : DetectedItem) :
    (appendItem st rule item).Frameworks =
      st.Frameworks ++ emitted RuleTypeFramework rule (some item) := by
  unfold appendItem emitted
  split
  · rfl
  · split <;> simp

theorem frameworkType_ne_componentType : RuleTypeFramework ≠ RuleTypeComponent := by decide

theorem appendItem_components (st : DetectState) (rule : FrameworkRuleDefinition)
    (item : DetectedItem) :
    (appendItem st rule item).Components =
      st.Components ++ emitted RuleTypeComponent rule (some item) := by
  unfold appendItem emitted
  by_cases hf : rule.Type_ = RuleTypeFramework
  · have hne : ¬ rule.Type_ = RuleTypeComponent := by
      rw [hf]; exact frameworkType_ne_componentType
    rw [if_pos hf, if_neg hne]
    simp
  · by_cases hcmp : rule.Type_ = RuleTypeComponent
    · rw [if_neg hf, if_pos hcmp, if_pos hcmp]
      rfl
    · rw [if_neg hf, if_neg hcmp, if_neg hcmp]
      simp

theorem emitted_none (ty : String) (rule : FrameworkRuleDefinition) :
    emitted ty rule none = [] := by
  unfold emitted; split <;> rfl

/-- The loop over matched paths emits the item of the first accepted path, if there is one,
and keeps the cache consistent. -/
theorem matchLoop_spec (h : Host) (rule : FrameworkRuleDefinition) (level : String)
    (rs : RuleSet) : ∀ (ms : List String) (st : DetectState), CacheOK h st.fileContentCache →
    CacheOK h (matchLoop h rule level rs ms st).1.fileContentCache ∧
    (matchLoop h rule level rs ms st).2 = (firstHitOfPaths h level rs ms).isSome ∧
    (matchLoop h rule level rs ms st).1.Frameworks = st.Frameworks ++
      emitted RuleTypeFramework rule ((firstHitOfPaths h level rs ms).map (hitItem h rule)) ∧
    (matchLoop h rule level rs ms st).1.Components = st.Components ++
      emitted RuleTypeComponent rule ((firstHitOfPaths h level rs ms).map (hitItem h rule)) := by
  intro ms
  induction ms with
  | nil =>
    intro st hc
    simp [matchLoop, firstHitOfPaths, emitted_none, hc]
  | cons p rest ih =>
    intro st hc
    rw [firstHitOfPaths_cons]
    unfold matchLoop
    by_cases hn : needsContent rs
    · have hb := (needsContent_iff rs).2 hn
      rw [if_pos hb]
      obtain ⟨hread, hc2⟩ := getFileContent_spec h st.fileContentCache p hc
      rcases hg : getFileContent h st.fileContentCache p with ⟨_ | content, cache⟩
      · rw [hg] at hread hc2
        have hacc : acceptedContent h rs p = none := by
          simp only [acceptedContent, if_pos hn, ← hread]
        simp only [hacc]
        exact ih _ hc2
      · rw [hg] at hread hc2
        simp only at hread hc2
        by_cases hk : containsAllKeywords content rs.Contains = true
        · have hall := (containsAllKeywords_iff content rs.Contains).1 hk
          have hacc : acceptedContent h rs p = some content := by
            simp only [acceptedContent, if_pos hn, ← hread]
            rw [if_pos hall]
          simp only [hacc, hk, Bool.not_true, Bool.false_eq_true, if_false, Option.isSome_some,
            Option.map_some', appendItem_cache, appendItem_frameworks, appendItem_components,
            hitItem, and_self, and_true]
          exact hc2
        · have hall : ¬ ∀ kw ∈ rs.Contains, kw.data <:+: content.data :=
            fun hh => hk ((containsAllKeywords_iff content rs.Contains).2 hh)
          have hacc : acceptedContent h rs p = none := by
            simp only [acceptedContent, if_pos hn, ← hread]
            rw [if_neg hall]
          have hk2 : containsAllKeywords content rs.Contains = false := by
            simpa using hk
          simp only [hacc, hk2, Bool.not_false, if_true]
          exact ih _ hc2
    · have hb : ¬ (decide (rs.Contains.length > 0) || rs.ExtractVersionFromText.isSome) = true :=
        fun hh => hn ((needsContent_iff rs).1 hh)
      rw [if_neg hb]
      have hnil : rs.Contains = [] := by
        unfold needsContent at hn
        by_contra hne
        exact hn (Or.inl hne)
      have hk : containsAllKeywords "" rs.Contains = true := by
        rw [hnil]; rfl
      have hacc : acceptedContent h rs p = some "" := by
        simp only [acceptedContent, if_neg hn]
      simp only [hacc, hk, Bool.not_true, Bool.false_eq_true, if_false, Option.isSome_some,
        Option.map_some', appendItem_cache, appendItem_frameworks, appendItem_components,
        hitItem, and_self, and_true]
      exact hc

/-- The loop over the patterns of a tier emits the item of the first accepted path of the
first pattern that has one. -/
theorem patternLoop_spec (h : Host) (matcher : IndexMatcher) (rule : FrameworkRuleDefinition)
    (level : String) (rs : RuleSet) : ∀ (pats : List String) (st st1 : DetectState)
    (found : Bool), CacheOK h st.fileContentCache →
    patternLoop h matcher rule level rs pats st = some (st1, found) →
    CacheOK h st1.fileContentCache ∧
    found = (pats.findSome? fun pat =>
      firstHitOfPaths h level rs (foundPaths matcher pat)).isSome ∧
    st1.Frameworks = st.Frameworks ++ emitted RuleTypeFramework rule
      ((pats.findSome? fun pat =>
        firstHitOfPaths h level rs (foundPaths matcher pat)).map (hitItem h rule)) ∧
    st1.Components = st.Components ++ emitted RuleTypeComponent rule
      ((pats.findSome? fun pat =>
        firstHitOfPaths h level rs (foundPaths matcher pat)).map (hitItem h rule)) := by
  intro pats
  induction pats with
  | nil =>
    intro st st1 found hc hrun
    simp only [patternLoop, Option.some.injEq, Prod.mk.injEq] at hrun
    obtain ⟨rfl, rfl⟩ := hrun
    simp [emitted_none, hc]
  | cons pat rest ih =>
    intro st st1 found hc hrun
    unfold patternLoop at hrun
    rw [List.findSome?_cons]
    rcases hm : matcher pat with _ | ⟨ms, _ | err⟩
    · rw [hm] at hrun; simp at hrun
    · rw [hm] at hrun
      simp only at hrun
      have hfp : foundPaths matcher pat = ms := by simp [foundPaths, hm]
      rw [hfp]
      obtain ⟨hc1, hfound, hF, hC⟩ := matchLoop_spec h rule level rs ms st hc
      rcases hml : matchLoop h rule level rs ms st with ⟨st2, b⟩
      rw [hml] at hrun hc1 hfound hF hC
      simp only at hc1 hfound hF hC
      cases hfh : firstHitOfPaths h level rs ms with
      | some hit =>
        rw [hfh] at hfound hF hC
        simp only [Option.isSome_some] at hfound
        subst hfound
        simp only [Option.some.injEq, Prod.mk.injEq] at hrun
        obtain ⟨rfl, rfl⟩ := hrun
        exact ⟨hc1, rfl, hF, hC⟩
      | none =>
        rw [hfh] at hfound hF hC
        simp only [Option.isSome_none] at hfound
        subst hfound
        simp only [Option.map_none', emitted_none, List.append_nil] at hF hC
        simp only at hrun
        have := ih st2 st1 found hc1 hrun
        rw [hF, hC] at this
        exact this
    · rw [hm] at hrun
      simp only at hrun
      have hfp : foundPaths matcher pat = [] := by simp [foundPaths, hm]
      rw [hfp]
      have hnone : firstHitOfPaths h level rs [] = none := rfl
      rw [hnone]
      exact ih st st1 found hc hrun

/-- The loop over the tier labels emits the item of the first accepted path of the first tier
that has one. -/
theorem levelLoop_spec (h : Host) (matcher : IndexMatcher) (rule : FrameworkRuleDefinition) :
    ∀ (levels : List String) (st st1 : DetectState) (found : Bool),
    CacheOK h st.fileContentCache →
    levelLoop h matcher rule levels st = some (st1, found) →
    CacheOK h st1.fileContentCache ∧
    found = (firstHitOfLevels h matcher rule levels).isSome ∧
    st1.Frameworks = st.Frameworks ++ emitted RuleTypeFramework rule
      ((firstHitOfLevels h matcher rule levels).map (hitItem h rule)) ∧
    st1.Components = st.Components ++ emitted RuleTypeComponent rule
      ((firstHitOfLevels h matcher rule levels).map (hitItem h rule)) := by
  intro levels
  induction levels with
  | nil =>
    intro st st1 found hc hrun
    simp only [levelLoop, Option.some.injEq, Prod.mk.injEq] at hrun
    obtain ⟨rfl, rfl⟩ := hrun
    simp [firstHitOfLevels, emitted_none, hc]
  | cons lv rest ih =>
    intro st st1 found hc hrun
    unfold levelLoop at hrun
    rcases hl : rule.Levels.lookup lv with _ | _ | ruleSet
    · rw [hl] at hrun
      simp only at hrun
      have hcons : firstHitOfLevels h matcher rule (lv :: rest) =
          firstHitOfLevels h matcher rule rest := by
        simp only [firstHitOfLevels, List.findSome?_cons, hl]
      rw [hcons]
      exact ih st st1 found hc hrun
    · rw [hl] at hrun; simp at hrun
    · rw [hl] at hrun
      simp only at hrun
      cases hp : patternLoop h matcher rule lv ruleSet ruleSet.Paths st with
      | none => rw [hp] at hrun; simp at hrun
      | some r =>
        obtain ⟨st2, b⟩ := r
        rw [hp] at hrun
        obtain ⟨hc1, hfound, hF, hC⟩ :=
          patternLoop_spec h matcher rule lv ruleSet ruleSet.Paths st st2 b hc hp
        have htier : (ruleSet.Paths.findSome? fun pat =>
            firstHitOfPaths h lv ruleSet (foundPaths matcher pat)) =
            firstHitOfTier h matcher lv ruleSet := rfl
        rw [htier] at hfound hF hC
        cases hfh : firstHitOfTier h matcher lv ruleSet with
        | some hit =>
          have hcons : firstHitOfLevels h matcher rule (lv :: rest) = some hit := by
            simp only [firstHitOfLevels, List.findSome?_cons, hl, hfh]
          rw [hcons]
          rw [hfh] at hfound hF hC
          simp only [Option.isSome_some] at hfound
          subst hfound
          simp only [Option.some.injEq, Prod.mk.injEq] at hrun
          obtain ⟨rfl, rfl⟩ := hrun
          exact ⟨hc1, rfl, hF, hC⟩
        | none =>
          have hcons : firstHitOfLevels h matcher rule (lv :: rest) =
              firstHitOfLevels h matcher rule rest := by
            simp only [firstHitOfLevels, List.findSome?_cons, hl, hfh]
          rw [hcons]
          rw [hfh] at hfound hF hC
          simp only [Option.isSome_none] at hfound
          subst hfound
          simp only [Option.map_none', emitted_none, List.append_nil] at hF hC
          simp only at hrun
          have := ih st2 st1 found hc1 hrun
          rw [hF, hC] at this
          exact this

theorem itemsOfType_cons (h : Host) (matcher : IndexMatcher) (ty : String)
    (r : FrameworkRuleDefinition) (rest : List FrameworkRuleDefinition) :
    itemsOfType h matcher ty (r :: rest) =
      emitted ty r (ruleItem h matcher r) ++ itemsOfType h matcher ty rest := by
  unfold itemsOfType emitted
  rw [List.filterMap_cons]
  by_cases ht : r.Type_ = ty
  · simp only [if_pos ht]
    cases ruleItem h matcher r <;> simp
  · simp only [if_neg ht]
    simp

/-- The loop over the rules appends, for every rule in order, its item to the list of its
type. -/
theorem ruleLoop_spec (h : Host) (matcher : IndexMatcher) :
    ∀ (rules : List FrameworkRuleDefinition) (st st1 : DetectState),
    CacheOK h st.fileContentCache →
    ruleLoop h matcher rules st = some st1 →
    CacheOK h st1.fileContentCache ∧
    st1.Frameworks = st.Frameworks ++ itemsOfType h matcher RuleTypeFramework rules ∧
    st1.Components = st.Components ++ itemsOfType h matcher RuleTypeComponent rules := by
  intro rules
  induction rules with
  | nil =>
    intro st st1 hc hrun
    simp only [ruleLoop, Option.some.injEq] at hrun
    subst hrun
    simp [itemsOfType, hc]
  | cons r rest ih =>
    intro st st1 hc hrun
    unfold ruleLoop at hrun
    cases hl : levelLoop h matcher r ["L1", "L2", "L3"] st with
    | none => rw [hl] at hrun; simp at hrun
    | some res =>
      obtain ⟨st2, b⟩ := res
      rw [hl] at hrun
      simp only at hrun
      obtain ⟨hc1, -, hF, hC⟩ := levelLoop_spec h matcher r _ st st2 b hc hl
      obtain ⟨hc2, hF2, hC2⟩ := ih st2 st1 hc1 hrun
      refine ⟨hc2, ?_, ?_⟩
      · rw [hF2, hF, itemsOfType_cons, List.append_assoc]; rfl
      · rw [hC2, hC, itemsOfType_cons, List.append_assoc]; rfl

theorem languageLoop_iff (rule : FrameworkRuleDefinition) (languages : List String) :
    languageLoop rule languages = true ↔ rule.Language ∈ languages := by
  induction languages with
  | nil => simp [languageLoop]
  | cons lang rest ih =>
    unfold languageLoop
    by_cases hl : rule.Language = lang
    · simp [hl]
    · simp [hl, ih]

theorem filterLoop_eq (languages : List String) :
    ∀ (rules filtered : List FrameworkRuleDefinition),
    filterLoop languages rules filtered =
      filtered ++ rules.filter (fun r => decide (r.Language ∈ languages)) := by
  intro rules
  induction rules with
  | nil => intro filtered; simp [filterLoop]
  | cons r rest ih =>
    intro filtered
    unfold filterLoop
    by_cases hl : r.Language ∈ languages
    · rw [if_pos ((languageLoop_iff r languages).2 hl), ih]
      simp [hl]
    · have : ¬ languageLoop r languages = true := fun hh => hl ((languageLoop_iff r languages).1 hh)
      rw [if_neg this, ih]
      simp [hl]

theorem filterRulesByLanguages_eq (e : CanvasEngine) (languages : List String) :
    filterRulesByLanguages e languages =
      e.rules.filter (fun r => decide (r.Language ∈ languages)) := by
  unfold filterRulesByLanguages
  rw [filterLoop_eq]
  simp

/-- Refinement: when `DetectFrameworks` returns, its error is nil and each result list holds,
in rule order, the items of the first hits of the candidate rules of that type. -/
theorem DetectFrameworks_spec (h : Host) (e : CanvasEngine) (matcher : IndexMatcher)
    (languages : List String) (res : DetectionResult) (err : Option GoError)
    (hrun : DetectFrameworks h e matcher languages = some (res, err)) :
    err = none ∧
    res.Frameworks =
      itemsOfType h matcher RuleTypeFramework (filterRulesByLanguages e languages) ∧
    res.Components =
      itemsOfType h matcher RuleTypeComponent (filterRulesByLanguages e languages) := by
  unfold DetectFrameworks at hrun
  simp only at hrun
  cases hl : ruleLoop h matcher (filterRulesByLanguages e languages)
      { Frameworks := [], Components := [], fileContentCache := [] } with
  | none => rw [hl] at hrun; simp at hrun
  | some st =>
    rw [hl] at hrun
    simp only [Option.some.injEq, Prod.mk.injEq] at hrun
    obtain ⟨rfl, rfl⟩ := hrun
    obtain ⟨-, hF, hC⟩ := ruleLoop_spec h matcher _ _ st (cacheOK_nil h) hl
    simp only [List.nil_append] at hF hC
    exact ⟨rfl, hF, hC⟩

/-! ### `addRule` -/

theorem sameIdentity_iff (r rule : FrameworkRuleDefinition) :
    sameIdentity r rule = true ↔ ruleIdentity r = ruleIdentity rule := by
  simp [sameIdentity, ruleIdentity, and_assoc]

theorem existingIndexLoop_upsert (rule : FrameworkRuleDefinition) :
    ∀ (rules : List FrameworkRuleDefinition) (i : Nat),
    (existingIndexLoop rule rules i = -1 ∧ upsert rule rules = rules ++ [rule]) ∨
    (∃ k : Nat, existingIndexLoop rule rules i = ((i + k : Nat) : Int) ∧
      upsert rule rules = rules.set k rule) := by
  intro rules
  induction rules with
  | nil => intro i; left; exact ⟨rfl, rfl⟩
  | cons r rest ih =>
    intro i
    unfold existingIndexLoop upsert
    by_cases hs : sameIdentity r rule = true
    · right
      refine ⟨0, ?_, ?_⟩
      · simp [hs]
      · simp [hs]
    · have hs2 : sameIdentity r rule = false := by simpa using hs
      rcases ih (i + 1) with ⟨h1, h2⟩ | ⟨k, h1, h2⟩
      · left
        simp [hs2, h1, h2]
      · right
        refine ⟨k + 1, ?_, ?_⟩
        · simp only [hs2, Bool.false_eq_true, if_false, h1]
          congr 1
          omega
        · simp [hs2, h2]

theorem addRule_rules (e : CanvasEngine) (rule : FrameworkRuleDefinition) :
    (addRule e rule).rules = upsert rule e.rules := by
  have hrules : (addRule e rule).rules =
      (if existingIndexLoop rule e.rules 0 ≠ -1 then
        e.rules.set (existingIndexLoop rule e.rules 0).toNat rule
      else e.rules ++ [rule]) := by
    unfold addRule
    simp only
    split
    · rfl
    · split <;> rfl
  rw [hrules]
  rcases existingIndexLoop_upsert rule e.rules 0 with ⟨h1, h2⟩ | ⟨k, h1, h2⟩
  · rw [h1, h2]; simp
  · rw [h1, h2]
    have hne : ((0 + k : Nat) : Int) ≠ -1 := by omega
    rw [if_pos hne]
    simp

theorem loadEmbeddedRules_rules (rs : List FrameworkRuleDefinition) :
    ∀ e : CanvasEngine, (loadEmbeddedRules e rs).rules =
      rs.foldl (fun l r => upsert r l) e.rules := by
  induction rs with
  | nil => intro e; rfl
  | cons r rest ih =>
    intro e
    simp only [loadEmbeddedRules, List.foldl_cons] at ih ⊢
    rw [ih (addRule e r), addRule_rules]

theorem upsert_identities (rule : FrameworkRuleDefinition) :
    ∀ rules : List FrameworkRuleDefinition,
    (upsert rule rules).map ruleIdentity =
      if ruleIdentity rule ∈ rules.map ruleIdentity then rules.map ruleIdentity
      else rules.map ruleIdentity ++ [ruleIdentity rule] := by
  intro rules
  induction rules with
  | nil => simp [upsert]
  | cons r rest ih =>
    unfold upsert
    by_cases hs : sameIdentity r rule = true
    · have hid := (sameIdentity_iff r rule).1 hs
      simp [hs, hid]
    · have hid : ¬ ruleIdentity r = ruleIdentity rule := fun hh => hs ((sameIdentity_iff r rule).2 hh)
      have hid2 : ¬ ruleIdentity rule = ruleIdentity r := fun hh => hid hh.symm
      have hs2 : sameIdentity r rule = false := by simpa using hs
      simp only [hs2, Bool.false_eq_true, if_false, List.map_cons, ih, List.mem_cons, hid2,
        false_or]
      split <;> simp

theorem upsert_nodup (rule : FrameworkRuleDefinition) (rules : List FrameworkRuleDefinition)
    (hnd : (rules.map ruleIdentity).Nodup) : ((upsert rule rules).map ruleIdentity).Nodup := by
  rw [upsert_identities]
  split
  · exact hnd
  · rename_i hmem
    rw [List.nodup_append]
    refine ⟨hnd, List.nodup_singleton _, ?_⟩
    intro a ha hb
    simp only [List.mem_singleton] at hb
    exact hmem (hb ▸ ha)

theorem upsert_length (rule : FrameworkRuleDefinition) (rules : List FrameworkRuleDefinition) :
    (upsert rule rules).length =
      if ruleIdentity rule ∈ rules.map ruleIdentity then rules.length else rules.length + 1 := by
  have h := congrArg List.length (upsert_identities rule rules)
  rw [List.length_map] at h
  rw [h]
  split <;> simp

theorem upsert_find (rule : FrameworkRuleDefinition) (id : String × String × String) :
    ∀ rules : List FrameworkRuleDefinition,
    (upsert rule rules).find? (fun r => decide (ruleIdentity r = id)) =
      if ruleIdentity rule = id then some rule
      else rules.find? (fun r => decide (ruleIdentity r = id)) := by
  intro rules
  induction rules with
  | nil =>
    unfold upsert
    by_cases hid : ruleIdentity rule = id <;> simp [hid]
  | cons r rest ih =>
    unfold upsert
    by_cases hs : sameIdentity r rule = true
    · have hrr := (sameIdentity_iff r rule).1 hs
      by_cases hid : ruleIdentity rule = id
      · simp [hs, hid]
      · have hrid : ¬ ruleIdentity r = id := by rw [hrr]; exact hid
        simp [hs, hid, hrid]
    · have hrr : ¬ ruleIdentity r = ruleIdentity rule :=
        fun hh => hs ((sameIdentity_iff r rule).2 hh)
      have hs2 : sameIdentity r rule = false := by simpa using hs
      simp only [hs2, Bool.false_eq_true, if_false, List.find?_cons]
      by_cases hrid : ruleIdentity r = id
      · have hid : ¬ ruleIdentity rule = id := fun hh => hrr (hrid.trans hh.symm)
        simp [hrid, hid]
      · simp only [hrid, decide_False, ih]

theorem foldl_upsert_nodup (rs : List FrameworkRuleDefinition) :
    ∀ rules : List FrameworkRuleDefinition, (rules.map ruleIdentity).Nodup →
    ((rs.foldl (fun l r => upsert r l) rules).map ruleIdentity).Nodup := by
  induction rs with
  | nil => intro rules hnd; exact hnd
  | cons r rest ih =>
    intro rules hnd
    rw [List.foldl_cons]
    exact ih _ (upsert_nodup r rules hnd)

theorem foldl_upsert_find (id : String × String × String) (rs : List FrameworkRuleDefinition) :
    ∀ rules : List FrameworkRuleDefinition,
    (rs.foldl (fun l r => upsert r l) rules).find? (fun r => decide (ruleIdentity r = id)) =
      (rs.reverse.find? (fun r => decide (ruleIdentity r = id))).or
        (rules.find? (fun r => decide (ruleIdentity r = id))) := by
  induction rs with
  | nil => intro rules; simp
  | cons r rest ih =>
    intro rules
    rw [List.foldl_cons, ih, upsert_find, List.reverse_cons, List.find?_append]
    by_cases hid : ruleIdentity r = id
    · simp only [hid, if_true, List.find?_cons, decide_True]
      cases List.find? (fun r => decide (ruleIdentity r = id)) rest.reverse <;> simp
    · simp [hid]

theorem loaded_rules_nodup (rs : List FrameworkRuleDefinition) :
    ((loadEmbeddedRules emptyEngine rs).rules.map ruleIdentity).Nodup := by
  rw [loadEmbeddedRules_rules]
  exact foldl_upsert_nodup rs _ (by simp [emptyEngine])

/-! ### Facts about the items of the candidate rules -/

theorem ruleItem_eq_some (h : Host) (matcher : IndexMatcher) (r : FrameworkRuleDefinition)
    (i : DetectedItem) :
    ruleItem h matcher r = some i ↔ ∃ hit, firstHit h matcher r = some hit ∧ hitItem h r hit = i := by
  unfold ruleItem
  rw [Option.map_eq_some']

theorem mem_itemsOfType (h : Host) (matcher : IndexMatcher) (ty : String)
    (rules : List FrameworkRuleDefinition) (i : DetectedItem) :
    i ∈ itemsOfType h matcher ty rules ↔
      ∃ r ∈ rules, r.Type_ = ty ∧ ruleItem h matcher r = some i := by
  unfold itemsOfType
  rw [List.mem_filterMap]
  constructor
  · rintro ⟨r, hr, hi⟩
    by_cases ht : r.Type_ = ty
    · rw [if_pos ht] at hi
      exact ⟨r, hr, ht, hi⟩
    · rw [if_neg ht] at hi
      cases hi
  · rintro ⟨r, hr, ht, hi⟩
    exact ⟨r, hr, by rw [if_pos ht]; exact hi⟩

theorem ruleItem_identity (h : Host) (matcher : IndexMatcher) (r : FrameworkRuleDefinition)
    (i : DetectedItem) (hi : ruleItem h matcher r = some i) :
    itemIdentity i = ruleIdentity r := by
  obtain ⟨hit, -, rfl⟩ := (ruleItem_eq_some h matcher r i).1 hi
  rfl

theorem itemsOfType_producers (h : Host) (matcher : IndexMatcher) (ty : String) :
    ∀ rules : List FrameworkRuleDefinition, ∃ producers : List FrameworkRuleDefinition,
      producers.Sublist rules ∧
      List.Forall₂ (fun r i => ruleItem h matcher r = some i) producers
        (itemsOfType h matcher ty rules) := by
  intro rules
  induction rules with
  | nil => exact ⟨[], List.Sublist.slnil, by simp [itemsOfType]⟩
  | cons r rest ih =>
    obtain ⟨ps, hsub, hall⟩ := ih
    rw [itemsOfType_cons]
    unfold emitted
    by_cases ht : r.Type_ = ty
    · rw [if_pos ht]
      cases hri : ruleItem h matcher r with
      | none => exact ⟨ps, hsub.cons r, by simpa using hall⟩
      | some i =>
        refine ⟨r :: ps, hsub.cons₂ r, ?_⟩
        simp only [Option.toList_some, List.singleton_append]
        exact List.Forall₂.cons hri hall
    · rw [if_neg ht]
      exact ⟨ps, hsub.cons r, by simpa using hall⟩

theorem forall₂_identities (h : Host) (matcher : IndexMatcher) :
    ∀ (ps : List FrameworkRuleDefinition) (is : List DetectedItem),
    List.Forall₂ (fun r i => ruleItem h matcher r = some i) ps is →
    is.map itemIdentity = ps.map ruleIdentity := by
  intro ps is hall
  induction hall with
  | nil => rfl
  | cons hri _ ih =>
    simp only [List.map_cons, ih, ruleItem_identity h matcher _ _ hri]

theorem itemsOfType_identities_sublist (h : Host) (matcher : IndexMatcher) (ty : String)
    (rules : List FrameworkRuleDefinition) :
    ((itemsOfType h matcher ty rules).map itemIdentity).Sublist (rules.map ruleIdentity) := by
  obtain ⟨ps, hsub, hall⟩ := itemsOfType_producers h matcher ty rules
  rw [forall₂_identities h matcher ps _ hall]
  exact hsub.map ruleIdentity

theorem itemsOfType_type (h : Host) (matcher : IndexMatcher) (ty : String)
    (rules : List FrameworkRuleDefinition) (i : DetectedItem)
    (hi : i ∈ itemsOfType h matcher ty rules) : i.Type_ = ty := by
  obtain ⟨r, -, ht, hri⟩ := (mem_itemsOfType h matcher ty rules i).1 hi
  have hid := ruleItem_identity h matcher r i hri
  simp only [itemIdentity, ruleIdentity, Prod.mk.injEq] at hid
  rw [hid.2.1, ht]

theorem candidates_identities_nodup (e : CanvasEngine) (languages : List String)
    (hnd : (e.rules.map ruleIdentity).Nodup) :
    ((filterRulesByLanguages e languages).map ruleIdentity).Nodup := by
  rw [filterRulesByLanguages_eq]
  exact hnd.sublist ((List.filter_sublist _).map ruleIdentity)

theorem result_identities_nodup (h : Host) (e : CanvasEngine) (matcher : IndexMatcher)
    (languages : List String) (res : DetectionResult) (err : Option GoError)
    (hrun : DetectFrameworks h e matcher languages = some (res, err))
    (hnd : (e.rules.map ruleIdentity).Nodup) :
    ((res.Frameworks ++ res.Components).map itemIdentity).Nodup := by
  obtain ⟨-, hF, hC⟩ := DetectFrameworks_spec h e matcher languages res err hrun
  have hcand := candidates_identities_nodup e languages hnd
  rw [List.map_append, List.nodup_append]
  refine ⟨?_, ?_, ?_⟩
  · rw [hF]; exact hcand.sublist (itemsOfType_identities_sublist h matcher _ _)
  · rw [hC]; exact hcand.sublist (itemsOfType_identities_sublist h matcher _ _)
  · intro id hidF hidC
    rw [List.mem_map] at hidF hidC
    obtain ⟨i, hi, rfl⟩ := hidF
    obtain ⟨j, hj, hij⟩ := hidC
    rw [hF] at hi
    rw [hC] at hj
    have hti := itemsOfType_type h matcher _ _ i hi
    have htj := itemsOfType_type h matcher _ _ j hj
    simp only [itemIdentity, Prod.mk.injEq] at hij
    exact frameworkType_ne_componentType (by rw [← hti, ← htj, hij.2.1])

theorem demo_run :
    DetectFrameworks demoHost demoEngine demoMatcher demoLanguages = some (demoResult, none) := by
  decide

/-! ### The first hit is the first accepted path -/

theorem firstHitOfPaths_eq_none (h : Host) (lv : String) (rs : RuleSet) (ms : List String) :
    firstHitOfPaths h lv rs ms = none ↔ ∀ p ∈ ms, acceptedContent h rs p = none := by
  unfold firstHitOfPaths
  rw [List.findSome?_eq_none_iff]
  simp only [Option.map_eq_none']

theorem firstHitOfPaths_eq_some (h : Host) (lv : String) (rs : RuleSet) (ms : List String)
    (hit : Hit) (hh : firstHitOfPaths h lv rs ms = some hit) :
    hit.level = lv ∧ hit.ruleSet = rs ∧
    ∃ mpre mpost, ms = mpre ++ hit.path :: mpost ∧
      (∀ p ∈ mpre, acceptedContent h rs p = none) ∧
      acceptedContent h rs hit.path = some hit.content := by
  unfold firstHitOfPaths at hh
  rw [List.findSome?_eq_some_iff] at hh
  obtain ⟨l1, a, l2, hms, hfa, hpre⟩ := hh
  rw [Option.map_eq_some'] at hfa
  obtain ⟨c, hc, rfl⟩ := hfa
  refine ⟨rfl, rfl, l1, l2, hms, ?_, hc⟩
  intro p hp
  have := hpre p hp
  simpa only [Option.map_eq_none'] using this

theorem firstHitOfTier_eq_none (h : Host) (matcher : IndexMatcher) (lv : String) (rs : RuleSet) :
    firstHitOfTier h matcher lv rs = none ↔ NoAcceptedPath h matcher rs := by
  unfold firstHitOfTier NoAcceptedPath
  rw [List.findSome?_eq_none_iff]
  simp only [firstHitOfPaths_eq_none]

theorem firstHitOfTier_eq_some (h : Host) (matcher : IndexMatcher) (lv : String) (rs : RuleSet)
    (hit : Hit) (hh : firstHitOfTier h matcher lv rs = some hit) :
    hit.level = lv ∧ hit.ruleSet = rs ∧
    ∃ ppre pat ppost, rs.Paths = ppre ++ pat :: ppost ∧
      (∀ q ∈ ppre, ∀ p ∈ foundPaths matcher q, acceptedContent h rs p = none) ∧
      ∃ mpre mpost, foundPaths matcher pat = mpre ++ hit.path :: mpost ∧
        (∀ p ∈ mpre, acceptedContent h rs p = none) ∧
        acceptedContent h rs hit.path = some hit.content := by
  unfold firstHitOfTier at hh
  rw [List.findSome?_eq_some_iff] at hh
  obtain ⟨l1, pat, l2, hps, hfa, hpre⟩ := hh
  obtain ⟨hlv, hrs, hrest⟩ := firstHitOfPaths_eq_some h lv rs _ hit hfa
  refine ⟨hlv, hrs, l1, pat, l2, hps, ?_, hrest⟩
  intro q hq
  exact (firstHitOfPaths_eq_none h lv rs _).1 (hpre q hq)

theorem firstHitOfLevels_eq_some (h : Host) (matcher : IndexMatcher)
    (r : FrameworkRuleDefinition) (levels : List String) (hit : Hit)
    (hh : firstHitOfLevels h matcher r levels = some hit) :
    ∃ pre post, levels = pre ++ hit.level :: post ∧
      r.Levels.lookup hit.level = some (some hit.ruleSet) ∧
      (∀ lv ∈ pre, ∀ rs, r.Levels.lookup lv = some (some rs) → NoAcceptedPath h matcher rs) ∧
      firstHitOfTier h matcher hit.level hit.ruleSet = some hit := by
  unfold firstHitOfLevels at hh
  rw [List.findSome?_eq_some_iff] at hh
  obtain ⟨l1, lv, l2, hls, hfa, hpre⟩ := hh
  rcases hl : r.Levels.lookup lv with _ | _ | rs
  · rw [hl] at hfa; cases hfa
  · rw [hl] at hfa; cases hfa
  · rw [hl] at hfa
    simp only at hfa
    obtain ⟨hlv, hrs, -⟩ := firstHitOfTier_eq_some h matcher lv rs hit hfa
    subst hlv
    subst hrs
    refine ⟨l1, l2, hls, hl, ?_, hfa⟩
    intro lv1 hlv1 rs1 hl1
    have := hpre lv1 hlv1
    rw [hl1] at this
    exact (firstHitOfTier_eq_none h matcher lv1 rs1).1 this

theorem firstHit_level (h : Host) (matcher : IndexMatcher) (r : FrameworkRuleDefinition)
    (hit : Hit) (hh : firstHit h matcher r = some hit) :
    hit.level = "L1" ∨ hit.level = "L2" ∨ hit.level = "L3" := by
  obtain ⟨pre, post, hls, -⟩ := firstHitOfLevels_eq_some h matcher r _ hit hh
  have hmem : hit.level ∈ ["L1", "L2", "L3"] := by
    rw [hls]; simp
  simpa using hmem

theorem acceptedContent_of_readable (h : Host) (rs : RuleSet) (p c : String)
    (hread : readContent h p = some c) (hkw : ∀ kw ∈ rs.Contains, kw.data <:+: c.data) :
    (acceptedContent h rs p).isSome = true := by
  unfold acceptedContent
  split
  · rw [hread]
    simp only
    rw [if_pos hkw]
    rfl
  · rfl

theorem firstHitOfLevels_isSome (h : Host) (matcher : IndexMatcher)
    (r : FrameworkRuleDefinition) (levels : List String) (lv : String) (hlv : lv ∈ levels)
    (rs : RuleSet) (htier : r.Levels.lookup lv = some (some rs)) (pat : String)
    (hpat : pat ∈ rs.Paths) (p : String) (hp : p ∈ foundPaths matcher pat)
    (hacc : (acceptedContent h rs p).isSome = true) :
    (firstHitOfLevels h matcher r levels).isSome = true := by
  unfold firstHitOfLevels
  rw [List.findSome?_isSome_iff]
  refine ⟨lv, hlv, ?_⟩
  rw [htier]
  simp only
  unfold firstHitOfTier
  rw [List.findSome?_isSome_iff]
  refine ⟨pat, hpat, ?_⟩
  unfold firstHitOfPaths
  rw [List.findSome?_isSome_iff]
  refine ⟨p, hp, ?_⟩
  rw [Option.isSome_map']
  exact hacc

theorem foundPaths_of_found (matcher : IndexMatcher) (pat : String) (ms : List String)
    (hfind : matcher pat = some (ms, none)) : foundPaths matcher pat = ms := by
  simp [foundPaths, hfind]

theorem countP_le_one_of_nodup_map {α β : Type} [DecidableEq β] (f : α → β) (b : β) :
    ∀ l : List α, (l.map f).Nodup → l.countP (fun a => decide (f a = b)) ≤ 1 := by
  intro l
  induction l with
  | nil => intro _; simp
  | cons a rest ih =>
    intro hnd
    rw [List.map_cons, List.nodup_cons] at hnd
    by_cases hab : f a = b
    · have hzero : rest.countP (fun a => decide (f a = b)) = 0 := by
        rw [List.countP_eq_zero]
        intro x hx hfx
        have hfx2 : f x = b := by simpa using hfx
        exact hnd.1 (List.mem_map.2 ⟨x, hx, hfx2.trans hab.symm⟩)
      rw [List.countP_cons, hzero]
      simp [hab]
    · rw [List.countP_cons]
      simp only [hab, decide_False, Bool.false_eq_true, if_false, Nat.add_zero]
      exact ih hnd.2

theorem demo_engine_rules :
    demoEngine.rules = [mavenRule, expressRule, djangoRule, lodashRule, coreJarRule] := by
  decide

/-! ### The run returns when nothing aborts -/

theorem patternLoop_returns (h : Host) (matcher : IndexMatcher) (rule : FrameworkRuleDefinition)
    (level : String) (rs : RuleSet) (hm : ∀ pat, matcher pat ≠ none) :
    ∀ (pats : List String) (st : DetectState),
    ∃ out, patternLoop h matcher rule level rs pats st = some out := by
  intro pats
  induction pats with
  | nil => intro st; exact ⟨_, rfl⟩
  | cons pat rest ih =>
    intro st
    unfold patternLoop
    rcases hmp : matcher pat with _ | ⟨ms, _ | err⟩
    · exact absurd hmp (hm pat)
    · simp only
      rcases matchLoop h rule level rs ms st with ⟨st2, _ | _⟩
      · exact ih st2
      · exact ⟨_, rfl⟩
    · exact ih st

theorem levelLoop_returns (h : Host) (matcher : IndexMatcher) (rule : FrameworkRuleDefinition)
    (hm : ∀ pat, matcher pat ≠ none) :
    ∀ (levels : List String) (st : DetectState),
    (∀ lv ∈ levels, rule.Levels.lookup lv ≠ some none) →
    ∃ out, levelLoop h matcher rule levels st = some out := by
  intro levels
  induction levels with
  | nil => intro st _; exact ⟨_, rfl⟩
  | cons lv rest ih =>
    intro st hl
    have hrest : ∀ lv1 ∈ rest, rule.Levels.lookup lv1 ≠ some none :=
      fun lv1 h1 => hl lv1 (List.mem_cons_of_mem _ h1)
    unfold levelLoop
    rcases hlk : rule.Levels.lookup lv with _ | _ | ruleSet
    · exact ih st hrest
    · exact absurd hlk (hl lv (List.mem_cons_self _ _))
    · simp only
      obtain ⟨⟨st2, b⟩, hp⟩ := patternLoop_returns h matcher rule lv ruleSet hm ruleSet.Paths st
      rw [hp]
      cases b
      · exact ih st2 hrest
      · exact ⟨_, rfl⟩

theorem ruleLoop_returns (h : Host) (matcher : IndexMatcher) :
    ∀ (rules : List FrameworkRuleDefinition) (st : DetectState), NoAbort matcher rules →
    ∃ st1, ruleLoop h matcher rules st = some st1 := by
  intro rules
  induction rules with
  | nil => intro st _; exact ⟨_, rfl⟩
  | cons r rest ih =>
    intro st hna
    unfold ruleLoop
    obtain ⟨⟨st2, b⟩, hl⟩ := levelLoop_returns h matcher r hna.1 _ st
      (hna.2 r (List.mem_cons_self _ _))
    rw [hl]
    exact ih st2 ⟨hna.1, fun r1 h1 => hna.2 r1 (List.mem_cons_of_mem _ h1)⟩

/-- When nothing aborts, `DetectFrameworks` returns a result and a nil error. -/
theorem DetectFrameworks_returns (h : Host) (e : CanvasEngine) (matcher : IndexMatcher)
    (languages : List String)
    (hna : NoAbort matcher (filterRulesByLanguages e languages)) :
    ∃ res, DetectFrameworks h e matcher languages = some (res, none) := by
  obtain ⟨st, hst⟩ := ruleLoop_returns h matcher (filterRulesByLanguages e languages)
    { Frameworks := [], Components := [], fileContentCache := [] } hna
  unfold DetectFrameworks
  simp only [hst]
  exact ⟨_, rfl⟩

/-! ### The claims -/

/-- C1: for every rule list built by `addRule` calls, every matcher, host and language list,
the result of `DetectFrameworks` holds at most one item per rule identity (name, type,
language), counting the frameworks and components lists together. -/
theorem C1_at_most_one_item_per_identity (h : Host) (matcher : IndexMatcher)
    (loaded : List FrameworkRuleDefinition) (languages : List String) (res : DetectionResult)
    (err : Option GoError)
    (hrun : DetectFrameworks h (loadEmbeddedRules emptyEngine loaded) matcher languages =
      some (res, err))
    (id : String × String × String) :
    (res.Frameworks ++ res.Components).countP (fun i => decide (itemIdentity i = id)) ≤ 1 :=
  countP_le_one_of_nodup_map itemIdentity id _
    (result_identities_nodup h _ matcher languages res err hrun (loaded_rules_nodup loaded))

/-- C1 on the concrete project: the Express rule matches at `L1` and at `L2`, and is emitted
once. -/
theorem C1_witness :
    DetectFrameworks demoHost (loadEmbeddedRules emptyEngine demoRules) demoMatcher
        demoLanguages = some (demoResult, none) ∧
      (demoResult.Frameworks ++ demoResult.Components).countP
        (fun i => decide (itemIdentity i = ("Express", "framework", "JavaScript"))) ≤ 1 :=
  ⟨demo_run,
    C1_at_most_one_item_per_identity demoHost demoMatcher demoRules demoLanguages demoResult
      none demo_run _⟩

/-- C2: when `DetectFrameworks` returns, each result list holds, for the candidate rules of
its type in order, the item of the first hit of the rule: the first tier in the order `L1`,
`L2`, `L3` that has an accepted path, the first pattern of that tier that has one and the
first accepted path of that pattern; the confidence of the item is the one of the tier label
(`L1` high, `L2` medium, `L3` low); a rule whose `L1` tier has an accepted path has its hit
in `L1`, with confidence high. -/
theorem C2_first_tier_pattern_path_wins (h : Host) (e : CanvasEngine) (matcher : IndexMatcher)
    (languages : List String) (res : DetectionResult) (err : Option GoError)
    (hrun : DetectFrameworks h e matcher languages = some (res, err)) :
    res.Frameworks =
      (filterRulesByLanguages e languages).filterMap (fun r =>
        if r.Type_ = RuleTypeFramework then (firstHit h matcher r).map (hitItem h r)
        else none) ∧
    res.Components =
      (filterRulesByLanguages e languages).filterMap (fun r =>
        if r.Type_ = RuleTypeComponent then (firstHit h matcher r).map (hitItem h r)
        else none) ∧
    (∀ r hit, firstHit h matcher r = some hit →
      (∃ pre post, ["L1", "L2", "L3"] = pre ++ hit.level :: post ∧
        r.Levels.lookup hit.level = some (some hit.ruleSet) ∧
        (∀ lv ∈ pre, ∀ rs, r.Levels.lookup lv = some (some rs) →
          NoAcceptedPath h matcher rs) ∧
        ∃ ppre pat ppost, hit.ruleSet.Paths = ppre ++ pat :: ppost ∧
          (∀ q ∈ ppre, ∀ p ∈ foundPaths matcher q, acceptedContent h hit.ruleSet p = none) ∧
          ∃ mpre mpost, foundPaths matcher pat = mpre ++ hit.path :: mpost ∧
            (∀ p ∈ mpre, acceptedContent h hit.ruleSet p = none) ∧
            acceptedContent h hit.ruleSet hit.path = some hit.content) ∧
      ((hit.level = "L1" ∧ (hitItem h r hit).Confidence = "high") ∨
        (hit.level = "L2" ∧ (hitItem h r hit).Confidence = "medium") ∨
        (hit.level = "L3" ∧ (hitItem h r hit).Confidence = "low"))) ∧
    (∀ r rs pat p, r.Levels.lookup "L1" = some (some rs) → pat ∈ rs.Paths →
      p ∈ foundPaths matcher pat → (acceptedContent h rs p).isSome = true →
      ∃ hit, firstHit h matcher r = some hit ∧ hit.level = "L1" ∧
        (hitItem h r hit).Confidence = "high") := by
  obtain ⟨-, hF, hC⟩ := DetectFrameworks_spec h e matcher languages res err hrun
  refine ⟨hF, hC, ?_, ?_⟩
  · intro r hit hh
    constructor
    · obtain ⟨pre, post, hls, hlook, hpre, htier⟩ :=
        firstHitOfLevels_eq_some h matcher r _ hit hh
      obtain ⟨-, -, hrest⟩ := firstHitOfTier_eq_some h matcher _ _ hit htier
      exact ⟨pre, post, hls, hlook, hpre, hrest⟩
    · rcases firstHit_level h matcher r hit hh with h1 | h2 | h3
      · left
        refine ⟨h1, ?_⟩
        simp only [hitItem, buildItem, h1]
        rfl
      · right; left
        refine ⟨h2, ?_⟩
        simp only [hitItem, buildItem, h2]
        rfl
      · right; right
        refine ⟨h3, ?_⟩
        simp only [hitItem, buildItem, h3]
        rfl
  · intro r rs pat p hlook hpat hp hacc
    have htier : (firstHitOfTier h matcher "L1" rs).isSome = true := by
      unfold firstHitOfTier
      rw [List.findSome?_isSome_iff]
      refine ⟨pat, hpat, ?_⟩
      unfold firstHitOfPaths
      rw [List.findSome?_isSome_iff]
      exact ⟨p, hp, by rw [Option.isSome_map']; exact hacc⟩
    obtain ⟨hit, hhit⟩ := Option.isSome_iff_exists.1 htier
    have hfirst : firstHit h matcher r = some hit := by
      unfold firstHit firstHitOfLevels
      rw [List.findSome?_cons, hlook]
      simp only [hhit]
    obtain ⟨hlv, -, -⟩ := firstHitOfTier_eq_some h matcher "L1" rs hit hhit
    refine ⟨hit, hfirst, hlv, ?_⟩
    simp only [hitItem, buildItem, hlv]
    rfl

/-- C2 on the concrete project: the frameworks list is the list of first-hit items. -/
theorem C2_witness :
    DetectFrameworks demoHost demoEngine demoMatcher demoLanguages = some (demoResult, none) ∧
      demoResult.Frameworks =
        (filterRulesByLanguages demoEngine demoLanguages).filterMap (fun r =>
          if r.Type_ = RuleTypeFramework then (firstHit demoHost demoMatcher r).map
            (hitItem demoHost r)
          else none) :=
  ⟨demo_run,
    (C2_first_tier_pattern_path_wins demoHost demoEngine demoMatcher demoLanguages demoResult
      none demo_run).1⟩

/-- C3: detection is complete for satisfiable rules. Take a loaded rule of type framework or
component whose language is in the language list, such that some tier `L1`, `L2` or `L3` has a
pattern for which `FindFiles` returns a path whose content, as the engine reads it, is
readable and contains every keyword of the tier. Then every result that `DetectFrameworks`
returns has an item with the name of the rule in the list selected by its type; and it does
return a result when nothing aborts the run. -/
theorem C3_detection_complete (h : Host) (e : CanvasEngine) (matcher : IndexMatcher)
    (languages : List String)
    (r : FrameworkRuleDefinition) (hr : r ∈ e.rules)
    (hty : r.Type_ = RuleTypeFramework ∨ r.Type_ = RuleTypeComponent)
    (hlang : r.Language ∈ languages)
    (lv : String) (hlv : lv ∈ ["L1", "L2", "L3"])
    (rs : RuleSet) (htier : r.Levels.lookup lv = some (some rs))
    (pat : String) (hpat : pat ∈ rs.Paths)
    (ms : List String) (hfind : matcher pat = some (ms, none))
    (p : String) (hp : p ∈ ms)
    (c : String) (hread : readContent h p = some c)
    (hkw : ∀ kw ∈ rs.Contains, kw.data <:+: c.data) :
    (∀ res err, DetectFrameworks h e matcher languages = some (res, err) →
      ∃ item ∈ (if r.Type_ = RuleTypeFramework then res.Frameworks else res.Components),
        item.Name = r.Name) ∧
    (NoAbort matcher (filterRulesByLanguages e languages) →
      ∃ res, DetectFrameworks h e matcher languages = some (res, none)) := by
  refine ⟨?_, DetectFrameworks_returns h e matcher languages⟩
  intro res err hrun
  obtain ⟨-, hF, hC⟩ := DetectFrameworks_spec h e matcher languages res err hrun
  have hcand : r ∈ filterRulesByLanguages e languages := by
    rw [filterRulesByLanguages_eq, List.mem_filter]
    exact ⟨hr, by simpa using hlang⟩
  have hp2 : p ∈ foundPaths matcher pat := by
    rw [foundPaths_of_found matcher pat ms hfind]; exact hp
  have hsome := firstHitOfLevels_isSome h matcher r _ lv hlv rs htier pat hpat p hp2
    (acceptedContent_of_readable h rs p c hread hkw)
  obtain ⟨hit, hhit⟩ := Option.isSome_iff_exists.1 hsome
  have hitem : ruleItem h matcher r = some (hitItem h r hit) := by
    unfold ruleItem firstHit
    rw [hhit]
    rfl
  by_cases hf : r.Type_ = RuleTypeFramework
  · rw [if_pos hf, hF]
    exact ⟨hitItem h r hit, (mem_itemsOfType h matcher _ _ _).2 ⟨r, hcand, hf, hitem⟩, rfl⟩
  · have hcmp : r.Type_ = RuleTypeComponent := hty.resolve_left hf
    rw [if_neg hf, hC]
    exact ⟨hitItem h r hit, (mem_itemsOfType h matcher _ _ _).2 ⟨r, hcand, hcmp, hitem⟩, rfl⟩

/-- C3 on the scenario of the specification: the tier `L1` requires the keyword `express` in a
file matched by `*.js`, and `index.js` holds `const x = require('express')`. -/
theorem C3_witness :
    DetectFrameworks demoHost demoEngine demoMatcher demoLanguages = some (demoResult, none) ∧
      ∃ item ∈ (if expressRule.Type_ = RuleTypeFramework then demoResult.Frameworks
        else demoResult.Components), item.Name = expressRule.Name :=
  ⟨demo_run,
    (C3_detection_complete demoHost demoEngine demoMatcher demoLanguages
      expressRule (by rw [demo_engine_rules]; decide) (Or.inl rfl) (by decide)
      "L1" (by decide)
      { Paths := ["package.json", "*.js"], Contains := ["express"],
        ExtractVersionFromText := none, ExtractVersionFromPath := none } rfl
      "*.js" (by decide) ["/proj/index.js"] rfl "/proj/index.js" (by decide)
      "const x = require('express')" (by decide) (by decide)).1 demoResult none demo_run⟩

/-- C4: `filterRulesByLanguages` returns exactly the loaded rules whose language is equal to
an entry of the language list, each once and in load order; so every item that
`DetectFrameworks` returns has a language of the list, and with an empty language list it
returns empty frameworks and components lists. -/
theorem C4_rules_filtered_by_language (h : Host) (e : CanvasEngine) (matcher : IndexMatcher)
    (languages : List String) :
    filterRulesByLanguages e languages =
      e.rules.filter (fun r => decide (r.Language ∈ languages)) ∧
    (∀ res err, DetectFrameworks h e matcher languages = some (res, err) →
      ∀ i ∈ res.Frameworks ++ res.Components, i.Language ∈ languages) ∧
    DetectFrameworks h e matcher [] = some ({ Frameworks := [], Components := [] }, none) := by
  refine ⟨filterRulesByLanguages_eq e languages, ?_, ?_⟩
  · intro res err hrun i hi
    obtain ⟨-, hF, hC⟩ := DetectFrameworks_spec h e matcher languages res err hrun
    have hmem : ∃ ty, i ∈ itemsOfType h matcher ty (filterRulesByLanguages e languages) := by
      rcases List.mem_append.1 hi with hiF | hiC
      · exact ⟨_, hF ▸ hiF⟩
      · exact ⟨_, hC ▸ hiC⟩
    obtain ⟨ty, hity⟩ := hmem
    obtain ⟨r, hr, -, hri⟩ := (mem_itemsOfType h matcher ty _ i).1 hity
    rw [filterRulesByLanguages_eq, List.mem_filter] at hr
    have hid := ruleItem_identity h matcher r i hri
    simp only [itemIdentity, ruleIdentity, Prod.mk.injEq] at hid
    rw [hid.2.2]
    simpa using hr.2
  · have hnone : filterRulesByLanguages e [] = [] := by
      rw [filterRulesByLanguages_eq]
      simp
    unfold DetectFrameworks
    simp only [hnone, ruleLoop]

/-- C4 on the concrete project: the Python rule is not a candidate. -/
theorem C4_witness :
    filterRulesByLanguages demoEngine demoLanguages =
        [mavenRule, expressRule, lodashRule, coreJarRule] ∧
      DetectFrameworks demoHost demoEngine demoMatcher [] =
        some ({ Frameworks := [], Components := [] }, none) :=
  ⟨by rw [(C4_rules_filtered_by_language demoHost demoEngine demoMatcher demoLanguages).1,
      demo_engine_rules]; decide,
    (C4_rules_filtered_by_language demoHost demoEngine demoMatcher demoLanguages).2.2⟩

/-- C5: `containsAllKeywords` returns true exactly when every keyword is a literal substring
of the content; with no keyword it returns true for every content, the absent (nil, empty)
content included. -/
theorem C5_keywords_and_semantics (content : String) (keywords : List String) :
    (containsAllKeywords content keywords = true ↔
      ∀ kw ∈ keywords, kw.data <:+: content.data) ∧
    containsAllKeywords content [] = true ∧
    containsAllKeywords "" [] = true :=
  ⟨containsAllKeywords_iff content keywords, rfl, rfl⟩

/-- C5 on concrete contents: all keywords present, one keyword absent, a keyword in another
letter case. -/
theorem C5_witness :
    containsAllKeywords "const x = require('express')" ["express", "require"] = true ∧
      containsAllKeywords "const x = require('express')" ["express", "koa"] = false ∧
      containsAllKeywords "const x = require('express')" ["Express"] = false ∧
      "require".data <:+: "const x = require('express')".data :=
  ⟨by decide, by decide, by decide,
    ((C5_keywords_and_semantics "const x = require('express')" ["express", "require"]).1.1
      (by decide)) "require" (by decide)⟩

/-- C6: when `DetectFrameworks` returns, every item comes from a hit of a candidate rule and
its version prefers the content regex: with a content-version regex in the tier it is the
extraction from the content read from the accepted file, otherwise with a path-version regex
it is the extraction from the matched path, otherwise it is empty; with a content regex the
version does not depend on the path regex. -/
theorem C6_version_prefers_content_regex (h : Host) (e : CanvasEngine)
    (matcher : IndexMatcher) (languages : List String) (res : DetectionResult)
    (err : Option GoError)
    (hrun : DetectFrameworks h e matcher languages = some (res, err))
    (item : DetectedItem) (hitem : item ∈ res.Frameworks ++ res.Components) :
    ∃ r ∈ filterRulesByLanguages e languages, ∃ hit, firstHit h matcher r = some hit ∧
      item = hitItem h r hit ∧
      r.Levels.lookup hit.level = some (some hit.ruleSet) ∧
      acceptedContent h hit.ruleSet hit.path = some hit.content ∧
      (∀ x, hit.ruleSet.ExtractVersionFromText = some x →
        readContent h hit.path = some hit.content ∧
        item.Version = extractVersionFromText h hit.content x.Pattern ∧
        ∀ other, (hitItem h r { hit with ruleSet :=
            { hit.ruleSet with ExtractVersionFromPath := other } }).Version = item.Version) ∧
      (hit.ruleSet.ExtractVersionFromText = none →
        ∀ y, hit.ruleSet.ExtractVersionFromPath = some y →
          item.Version = extractVersionFromPath h hit.path y.Pattern) ∧
      (hit.ruleSet.ExtractVersionFromText = none →
        hit.ruleSet.ExtractVersionFromPath = none → item.Version = "") := by
  obtain ⟨-, hF, hC⟩ := DetectFrameworks_spec h e matcher languages res err hrun
  have hmem : ∃ ty, item ∈ itemsOfType h matcher ty (filterRulesByLanguages e languages) := by
    rcases List.mem_append.1 hitem with hiF | hiC
    · exact ⟨_, hF ▸ hiF⟩
    · exact ⟨_, hC ▸ hiC⟩
  obtain ⟨ty, hity⟩ := hmem
  obtain ⟨r, hr, -, hri⟩ := (mem_itemsOfType h matcher ty _ item).1 hity
  obtain ⟨hit, hhit, rfl⟩ := (ruleItem_eq_some h matcher r item).1 hri
  obtain ⟨pre, post, -, hlook, -, htier⟩ := firstHitOfLevels_eq_some h matcher r _ hit hhit
  obtain ⟨-, -, _, _, _, -, -, _, _, -, -, hacc⟩ :=
    firstHitOfTier_eq_some h matcher _ _ hit htier
  refine ⟨r, hr, hit, hhit, rfl, hlook, hacc, ?_, ?_, ?_⟩
  · intro x hx
    refine ⟨?_, ?_, ?_⟩
    · have hneeds : needsContent hit.ruleSet := Or.inr (by rw [hx]; simp)
      unfold acceptedContent at hacc
      rw [if_pos hneeds] at hacc
      cases hrd : readContent h hit.path with
      | none => rw [hrd] at hacc; cases hacc
      | some c =>
        rw [hrd] at hacc
        simp only at hacc
        split at hacc
        · exact hacc
        · cases hacc
    · simp only [hitItem, buildItem, chooseVersion, hx]
    · intro other
      simp only [hitItem, buildItem, chooseVersion, hx]
  · intro hx y hy
    simp only [hitItem, buildItem, chooseVersion, hx, hy]
  · intro hx hy
    simp only [hitItem, buildItem, chooseVersion, hx, hy]

/-- C6 on the concrete project: the Maven tier has both regexes and the version, `7.8.9`,
is the one extracted from the content of `pom.xml`. -/
theorem C6_witness :
    ∃ r hit, firstHit demoHost demoMatcher r = some hit ∧ mavenItem = hitItem demoHost r hit ∧
      hit.ruleSet.ExtractVersionFromPath = some { Pattern := "([a-z]+)\\.xml" } ∧
      mavenItem.Version =
        extractVersionFromText demoHost hit.content "<version>([^<]+)</version>" ∧
      mavenItem.Version = "7.8.9" := by
  obtain ⟨r, hr, hit, hfirst, hitem, -, -, htext, -, -⟩ :=
    C6_version_prefers_content_regex demoHost demoEngine demoMatcher demoLanguages demoResult
      none demo_run mavenItem (by decide)
  have hrules : filterRulesByLanguages demoEngine demoLanguages =
      [mavenRule, expressRule, lodashRule, coreJarRule] := by decide
  rw [hrules] at hr
  have hname : r.Name = "Maven" := by
    have := congrArg DetectedItem.Name hitem
    exact this.symm
  have hrm : r = mavenRule := by
    simp only [List.mem_cons, List.mem_singleton, List.not_mem_nil, or_false] at hr
    rcases hr with rfl | rfl | rfl | rfl
    · rfl
    · exact absurd hname (by decide)
    · exact absurd hname (by decide)
    · exact absurd hname (by decide)
  subst hrm
  have hfirst2 : firstHit demoHost demoMatcher mavenRule =
      some { level := "L1",
             ruleSet := { Paths := ["pom.xml"], Contains := [],
                          ExtractVersionFromText :=
                            some { Pattern := "<version>([^<]+)</version>" },
                          ExtractVersionFromPath := some { Pattern := "([a-z]+)\\.xml" } },
             path := "/proj/pom.xml",
             content := "<project><version>7.8.9</version></project>" } := by
    decide
  rw [hfirst2] at hfirst
  have hhit := Option.some.inj hfirst
  subst hhit
  exact ⟨_, _, hfirst2, hitem, rfl, (htext _ rfl).2.1, rfl⟩

/-- C7: `extractVersionFromText` is total; it returns the empty string when the pattern does
not compile, and otherwise the first capture group of the leftmost match in the content
(the second entry of `FindSubmatch`), the empty string when there is no match or the pattern
has no capture group. -/
theorem C7_extractVersionFromText (h : Host) (content pattern : String) :
    (h.Compile pattern = none → extractVersionFromText h content pattern = "") ∧
    (∀ re, h.Compile pattern = some re → re.FindSubmatch content = [] →
      extractVersionFromText h content pattern = "") ∧
    (∀ re whole, h.Compile pattern = some re → re.FindSubmatch content = [whole] →
      extractVersionFromText h content pattern = "") ∧
    (∀ re whole group1 groups, h.Compile pattern = some re →
      re.FindSubmatch content = whole :: group1 :: groups →
      extractVersionFromText h content pattern = group1) := by
  refine ⟨?_, ?_, ?_, ?_⟩
  · intro hc
    simp only [extractVersionFromText, hc]
  · intro re hc hm
    simp [extractVersionFromText, hc, hm]
  · intro re whole hc hm
    simp [extractVersionFromText, hc, hm]
  · intro re whole group1 groups hc hm
    simp [extractVersionFromText, hc, hm]

/-- C7 on the scenario of the specification and on degenerate patterns: the version of the
`pom.xml` content is `7.8.9`; an invalid pattern, a pattern that does not match and a pattern
without a capture group give the empty string. -/
theorem C7_witness :
    extractVersionFromText demoHost "<project><version>7.8.9</version></project>"
        "<version>([^<]+)</version>" = "7.8.9" ∧
      extractVersionFromText demoHost "<project><version>7.8.9</version></project>"
        "[invalid-regex" = "" ∧
      extractVersionFromText demoHost "no version here" "<version>([^<]+)</version>" = "" ∧
      extractVersionFromText demoHost "<project><version>7.8.9</version></project>"
        "<version>" = "" :=
  ⟨by decide,
    (C7_extractVersionFromText demoHost "<project><version>7.8.9</version></project>"
      "[invalid-regex").1 rfl,
    by decide, by decide⟩

/-- C8: when `DetectFrameworks` returns, every item of the frameworks list has type
`framework` and every item of the components list has type `component`; no item of a rule of
type framework is in components, nor one of a rule of type component in frameworks, and a
rule whose type is neither value has no item in either list. -/
theorem C8_items_routed_by_type (h : Host) (e : CanvasEngine) (matcher : IndexMatcher)
    (languages : List String) (res : DetectionResult) (err : Option GoError)
    (hrun : DetectFrameworks h e matcher languages = some (res, err)) :
    (∀ i ∈ res.Frameworks, i.Type_ = RuleTypeFramework) ∧
    (∀ i ∈ res.Components, i.Type_ = RuleTypeComponent) ∧
    (∀ r : FrameworkRuleDefinition, r.Type_ = RuleTypeFramework →
      ∀ i ∈ res.Components, itemIdentity i ≠ ruleIdentity r) ∧
    (∀ r : FrameworkRuleDefinition, r.Type_ = RuleTypeComponent →
      ∀ i ∈ res.Frameworks, itemIdentity i ≠ ruleIdentity r) ∧
    (∀ r : FrameworkRuleDefinition, r.Type_ ≠ RuleTypeFramework →
      r.Type_ ≠ RuleTypeComponent →
      ∀ i ∈ res.Frameworks ++ res.Components, itemIdentity i ≠ ruleIdentity r) := by
  obtain ⟨-, hF, hC⟩ := DetectFrameworks_spec h e matcher languages res err hrun
  have hFt : ∀ i ∈ res.Frameworks, i.Type_ = RuleTypeFramework := by
    intro i hi
    rw [hF] at hi
    exact itemsOfType_type h matcher _ _ i hi
  have hCt : ∀ i ∈ res.Components, i.Type_ = RuleTypeComponent := by
    intro i hi
    rw [hC] at hi
    exact itemsOfType_type h matcher _ _ i hi
  have htype : ∀ (i : DetectedItem) (r : FrameworkRuleDefinition),
      itemIdentity i = ruleIdentity r → i.Type_ = r.Type_ := by
    intro i r hid
    simp only [itemIdentity, ruleIdentity, Prod.mk.injEq] at hid
    exact hid.2.1
  refine ⟨hFt, hCt, ?_, ?_, ?_⟩
  · intro r hr i hi hid
    have h1 := hCt i hi
    rw [htype i r hid, hr] at h1
    exact frameworkType_ne_componentType h1
  · intro r hr i hi hid
    have h1 := hFt i hi
    rw [htype i r hid, hr] at h1
    exact frameworkType_ne_componentType h1.symm
  · intro r hnf hnc i hi hid
    rcases List.mem_append.1 hi with hiF | hiC
    · exact hnf ((htype i r hid).symm.trans (hFt i hiF))
    · exact hnc ((htype i r hid).symm.trans (hCt i hiC))

/-- C8 on the concrete project: the rule of type `library` is a candidate whose tier accepts
`index.js`, and no item carries its identity. -/
theorem C8_witness :
    lodashRule ∈ filterRulesByLanguages demoEngine demoLanguages ∧
      (firstHit demoHost demoMatcher lodashRule).isSome = true ∧
      ∀ i ∈ demoResult.Frameworks ++ demoResult.Components,
        itemIdentity i ≠ ruleIdentity lodashRule :=
  ⟨by decide, by decide,
    (C8_items_routed_by_type demoHost demoEngine demoMatcher demoLanguages demoResult none
      demo_run).2.2.2.2 lodashRule (by decide) (by decide)⟩

/-- C9: after any sequence of `addRule` calls from the empty engine, no two rules of the list
have the same identity (name, type, language), and for each identity the rule of the list is
the last one added with that identity; adding a rule whose identity is in the list keeps the
length, adding one with a new identity increases it by one. -/
theorem C9_rule_override_by_identity (loaded : List FrameworkRuleDefinition)
    (rule : FrameworkRuleDefinition) (id : String × String × String) :
    ((loadEmbeddedRules emptyEngine loaded).rules.map ruleIdentity).Nodup ∧
    (loadEmbeddedRules emptyEngine loaded).rules.find? (fun r => decide (ruleIdentity r = id)) =
      loaded.reverse.find? (fun r => decide (ruleIdentity r = id)) ∧
    ((∃ r ∈ (loadEmbeddedRules emptyEngine loaded).rules, ruleIdentity r = ruleIdentity rule) →
      (addRule (loadEmbeddedRules emptyEngine loaded) rule).rules.length =
        (loadEmbeddedRules emptyEngine loaded).rules.length) ∧
    ((¬ ∃ r ∈ (loadEmbeddedRules emptyEngine loaded).rules,
        ruleIdentity r = ruleIdentity rule) →
      (addRule (loadEmbeddedRules emptyEngine loaded) rule).rules.length =
        (loadEmbeddedRules emptyEngine loaded).rules.length + 1) := by
  refine ⟨loaded_rules_nodup loaded, ?_, ?_, ?_⟩
  · rw [loadEmbeddedRules_rules, foldl_upsert_find]
    simp [emptyEngine]
  · rintro ⟨r, hr, hid⟩
    rw [addRule_rules, upsert_length]
    have hmem : ruleIdentity rule ∈
        (loadEmbeddedRules emptyEngine loaded).rules.map ruleIdentity :=
      List.mem_map.2 ⟨r, hr, hid⟩
    rw [if_pos hmem]
  · intro hno
    rw [addRule_rules, upsert_length]
    have hmem : ¬ ruleIdentity rule ∈
        (loadEmbeddedRules emptyEngine loaded).rules.map ruleIdentity := by
      intro hm
      obtain ⟨r, hr, hid⟩ := List.mem_map.1 hm
      exact hno ⟨r, hr, hid⟩
    rw [if_neg hmem]

/-- C9 on the concrete project: the Maven rule is loaded twice, the list holds the later one,
and loading it once more keeps the five rules. -/
theorem C9_witness :
    demoEngine.rules.find? (fun r => decide (ruleIdentity r = ("Maven", "component", "Java"))) =
        some mavenRule ∧
      (addRule demoEngine oldMavenRule).rules.length = 5 ∧
      (addRule demoEngine oldMavenRule).rules.find?
          (fun r => decide (ruleIdentity r = ("Maven", "component", "Java"))) =
        some oldMavenRule := by
  refine ⟨?_, ?_, by decide⟩
  · rw [show demoEngine = loadEmbeddedRules emptyEngine demoRules from rfl,
      (C9_rule_override_by_identity demoRules oldMavenRule ("Maven", "component", "Java")).2.1]
    decide
  · have hlen := (C9_rule_override_by_identity demoRules oldMavenRule
      ("Maven", "component", "Java")).2.2.1 ⟨mavenRule, by decide, by decide⟩
    rw [show demoEngine = loadEmbeddedRules emptyEngine demoRules from rfl, hlen]
    decide

/-- C10: when `DetectFrameworks` returns, each result list follows rule load order: its items
are produced, one each and in the same order, by a subsequence of the rule list of the
engine. -/
theorem C10_output_follows_load_order (h : Host) (e : CanvasEngine) (matcher : IndexMatcher)
    (languages : List String) (res : DetectionResult) (err : Option GoError)
    (hrun : DetectFrameworks h e matcher languages = some (res, err)) :
    (∃ producers : List FrameworkRuleDefinition, producers.Sublist e.rules ∧
      List.Forall₂ (fun r i => ruleItem h matcher r = some i) producers res.Frameworks) ∧
    (∃ producers : List FrameworkRuleDefinition, producers.Sublist e.rules ∧
      List.Forall₂ (fun r i => ruleItem h matcher r = some i) producers res.Components) := by
  obtain ⟨-, hF, hC⟩ := DetectFrameworks_spec h e matcher languages res err hrun
  have hsub : (filterRulesByLanguages e languages).Sublist e.rules := by
    rw [filterRulesByLanguages_eq]
    exact List.filter_sublist _
  constructor
  · obtain ⟨ps, hps, hall⟩ := itemsOfType_producers h matcher RuleTypeFramework
      (filterRulesByLanguages e languages)
    exact ⟨ps, hps.trans hsub, hF ▸ hall⟩
  · obtain ⟨ps, hps, hall⟩ := itemsOfType_producers h matcher RuleTypeComponent
      (filterRulesByLanguages e languages)
    exact ⟨ps, hps.trans hsub, hC ▸ hall⟩

/-- C10 on the concrete project: `Maven` precedes `core` in the components although `core`
comes first alphabetically, as their rules do in the rule list. -/
theorem C10_witness :
    demoResult.Components = [mavenItem, coreJarItem] ∧
      ∃ producers : List FrameworkRuleDefinition, producers.Sublist demoEngine.rules ∧
        List.Forall₂ (fun r i => ruleItem demoHost demoMatcher r = some i) producers
          demoResult.Components :=
  ⟨rfl,
    (C10_output_follows_load_order demoHost demoEngine demoMatcher demoLanguages demoResult
      none demo_run).2⟩

/-! ### The line classifier -/

theorem blockStartLoop_eq (line : String) : ∀ (blocks : List (String × String)) (st : CountState),
    blockStartLoop line blocks st =
      match blocks.find? (fun b => stringsHasPrefix line b.1) with
      | none => (st, false)
      | some b =>
        if stringsContains (sliceFrom line b.1.length) b.2 then
          (incComment { st with inBlockComment := false, currentBlockEnd := "" }, true)
        else (incComment { st with inBlockComment := true, currentBlockEnd := b.2 }, true) := by
  intro blocks
  induction blocks with
  | nil => intro st; rfl
  | cons b rest ih =>
    intro st
    unfold blockStartLoop
    rw [List.find?_cons]
    by_cases hp : stringsHasPrefix line b.1 = true
    · simp only [hp, if_true]
      split <;> rfl
    · have hp2 : stringsHasPrefix line b.1 = false := by simpa using hp
      simp only [hp2, Bool.false_eq_true, if_false]
      exact ih st

theorem lineCommentLoop_eq (line : String) : ∀ (cs : List String) (st : CountState),
    lineCommentLoop line cs st =
      if cs.any (fun c => stringsHasPrefix line c) then (incComment st, true) else (st, false) := by
  intro cs
  induction cs with
  | nil => intro st; rfl
  | cons c rest ih =>
    intro st
    unfold lineCommentLoop
    by_cases hp : stringsHasPrefix line c = true
    · simp [hp]
    · have hp2 : stringsHasPrefix line c = false := by simpa using hp
      simp only [hp2, Bool.false_eq_true, if_false, List.any_cons, Bool.false_or]
      exact ih st

/-- The body of the loop of `CountFile` as one case distinction. -/
theorem countLine_eq (lang : LanguageDefinition) (st : CountState) (text : String) :
    countLine lang st text =
      if stringsTrimSpace text = "" then
        if st.inBlockComment = true then incComment (incLines st) else incBlank (incLines st)
      else if st.inBlockComment = true then
        if stringsContains (stringsTrimSpace text) st.currentBlockEnd = true then
          { incComment (incLines st) with inBlockComment := false, currentBlockEnd := "" }
        else incComment (incLines st)
      else
        match lang.MultiLine.find? (fun b => stringsHasPrefix (stringsTrimSpace text) b.1) with
        | some b =>
          if stringsContains (sliceFrom (stringsTrimSpace text) b.1.length) b.2 = true then
            incComment { incLines st with inBlockComment := false, currentBlockEnd := "" }
          else incComment { incLines st with inBlockComment := true, currentBlockEnd := b.2 }
        | none =>
          if lang.LineComments.any (fun c => stringsHasPrefix (stringsTrimSpace text) c) = true
          then incComment (incLines st)
          else incCode (incLines st) := by
  unfold countLine
  simp only [blockStartLoop_eq, lineCommentLoop_eq]
  by_cases h1 : stringsTrimSpace text = ""
  · simp only [h1, if_true]
    rfl
  · simp only [h1, if_false]
    by_cases h2 : st.inBlockComment = true
    · have h2b : (incLines st).inBlockComment = true := h2
      simp only [h2, h2b, if_true]
      rfl
    · have h2b : ¬ (incLines st).inBlockComment = true := h2
      simp only [h2, h2b, if_false]
      cases hf : List.find? (fun b => stringsHasPrefix (stringsTrimSpace text) b.1)
          lang.MultiLine with
      | some b =>
        simp only
        by_cases h3 : stringsContains (sliceFrom (stringsTrimSpace text) b.1.length) b.2 = true
        · simp [h3]
        · simp [h3]
      | none =>
        simp only
        by_cases h4 : lang.LineComments.any
            (fun c => stringsHasPrefix (stringsTrimSpace text) c) = true
        · simp [h4]
        · simp [h4]

/-- Every scanned text adds one to `Lines` and one to exactly one of the three counters. -/
theorem countLine_counts (lang : LanguageDefinition) (st : CountState) (text : String) :
    (countLine lang st text).stats.Lines = st.stats.Lines + 1 ∧
    (countLine lang st text).stats.Code + (countLine lang st text).stats.Comment +
        (countLine lang st text).stats.Blank =
      st.stats.Code + st.stats.Comment + st.stats.Blank + 1 := by
  rw [countLine_eq]
  by_cases h1 : stringsTrimSpace text = ""
  · rw [if_pos h1]
    split <;> simp [incComment, incBlank, incLines] <;> omega
  · rw [if_neg h1]
    by_cases h2 : st.inBlockComment = true
    · rw [if_pos h2]
      split <;> simp [incComment, incLines] <;> omega
    · rw [if_neg h2]
      cases List.find? (fun b => stringsHasPrefix (stringsTrimSpace text) b.1)
          lang.MultiLine with
      | some b =>
        simp only
        split <;> simp [incComment, incLines] <;> omega
      | none =>
        simp only
        split <;> simp [incComment, incCode, incLines] <;> omega

theorem countLines_counts (lang : LanguageDefinition) : ∀ (texts : List String) (st : CountState),
    (countLines lang st texts).stats.Lines = st.stats.Lines + texts.length ∧
    (countLines lang st texts).stats.Code + (countLines lang st texts).stats.Comment +
        (countLines lang st texts).stats.Blank =
      st.stats.Code + st.stats.Comment + st.stats.Blank + texts.length := by
  intro texts
  induction texts with
  | nil => intro st; simp [countLines]
  | cons t rest ih =>
    intro st
    have h1 := countLine_counts lang st t
    have h2 := ih (countLine lang st t)
    simp only [countLines, List.foldl_cons, List.length_cons] at h2 ⊢
    omega

theorem countStatsLine_counts (st : StatsState) (line : String) :
    (countStatsLine st line).stats.Lines = st.stats.Lines + 1 ∧
    (countStatsLine st line).stats.Code + (countStatsLine st line).stats.Comment +
        (countStatsLine st line).stats.Blank =
      st.stats.Code + st.stats.Comment + st.stats.Blank + 1 := by
  unfold countStatsLine
  simp only
  split
  · split <;> simp <;> omega
  · split
    · split <;> simp <;> omega
    · split
      · split <;> simp <;> omega
      · split
        · simp; omega
        · split <;> simp <;> omega

theorem countStatsLines_counts : ∀ (texts : List String) (st : StatsState),
    (texts.foldl countStatsLine st).stats.Lines = st.stats.Lines + texts.length ∧
    (texts.foldl countStatsLine st).stats.Code + (texts.foldl countStatsLine st).stats.Comment +
        (texts.foldl countStatsLine st).stats.Blank =
      st.stats.Code + st.stats.Comment + st.stats.Blank + texts.length := by
  intro texts
  induction texts with
  | nil => intro st; simp
  | cons t rest ih =>
    intro st
    have h1 := countStatsLine_counts st t
    have h2 := ih (countStatsLine st t)
    simp only [List.foldl_cons, List.length_cons] at h2 ⊢
    omega

theorem stringsContains_empty (s : String) : stringsContains s "" = true := by
  unfold stringsContains
  cases hs : s.data with
  | nil => rfl
  | cons c cs => simp [containsAt]

theorem stringsContains_in_empty (e : String) (h : stringsContains "" e = true) : e = "" := by
  unfold stringsContains at h
  have hd : e.data = [] := by
    simpa [containsAt] using h
  cases e
  simp only at hd
  subst hd
  rfl

theorem trimSpace_eq_empty (s : String) (h : stringsTrimSpace s = "") :
    ∀ c ∈ s.data, isSpace c = true := by
  unfold stringsTrimSpace at h
  have hd : ((s.data.dropWhile isSpace).reverse.dropWhile isSpace).reverse = [] := by
    have := congrArg String.data h
    simpa using this
  rw [List.reverse_eq_nil_iff, List.dropWhile_eq_nil_iff] at hd
  cases hl : s.data.dropWhile isSpace with
  | nil =>
    rw [List.dropWhile_eq_nil_iff] at hl
    exact hl
  | cons a rest =>
    have ha : isSpace a = false := by
      have := List.head_dropWhile_not isSpace s.data (by rw [hl]; simp)
      simpa [hl] using this
    have := hd a (by rw [hl]; simp)
    rw [ha] at this
    cases this

theorem contains_nonspace_trim_ne (s sub : String) (c : Char) (hc : c ∈ sub.data)
    (hns : isSpace c = false) (h : stringsContains s sub = true) : stringsTrimSpace s ≠ "" := by
  intro ht
  have hall := trimSpace_eq_empty s ht
  unfold stringsContains at h
  have hin := (containsAt_iff sub.data s.data).1 h
  have := hall c (hin.subset hc)
  rw [hns] at this
  cases this

/-- Inside a block comment a text that does not show the expected end marker is a comment and
the classifier stays inside. -/
theorem countLine_inside (lang : LanguageDefinition) (st : CountState) (text : String)
    (hin : st.inBlockComment = true)
    (hno : stringsContains (stringsTrimSpace text) st.currentBlockEnd = false) :
    countLine lang st text = incComment (incLines st) := by
  rw [countLine_eq]
  by_cases h1 : stringsTrimSpace text = ""
  · rw [if_pos h1, if_pos hin]
  · rw [if_neg h1, if_pos hin]
    simp [hno]

/-- Inside a block comment a text that shows the expected end marker is a comment and the
classifier leaves the block comment. -/
theorem countLine_exit (lang : LanguageDefinition) (stats : FileStats) (e : String)
    (text : String) (he : e ≠ "")
    (hyes : stringsContains (stringsTrimSpace text) e = true) :
    countLine lang { stats := stats, inBlockComment := true, currentBlockEnd := e } text =
      { stats := { Code := stats.Code, Comment := stats.Comment + 1, Blank := stats.Blank,
                   Lines := stats.Lines + 1 },
        inBlockComment := false, currentBlockEnd := "" } := by
  rw [countLine_eq]
  have h1 : stringsTrimSpace text ≠ "" := by
    intro h
    rw [h] at hyes
    exact he (stringsContains_in_empty _ hyes)
  rw [if_neg h1]
  simp only [if_true]
  rw [if_pos hyes]
  rfl

/-- How the classifier enters a block comment: through the first pair whose start marker the
trimmed text starts with, when its end marker does not follow on the same line. -/
theorem countLine_enter (lang : LanguageDefinition) (st : CountState) (text : String)
    (hout : st.inBlockComment = false)
    (henter : (countLine lang st text).inBlockComment = true) :
    ∃ b, lang.MultiLine.find? (fun b => stringsHasPrefix (stringsTrimSpace text) b.1) = some b ∧
      stringsContains (sliceFrom (stringsTrimSpace text) b.1.length) b.2 = false ∧
      countLine lang st text =
        incComment { incLines st with inBlockComment := true, currentBlockEnd := b.2 } := by
  rw [countLine_eq] at henter ⊢
  have hout2 : ¬ st.inBlockComment = true := by rw [hout]; simp
  by_cases h1 : stringsTrimSpace text = ""
  · rw [if_pos h1, if_neg hout2] at henter
    simp [incBlank, incLines, hout] at henter
  · rw [if_neg h1, if_neg hout2] at henter ⊢
    cases hf : List.find? (fun b => stringsHasPrefix (stringsTrimSpace text) b.1)
        lang.MultiLine with
    | none =>
      rw [hf] at henter
      simp only at henter
      split at henter <;> simp [incComment, incCode, incLines, hout] at henter
    | some b =>
      rw [hf] at henter
      simp only at henter ⊢
      by_cases h3 : stringsContains (sliceFrom (stringsTrimSpace text) b.1.length) b.2 = true
      · rw [if_pos h3] at henter
        simp [incComment] at henter
      · rw [if_neg h3]
        exact ⟨b, rfl, by simpa using h3, rfl⟩

theorem countLines_inside (lang : LanguageDefinition) : ∀ (texts : List String) (st : CountState),
    st.inBlockComment = true →
    (∀ t ∈ texts, stringsContains (stringsTrimSpace t) st.currentBlockEnd = false) →
    countLines lang st texts =
      { stats := { Code := st.stats.Code, Comment := st.stats.Comment + texts.length,
                   Blank := st.stats.Blank, Lines := st.stats.Lines + texts.length },
        inBlockComment := true, currentBlockEnd := st.currentBlockEnd } := by
  intro texts
  induction texts with
  | nil =>
    intro st hin _
    cases st with
    | mk stats ib cbe =>
      simp only at hin
      subst hin
      rfl
  | cons t rest ih =>
    intro st hin hno
    have hstep := countLine_inside lang st t hin (hno t (List.mem_cons_self _ _))
    simp only [countLines, List.foldl_cons] at ih ⊢
    rw [hstep]
    rw [ih (incComment (incLines st)) hin
      (fun x hx => hno x (List.mem_cons_of_mem _ hx))]
    simp only [incComment, incLines, List.length_cons]
    congr 2 <;> omega

theorem countLines_plain (lang : LanguageDefinition)
    : ∀ (texts : List String) (st : CountState), st.inBlockComment = false →
    (∀ t ∈ texts, ∀ m ∈ lang.MultiLine.map Prod.fst ++ lang.LineComments,
      stringsHasPrefix (stringsTrimSpace t) m = false) →
    (countLines lang st texts).stats.Comment = st.stats.Comment ∧
    (countLines lang st texts).stats.Blank =
      st.stats.Blank + texts.countP (fun t => decide (stringsTrimSpace t = "")) ∧
    (countLines lang st texts).stats.Code =
      st.stats.Code + texts.countP (fun t => decide (stringsTrimSpace t ≠ "")) ∧
    (countLines lang st texts).inBlockComment = false := by
  intro texts
  induction texts with
  | nil => intro st hout _; simp [countLines, hout]
  | cons t rest ih =>
    intro st hout hno
    have hout2 : ¬ st.inBlockComment = true := by rw [hout]; simp
    have hfind : List.find? (fun b => stringsHasPrefix (stringsTrimSpace t) b.1)
        lang.MultiLine = none := by
      rw [List.find?_eq_none]
      intro b hb
      have := hno t (List.mem_cons_self _ _) b.1
        (List.mem_append_left _ (List.mem_map.2 ⟨b, hb, rfl⟩))
      simp [this]
    have hany : ¬ lang.LineComments.any
        (fun c => stringsHasPrefix (stringsTrimSpace t) c) = true := by
      rw [List.any_eq_true]
      rintro ⟨c, hc, hp⟩
      have := hno t (List.mem_cons_self _ _) c (List.mem_append_right _ hc)
      rw [this] at hp
      cases hp
    have hrest := fun st1 h1 => ih st1 h1 (fun x hx => hno x (List.mem_cons_of_mem _ hx))
    simp only [countLines, List.foldl_cons] at hrest ⊢
    by_cases h1 : stringsTrimSpace t = ""
    · have hstep : countLine lang st t = incBlank (incLines st) := by
        rw [countLine_eq, if_pos h1, if_neg hout2]
      rw [hstep]
      obtain ⟨hc, hb, hcode, hib⟩ := hrest (incBlank (incLines st)) hout
      refine ⟨hc, ?_, ?_, hib⟩
      · rw [hb, List.countP_cons]
        simp [incBlank, incLines, h1]
        omega
      · rw [hcode, List.countP_cons]
        simp [incBlank, incLines, h1]
    · have hstep : countLine lang st t = incCode (incLines st) := by
        rw [countLine_eq, if_neg h1, if_neg hout2, hfind]
        simp only
        rw [if_neg hany]
      rw [hstep]
      obtain ⟨hc, hb, hcode, hib⟩ := hrest (incCode (incLines st)) hout
      refine ⟨hc, ?_, ?_, hib⟩
      · rw [hb, List.countP_cons]
        simp [incCode, incLines, h1]
      · rw [hcode, List.countP_cons]
        simp [incCode, incLines, h1]
        omega

theorem demo_count_main :
    CountFile demoScanner "/proj/main.go" goLanguage =
      ({ Code := 4, Comment := 5, Blank := 1, Lines := 10 }, none) := by
  decide

/-- C12: the line classifier accounts for every line exactly once. For every scanner, path
and language definition the counts of `CountFile` satisfy `Code + Comment + Blank = Lines`,
and `Lines` is the number of texts scanned; the same holds for `CountFileStats`. -/
theorem C12_every_line_counted_once (scan : FileScanner) (path : String)
    (lang : LanguageDefinition) :
    ((CountFile scan path lang).1.Code + (CountFile scan path lang).1.Comment +
        (CountFile scan path lang).1.Blank = (CountFile scan path lang).1.Lines) ∧
    (∀ texts scanErr, scan path = .ok (texts, scanErr) →
      (CountFile scan path lang).1.Lines = texts.length) ∧
    ((CountFileStats scan path).1.Code + (CountFileStats scan path).1.Comment +
        (CountFileStats scan path).1.Blank = (CountFileStats scan path).1.Lines) ∧
    (∀ texts scanErr, scan path = .ok (texts, scanErr) →
      (CountFileStats scan path).1.Lines = texts.length) := by
  unfold CountFile CountFileStats
  rcases hs : scan path with err | ⟨texts, scanErr⟩
  · simp
  · have h1 := countLines_counts lang texts initialCountState
    have h2 := countStatsLines_counts texts
      { stats := { Code := 0, Comment := 0, Blank := 0, Lines := 0 }, inBlockComment := false }
    simp only [initialCountState] at h1
    simp only at h2
    simp only [Except.ok.injEq, Prod.mk.injEq, and_imp, forall_apply_eq_imp_iff,
      forall_eq', initialCountState]
    omega

/-- C12 on a concrete file of ten lines. -/
theorem C12_witness :
    (CountFile demoScanner "/proj/main.go" goLanguage).1 =
        { Code := 4, Comment := 5, Blank := 1, Lines := 10 } ∧
      (CountFile demoScanner "/proj/main.go" goLanguage).1.Code +
          (CountFile demoScanner "/proj/main.go" goLanguage).1.Comment +
          (CountFile demoScanner "/proj/main.go" goLanguage).1.Blank =
        (CountFile demoScanner "/proj/main.go" goLanguage).1.Lines :=
  ⟨congrArg Prod.fst demo_count_main,
    (C12_every_line_counted_once demoScanner "/proj/main.go" goLanguage).1⟩

/-- C13: when no scanned line, after trimming, starts with a block-comment start marker or a
line-comment marker of the language, `CountFile` returns `Comment = 0`, `Blank` the number of
lines that are empty after trimming and `Code` the number of the other lines. -/
theorem C13_no_marker_no_comment (scan : FileScanner) (path : String)
    (lang : LanguageDefinition) (texts : List String) (scanErr : Option GoError)
    (hscan : scan path = .ok (texts, scanErr))
    (hno : ∀ t ∈ texts, ∀ m ∈ lang.MultiLine.map Prod.fst ++ lang.LineComments,
      stringsHasPrefix (stringsTrimSpace t) m = false) :
    (CountFile scan path lang).1.Comment = 0 ∧
    (CountFile scan path lang).1.Blank =
      texts.countP (fun t => decide (stringsTrimSpace t = "")) ∧
    (CountFile scan path lang).1.Code =
      texts.countP (fun t => decide (stringsTrimSpace t ≠ "")) := by
  unfold CountFile
  rw [hscan]
  obtain ⟨hc, hb, hcode, -⟩ := countLines_plain lang texts initialCountState rfl hno
  simp only [initialCountState] at hc hb hcode
  simp only [initialCountState]
  refine ⟨hc, ?_, ?_⟩
  · rw [hb]; omega
  · rw [hcode]; omega

/-- C13 on a concrete file without comment markers: three lines of code, two blank lines. -/
theorem C13_witness :
    (CountFile demoScanner "/proj/plain.go" goLanguage).1.Comment = 0 ∧
      (CountFile demoScanner "/proj/plain.go" goLanguage).1.Blank = 2 ∧
      (CountFile demoScanner "/proj/plain.go" goLanguage).1.Code = 3 := by
  have h := C13_no_marker_no_comment demoScanner "/proj/plain.go" goLanguage
    ["package main", "   ", "x := 1", "", "y := 2"] none rfl (by decide)
  exact ⟨h.1, h.2.1.trans (by decide), h.2.2.trans (by decide)⟩

/-- C14 (as amended): outside a block comment, when the trimmed text is not empty and, for the
first pair of the definition whose start marker it starts with, the end marker appears later
on the same line, `CountFile` counts the line once, as a comment, and stays outside
block-comment state with no end marker expected, so the next line is classified as if no
block comment had been opened. -/
theorem C14_same_line_block_comment (lang : LanguageDefinition) (st : CountState)
    (text s e : String)
    (hout : st.inBlockComment = false)
    (hne : stringsTrimSpace text ≠ "")
    (hfirst : lang.MultiLine.find? (fun b => stringsHasPrefix (stringsTrimSpace text) b.1) =
      some (s, e))
    (hend : stringsContains (sliceFrom (stringsTrimSpace text) s.length) e = true) :
    countLine lang st text =
      { stats := { Code := st.stats.Code, Comment := st.stats.Comment + 1,
                   Blank := st.stats.Blank, Lines := st.stats.Lines + 1 },
        inBlockComment := false, currentBlockEnd := "" } := by
  have hout2 : ¬ st.inBlockComment = true := by rw [hout]; simp
  rw [countLine_eq, if_neg hne, if_neg hout2, hfirst]
  simp only
  rw [if_pos hend]
  rfl

/-- C14 on a concrete line of Go: a comment opened and closed on the line. -/
theorem C14_witness :
    countLine goLanguage initialCountState "  /* one line */  " =
      { stats := { Code := 0, Comment := 1, Blank := 0, Lines := 1 },
        inBlockComment := false, currentBlockEnd := "" } :=
  C14_same_line_block_comment goLanguage initialCountState "  /* one line */  " "/*" "*/"
    rfl (by decide) (by decide) (by decide)

/-- C14 as stated fails. With the pairs `<!--`, `--!>` and `<!--`, `-->`, the line
`<!-- note -->` starts with the start marker of the second pair and its end marker follows,
yet the classifier takes the first pair, enters block-comment state and counts the next line
as a comment. With a pair of empty markers, an empty line starts with the start marker and
is counted as blank. -/
theorem C14_counterexample :
    (("<!--", "-->") ∈ markupLanguage.MultiLine ∧
      stringsHasPrefix (stringsTrimSpace "<!-- note -->") "<!--" = true ∧
      stringsContains (sliceFrom (stringsTrimSpace "<!-- note -->") "<!--".length) "-->" = true ∧
      (countLine markupLanguage initialCountState "<!-- note -->").inBlockComment = true ∧
      CountFile demoScanner "/proj/page.mu" markupLanguage =
        ({ Code := 0, Comment := 2, Blank := 0, Lines := 2 }, none)) ∧
    (("", "") ∈ emptyMarkerLanguage.MultiLine ∧
      stringsHasPrefix (stringsTrimSpace "") "" = true ∧
      stringsContains (sliceFrom (stringsTrimSpace "") "".length) "" = true ∧
      (countLine emptyMarkerLanguage initialCountState "").stats =
        { Code := 0, Comment := 0, Blank := 1, Lines := 1 }) := by
  decide

/-- C15: once `CountFile` has entered block-comment state on a line, the expected end marker
is the end marker of a pair of the definition whose start marker that line starts with, and
every following line up to and including the first whose trimmed text contains that end
marker is counted as a comment, whatever else it contains and also when it is blank; after
that line the classifier is outside block-comment state. -/
theorem C15_multi_line_block_comment (lang : LanguageDefinition) (st : CountState)
    (text0 : String) (between : List String) (closing : String)
    (hout : st.inBlockComment = false)
    (henter : (countLine lang st text0).inBlockComment = true)
    (hbetween : ∀ t ∈ between,
      stringsContains (stringsTrimSpace t) (countLine lang st text0).currentBlockEnd = false)
    (hclosing :
      stringsContains (stringsTrimSpace closing) (countLine lang st text0).currentBlockEnd =
        true) :
    (∃ s, (s, (countLine lang st text0).currentBlockEnd) ∈ lang.MultiLine ∧
      stringsHasPrefix (stringsTrimSpace text0) s = true) ∧
    countLines lang (countLine lang st text0) between =
      { stats := { Code := (countLine lang st text0).stats.Code,
                   Comment := (countLine lang st text0).stats.Comment + between.length,
                   Blank := (countLine lang st text0).stats.Blank,
                   Lines := (countLine lang st text0).stats.Lines + between.length },
        inBlockComment := true,
        currentBlockEnd := (countLine lang st text0).currentBlockEnd } ∧
    countLines lang (countLine lang st text0) (between ++ [closing]) =
      { stats := { Code := (countLine lang st text0).stats.Code,
                   Comment := (countLine lang st text0).stats.Comment + between.length + 1,
                   Blank := (countLine lang st text0).stats.Blank,
                   Lines := (countLine lang st text0).stats.Lines + between.length + 1 },
        inBlockComment := false, currentBlockEnd := "" } := by
  obtain ⟨b, hfind, hnoend, hst1⟩ := countLine_enter lang st text0 hout henter
  have hcbe : (countLine lang st text0).currentBlockEnd = b.2 := by rw [hst1]; rfl
  have hbne : (countLine lang st text0).currentBlockEnd ≠ "" := by
    rw [hcbe]
    intro hb
    rw [hb, stringsContains_empty] at hnoend
    cases hnoend
  have hmid := countLines_inside lang between (countLine lang st text0) henter hbetween
  refine ⟨⟨b.1, ?_, ?_⟩, hmid, ?_⟩
  · rw [hcbe]
    exact List.mem_of_find?_eq_some hfind
  · have := List.find?_some hfind
    simpa using this
  · have happ : countLines lang (countLine lang st text0) (between ++ [closing]) =
        countLine lang (countLines lang (countLine lang st text0) between) closing := by
      simp [countLines, List.foldl_append]
    rw [happ, hmid]
    exact countLine_exit lang _ _ closing hbne hclosing

/-- C15 on a concrete Python file: the block opened by `'''` runs over a blank line and over a
line that holds only the end marker of the other pair, and ends on the line that holds
`'''`. -/
theorem C15_witness :
    countLines pythonLanguage (countLine pythonLanguage initialCountState "''' open")
        (["", "\"\"\"", "x = 1"] ++ ["closed ''' here"]) =
      { stats := { Code := 0, Comment := 5, Blank := 0, Lines := 5 },
        inBlockComment := false, currentBlockEnd := "" } :=
  (C15_multi_line_block_comment pythonLanguage initialCountState "''' open"
    ["", "\"\"\"", "x = 1"] "closed ''' here" rfl (by decide) (by decide) (by decide)).2.2.trans
    (by decide)

/-- The line classifier `CountFile` classifies by the start of the line: outside a block
comment, a line whose trimmed text is not empty and starts with no block-comment start marker
and no line-comment marker is counted as code and leaves the classifier outside
block-comment state, whatever follows on the line. -/
theorem countLine_code_start (lang : LanguageDefinition) (st : CountState) (text : String)
    (hout : st.inBlockComment = false)
    (hne : stringsTrimSpace text ≠ "")
    (hblock : ∀ b ∈ lang.MultiLine, stringsHasPrefix (stringsTrimSpace text) b.1 = false)
    (hline : ∀ c ∈ lang.LineComments, stringsHasPrefix (stringsTrimSpace text) c = false) :
    countLine lang st text =
      { stats := { Code := st.stats.Code + 1, Comment := st.stats.Comment,
                   Blank := st.stats.Blank, Lines := st.stats.Lines + 1 },
        inBlockComment := false, currentBlockEnd := st.currentBlockEnd } := by
  have hout2 : ¬ st.inBlockComment = true := by rw [hout]; simp
  have hfind : List.find? (fun b => stringsHasPrefix (stringsTrimSpace text) b.1)
      lang.MultiLine = none := by
    rw [List.find?_eq_none]
    intro b hb
    simp [hblock b hb]
  have hany : ¬ lang.LineComments.any
      (fun c => stringsHasPrefix (stringsTrimSpace text) c) = true := by
    rw [List.any_eq_true]
    rintro ⟨c, hc, hp⟩
    rw [hline c hc] at hp
    cases hp
  rw [countLine_eq, if_neg hne, if_neg hout2, hfind]
  simp only
  rw [if_neg hany]
  cases st with
  | mk stats ib cbe =>
    simp only at hout
    subst hout
    rfl

/-- The variant `CountFileStats` searches the whole line: outside a block comment, a line
that contains `/*` is counted as a comment, and the classifier enters block-comment state
exactly when the line contains no `*/` at all, before or after the `/*`. -/
theorem countStatsLine_block_start (sst : StatsState) (text : String)
    (hout : sst.inBlockComment = false) (hopen : stringsContains text "/*" = true) :
    countStatsLine sst text =
      { stats := { Code := sst.stats.Code, Comment := sst.stats.Comment + 1,
                   Blank := sst.stats.Blank, Lines := sst.stats.Lines + 1 },
        inBlockComment := !stringsContains text "*/" } := by
  have hne : stringsTrimSpace text ≠ "" :=
    contains_nonspace_trim_ne text "/*" '/' (by decide) (by decide) hopen
  unfold countStatsLine
  cases hclose : stringsContains text "*/" <;> simp [hne, hout, hopen, hclose]

/-- C16: outside a block comment, the line `x := 1 /* start` of a Go file begins with code and
then contains the start marker `/*` with no end marker after it, and `CountFile` counts it as
code, not as a comment, and stays outside block-comment state, so the lines of the comment
that follow are counted as code too. The variant `CountFileStats` counts the same line as a
comment and enters block-comment state. -/
theorem C16_mid_line_start_counted_as_code :
    ("/*", "*/") ∈ goLanguage.MultiLine ∧
      stringsTrimSpace "x := 1 /* start" ≠ "" ∧
      stringsHasPrefix (stringsTrimSpace "x := 1 /* start") "/*" = false ∧
      stringsHasPrefix (stringsTrimSpace "x := 1 /* start") "//" = false ∧
      stringsContains "x := 1 /* start" "/*" = true ∧
      stringsContains "x := 1 /* start" "*/" = false ∧
      countLine goLanguage initialCountState "x := 1 /* start" =
        { stats := { Code := 1, Comment := 0, Blank := 0, Lines := 1 },
          inBlockComment := false, currentBlockEnd := "" } ∧
      (countLines goLanguage initialCountState
          ["x := 1 /* start", "the comment goes on", "and ends here */"]).stats =
        { Code := 3, Comment := 0, Blank := 0, Lines := 3 } ∧
      countStatsLine
          { stats := { Code := 0, Comment := 0, Blank := 0, Lines := 0 },
            inBlockComment := false } "x := 1 /* start" =
        { stats := { Code := 0, Comment := 1, Blank := 0, Lines := 1 },
          inBlockComment := true } ∧
      (["x := 1 /* start", "the comment goes on", "and ends here */"].foldl countStatsLine
          { stats := { Code := 0, Comment := 0, Blank := 0, Lines := 0 },
            inBlockComment := false }).stats =
        { Code := 0, Comment := 3, Blank := 0, Lines := 3 } := by
  decide

/-- The variant `CountFileStats` on lines with an end marker before the start marker, or with
a closed comment before an opened one: the line is a comment and the classifier stays outside
block-comment state. -/
theorem demo_stats_end_marker_anywhere :
    countStatsLine
        { stats := { Code := 0, Comment := 0, Blank := 0, Lines := 0 },
          inBlockComment := false } "a */ /* b" =
      { stats := { Code := 0, Comment := 1, Blank := 0, Lines := 1 },
        inBlockComment := false } ∧
    countStatsLine
        { stats := { Code := 0, Comment := 0, Blank := 0, Lines := 0 },
          inBlockComment := false } "int a; /* one */ int b; /* two" =
      { stats := { Code := 0, Comment := 1, Blank := 0, Lines := 1 },
        inBlockComment := false } := by
  decide

/-! ### Facts about the library functions on strings and paths -/

theorem demo_path_functions :
    pathBase "src/App/Main.GO" = "Main.GO" ∧ pathBase "" = "." ∧ pathBase "a//" = "a" ∧
      pathBase "///" = "/" ∧ filepathExt "src/App/Main.GO" = ".GO" ∧
      filepathExt "a.b/Makefile" = "" ∧ filepathExt "x.tar.gz" = ".gz" ∧
      stringsToLower "Main.GO" = "main.go" ∧ stringsEqualFold "SRC/main.go" "src/Main.GO" = true ∧
      stringsToLower "ſetup.py" = "ſetup.py" ∧ stringsEqualFold "ſetup.py" "setup.py" = true ∧
      stringsEqualFold "ſetup.py" "SETUP.PY" = true ∧ stringsEqualFold "setup.py" "setup.px" = false ∧
      regexpQuoteMeta "src/**/*.ts" = "src/\\*\\*/\\*\\.ts" ∧
      stringsReplaceAll (stringsReplaceAll "src/\\*\\*/\\*\\.ts" "\\*\\*" ".*") "\\*" "[^/]*" =
        "src/.*/[^/]*\\.ts" := by
  decide

/-! ### `FindFiles` -/

theorem stringsHasPrefix_iff (s pre : String) :
    stringsHasPrefix s pre = true ↔ pre.data <+: s.data := by
  unfold stringsHasPrefix
  exact List.isPrefixOf_iff_prefix

theorem stringsHasSuffix_iff (s suf : String) :
    stringsHasSuffix s suf = true ↔ suf.data <:+ s.data := by
  unfold stringsHasSuffix
  rw [List.isPrefixOf_iff_prefix, List.reverse_prefix]

theorem stringsContains_iff (s sub : String) :
    stringsContains s sub = true ↔ sub.data <:+: s.data := by
  unfold stringsContains
  exact containsAt_iff sub.data s.data

theorem fileAt_eq_some (index : FileIndex) (idx : Int) (f : String) :
    fileAt index idx = some f ↔ 0 ≤ idx ∧ index.Files[idx.toNat]? = some f := by
  unfold fileAt
  by_cases h : 0 ≤ idx
  · simp [h]
  · simp [h]

theorem mem_files_of_fileAt (index : FileIndex) (idx : Int) (f : String)
    (h : fileAt index idx = some f) : f ∈ index.Files := by
  obtain ⟨-, hget⟩ := (fileAt_eq_some index idx f).1 h
  exact List.getElem?_mem hget

theorem fileAt_of_mem_files (index : FileIndex) (f : String) (h : f ∈ index.Files) :
    ∃ idx, fileAt index idx = some f := by
  obtain ⟨n, hn, hf⟩ := List.getElem_of_mem h
  refine ⟨(n : Int), ?_⟩
  rw [fileAt_eq_some]
  refine ⟨Int.natCast_nonneg n, ?_⟩
  simp only [Int.toNat_ofNat]
  rw [List.getElem?_eq_getElem hn, hf]

/-- With valid positions the loop over positions returns, after the results so far, the
absolute forms of the files at the positions that pass the test, in the order of the
positions. -/
theorem collectAt_eq (lib : PathLib) (index : FileIndex) (keep : String → Bool) :
    ∀ (ps : List Int) (results : List String),
    (∀ idx ∈ ps, ∃ f, fileAt index idx = some f) →
    collectAt lib index keep ps results =
      some (results ++
        (((ps.filterMap (fileAt index)).filter keep).map (lib.Join index.RootDir))) := by
  intro ps
  induction ps with
  | nil => intro results _; simp [collectAt]
  | cons i rest ih =>
    intro results hvalid
    obtain ⟨f, hf⟩ := hvalid i (List.mem_cons_self _ _)
    have hrest : ∀ idx ∈ rest, ∃ f, fileAt index idx = some f :=
      fun idx h => hvalid idx (List.mem_cons_of_mem _ h)
    unfold collectAt
    rw [hf]
    simp only [List.filterMap_cons, hf]
    by_cases hk : keep f = true
    · rw [if_pos hk, ih _ hrest, List.filter_cons_of_pos hk]
      simp
    · rw [if_neg hk, ih _ hrest, List.filter_cons_of_neg hk]

/-- The loop over all indexed paths returns, after the results so far, the absolute forms of
the paths that pass the test, in index order. -/
theorem collectFiles_eq (lib : PathLib) (index : FileIndex) (keep : String → Bool) :
    ∀ (files results : List String),
    collectFiles lib index keep files results =
      results ++ (files.filter keep).map (lib.Join index.RootDir) := by
  intro files
  induction files with
  | nil => intro results; simp [collectFiles]
  | cons f rest ih =>
    intro results
    unfold collectFiles
    by_cases hk : keep f = true
    · rw [if_pos hk, ih, List.filter_cons_of_pos hk]
      simp
    · rw [if_neg hk, ih, List.filter_cons_of_neg hk]

theorem mem_collected (lib : PathLib) (index : FileIndex) (keep : String → Bool)
    (ps : List Int) (p : String) :
    p ∈ ((ps.filterMap (fileAt index)).filter keep).map (lib.Join index.RootDir) ↔
      ∃ idx ∈ ps, ∃ f, fileAt index idx = some f ∧ keep f = true ∧
        p = lib.Join index.RootDir f := by
  simp only [List.mem_map, List.mem_filter, List.mem_filterMap]
  constructor
  · rintro ⟨f, ⟨⟨idx, hidx, hf⟩, hk⟩, rfl⟩
    exact ⟨idx, hidx, f, hf, hk, rfl⟩
  · rintro ⟨idx, hidx, f, hf, hk, rfl⟩
    exact ⟨f, ⟨⟨idx, hidx, hf⟩, hk⟩, rfl⟩

theorem slash_append_data (t : String) : ("/" ++ t).data = '/' :: t.data := by
  rw [String.data_append]
  rfl

/-- What `FindFiles` returns for an exact-path pattern under the filename-map invariant. -/
theorem FindFiles_exact_path (h : Host) (lib : PathLib) (index : FileIndex) (t : String)
    (hinv : NameMapExact lib index) :
    FindFiles h lib index ("/" ++ t) =
      some ((((positionsAt index.NameMap (lib.ToLower (pathBase t))).filterMap
        (fileAt index)).filter (fun f => lib.EqualFold f t)).map
          (lib.Join index.RootDir), none) := by
  have hpre : stringsHasPrefix ("/" ++ t) "/" = true := by
    rw [stringsHasPrefix_iff, slash_append_data]
    exact ⟨t.data, rfl⟩
  have htrim : stringsTrimPrefix ("/" ++ t) "/" = t := by
    unfold stringsTrimPrefix
    rw [if_pos hpre, slash_append_data]
    rfl
  unfold FindFiles
  rw [if_pos hpre]
  simp only [htrim]
  rw [collectAt_eq lib index _ _ []
    (fun idx hidx => by
      obtain ⟨f, hf, -⟩ := (hinv _ idx).1 hidx
      exact ⟨f, hf⟩)]
  simp

/-- What `FindFiles` returns for the patterns looked up in a map of positions, when the
positions under the key are valid. -/
theorem FindFiles_filename (h : Host) (lib : PathLib) (index : FileIndex) (pattern : String)
    (hslash : stringsContains pattern "/" = false) (hstar : stringsContains pattern "*" = false)
    (hvalid : ∀ idx ∈ positionsAt index.NameMap (lib.ToLower pattern),
      ∃ f, fileAt index idx = some f) :
    FindFiles h lib index pattern =
      some (((positionsAt index.NameMap (lib.ToLower pattern)).filterMap
        (fileAt index)).map (lib.Join index.RootDir), none) := by
  have hpre : ¬ stringsHasPrefix pattern "/" = true := by
    intro hp
    have : stringsContains pattern "/" = true := by
      rw [stringsContains_iff]
      exact ((stringsHasPrefix_iff _ _).1 hp).isInfix
    rw [hslash] at this
    cases this
  unfold FindFiles
  rw [if_neg hpre]
  simp only [hslash, hstar, Bool.not_false, Bool.and_self, if_true]
  rw [collectAt_eq lib index _ _ [] hvalid]
  simp

theorem star_dot_append_data (e : String) : ("*." ++ e).data = '*' :: '.' :: e.data := by
  rw [String.data_append]
  rfl

theorem infix_cons_of_ne {c : Char} {a : Char} {l : List Char} (hne : a ≠ c)
    (h : [c] <:+: a :: l) : [c] <:+: l := by
  rw [List.infix_cons_iff] at h
  rcases h with hp | hi
  · obtain ⟨r, hr⟩ := hp
    simp only [List.singleton_append, List.cons.injEq] at hr
    exact absurd hr.1.symm hne
  · exact hi

/-- What `FindFiles` returns for an extension pattern, when the positions under the key are
valid. -/
theorem FindFiles_extension (h : Host) (lib : PathLib) (index : FileIndex) (e : String)
    (hslash : stringsContains e "/" = false)
    (hvalid : ∀ idx ∈ positionsAt index.ExtensionMap (lib.ToLower ("." ++ e)),
      ∃ f, fileAt index idx = some f) :
    FindFiles h lib index ("*." ++ e) =
      some (((positionsAt index.ExtensionMap (lib.ToLower ("." ++ e))).filterMap
        (fileAt index)).map (lib.Join index.RootDir), none) := by
  have hpre : ¬ stringsHasPrefix ("*." ++ e) "/" = true := by
    rw [stringsHasPrefix_iff, star_dot_append_data]
    rintro ⟨r, hr⟩
    simp at hr
  have hstar : stringsContains ("*." ++ e) "*" = true := by
    rw [stringsContains_iff, star_dot_append_data]
    exact (List.prefix_iff_eq_append.2 rfl : ['*'] <+: '*' :: '.' :: e.data).isInfix
  have hp2 : stringsHasPrefix ("*." ++ e) "*." = true := by
    rw [stringsHasPrefix_iff, star_dot_append_data]
    exact ⟨e.data, rfl⟩
  have hslice : sliceFrom ("*." ++ e) 1 = "." ++ e := by
    unfold sliceFrom
    rw [star_dot_append_data]
    apply String.ext
    rw [String.data_append]
    rfl
  have hno : stringsContains ("." ++ e) "/" = false := by
    cases hc : stringsContains ("." ++ e) "/" with
    | false => rfl
    | true =>
      rw [stringsContains_iff, String.data_append] at hc
      have hc2 : ['/'] <:+: '.' :: e.data := hc
      have := infix_cons_of_ne (by decide) hc2
      have he : stringsContains e "/" = true := (stringsContains_iff e "/").2 this
      rw [hslash] at he
      cases he
  unfold FindFiles
  rw [if_neg hpre]
  simp only [hstar, Bool.not_true, Bool.and_false, Bool.false_eq_true, if_false, hp2, hslice,
    hno, Bool.not_false, Bool.and_self, if_true]
  rw [collectAt_eq lib index _ _ [] hvalid]
  simp

/-- What `FindFiles` returns for a directory-prefix pattern. -/
theorem FindFiles_directory (h : Host) (lib : PathLib) (index : FileIndex) (pattern : String)
    (hsuf : stringsHasSuffix pattern "/" = true) (hpre : stringsHasPrefix pattern "/" = false) :
    FindFiles h lib index pattern =
      some ((index.Files.filter (fun f =>
        stringsHasPrefix (lib.ToLower f) (lib.ToLower pattern))).map
          (lib.Join index.RootDir), none) := by
  have hsuf2 : ['/'] <:+ pattern.data := (stringsHasSuffix_iff pattern "/").1 hsuf
  have hslash : stringsContains pattern "/" = true := by
    rw [stringsContains_iff]
    exact hsuf2.isInfix
  have hcase3 : (stringsHasPrefix pattern "*." && !stringsContains (sliceFrom pattern 1) "/") =
      false := by
    cases hp : stringsHasPrefix pattern "*." with
    | false => rfl
    | true =>
      have hp2 := (stringsHasPrefix_iff pattern "*.").1 hp
      obtain ⟨r, hr⟩ := hp2
      have hdata : pattern.data = '*' :: '.' :: r := hr.symm
      have hsl : stringsContains (sliceFrom pattern 1) "/" = true := by
        rw [stringsContains_iff]
        unfold sliceFrom
        simp only [hdata, List.drop_succ_cons, List.drop_zero]
        rw [hdata, List.suffix_cons_iff] at hsuf2
        rcases hsuf2 with hbad | hs
        · simp at hbad
        · exact hs.isInfix
      rw [hsl]
      rfl
  unfold FindFiles
  have hpre2 : ¬ stringsHasPrefix pattern "/" = true := by rw [hpre]; simp
  rw [if_neg hpre2]
  simp only [hslash, Bool.not_true, Bool.false_and, Bool.false_eq_true, if_false, hcase3, hsuf,
    if_true]
  rw [collectFiles_eq]
  simp

theorem demo_index_value :
    demoIndex =
      { RootDir := "/proj"
        Files := ["index.js", "pom.xml", "src/App/Main.GO", "docs/README.md", "SRC/main.go",
          "Makefile"]
        NameMap := [("makefile", [5]), ("main.go", [2, 4]), ("readme.md", [3]),
          ("pom.xml", [1]), ("index.js", [0])]
        ExtensionMap := [("", [5]), (".go", [2, 4]), (".md", [3]), (".xml", [1]),
          (".js", [0])] } := by
  decide

theorem demo_find_files :
    FindFiles demoHost demoLib demoIndex "/src/app/main.go" =
        some (["/proj/src/App/Main.GO"], none) ∧
      FindFiles demoHost demoLib demoIndex "MAIN.go" =
        some (["/proj/src/App/Main.GO", "/proj/SRC/main.go"], none) ∧
      FindFiles demoHost demoLib demoIndex "*.Go" =
        some (["/proj/src/App/Main.GO", "/proj/SRC/main.go"], none) ∧
      FindFiles demoHost demoLib demoIndex "Src/" =
        some (["/proj/src/App/Main.GO", "/proj/SRC/main.go"], none) ∧
      FindFiles demoHost demoLib demoIndex "docs/*.md" =
        some (["/proj/docs/README.md"], none) := by
  decide

/-! ### The index built by the walk satisfies the invariant -/

theorem lookup_filter_ne {β : Type} (k key : String) (hne : key ≠ k) :
    ∀ m : List (String × β), List.lookup key (m.filter (fun p => p.1 != k)) = List.lookup key m := by
  intro m
  induction m with
  | nil => rfl
  | cons a rest ih =>
    obtain ⟨ak, av⟩ := a
    by_cases hak : ak = k
    · subst hak
      have hk : (key == ak) = false := by simpa using hne
      simp [List.filter_cons, List.lookup_cons, hk, ih]
    · have hf : (ak != k) = true := by simpa using hak
      simp only [List.filter_cons, hf, if_true, List.lookup_cons, ih]

theorem positionsAt_mapAppend (m : List (String × List Int)) (k key : String) (i : Int) :
    positionsAt (mapAppend m k i) key =
      if key = k then positionsAt m k ++ [i] else positionsAt m key := by
  unfold mapAppend mapSet positionsAt
  by_cases hk : key = k
  · subst hk
    simp [List.lookup_cons]
  · have hb : (key == k) = false := by simpa using hk
    rw [if_neg hk, List.lookup_cons, hb]
    simp only
    rw [lookup_filter_ne k key hk]

theorem fileAt_length (index : FileIndex) : fileAt index (index.Files.length : Int) = none := by
  unfold fileAt
  simp

theorem fileAt_AddFile (lib : PathLib) (index : FileIndex) (relPath name ext : String) (i : Int) :
    fileAt (AddFile lib index relPath name ext) i =
      if i = (index.Files.length : Int) then some relPath else fileAt index i := by
  unfold fileAt AddFile
  simp only
  by_cases h0 : 0 ≤ i
  · rw [if_pos h0, if_pos h0]
    by_cases hi : i = (index.Files.length : Int)
    · rw [if_pos hi]
      subst hi
      simp
    · rw [if_neg hi]
      by_cases hlt : i.toNat < index.Files.length
      · rw [List.getElem?_append_left hlt]
      · have hgt : index.Files.length < i.toNat := by omega
        rw [List.getElem?_eq_none (by simp; omega), List.getElem?_eq_none (by omega)]
  · rw [if_neg h0, if_neg h0]
    have hi : ¬ i = (index.Files.length : Int) := by omega
    rw [if_neg hi]

theorem exact_after_AddFile (lib : PathLib) (index : FileIndex) (relPath name ext : String)
    (positions positions1 : String → List Int) (keyOf : String → String) (added : String)
    (hadd : keyOf relPath = added)
    (hpos : ∀ key, positions1 key =
      if key = added then positions added ++ [(index.Files.length : Int)] else positions key)
    (key : String) (idx : Int)
    (hold : ∀ idx, idx ∈ positions key ↔ ∃ f, fileAt index idx = some f ∧ keyOf f = key) :
    idx ∈ positions1 key ↔
      ∃ f, fileAt (AddFile lib index relPath name ext) idx = some f ∧ keyOf f = key := by
  rw [hpos key, fileAt_AddFile lib]
  by_cases hi : idx = (index.Files.length : Int)
  · subst hi
    have hnot : ¬ ((index.Files.length : Int) ∈ positions key) := by
      intro hmem
      obtain ⟨f, hf, -⟩ := (hold _).1 hmem
      rw [fileAt_length] at hf
      cases hf
    by_cases hk : key = added
    · subst hk
      simp [hadd]
    · rw [if_neg hk]
      simp only [if_true, Option.some.injEq, exists_eq_left']
      constructor
      · intro hmem
        exact absurd hmem hnot
      · intro hkey
        exact absurd (hadd.symm.trans hkey).symm hk
  · rw [if_neg hi]
    by_cases hk : key = added
    · rw [if_pos hk]
      rw [List.mem_append]
      simp only [List.mem_singleton, hi, or_false]
      rw [← hk]
      exact hold idx
    · rw [if_neg hk]
      exact hold idx

theorem NameMapExact_AddFile (lib : PathLib) (index : FileIndex) (relPath ext : String)
    (hinv : NameMapExact lib index) :
    NameMapExact lib (AddFile lib index relPath (pathBase relPath) ext) := by
  intro key idx
  exact exact_after_AddFile lib index relPath (pathBase relPath) ext
    (positionsAt index.NameMap) _ (fun f => lib.ToLower (pathBase f))
    (lib.ToLower (pathBase relPath)) rfl
    (fun k => positionsAt_mapAppend index.NameMap _ k _) key idx (fun i => hinv key i)

theorem extension_exact_AddFile (lib : PathLib) (index : FileIndex) (relPath name : String)
    (hinv : ∀ key idx, idx ∈ positionsAt index.ExtensionMap key ↔
      ∃ f, fileAt index idx = some f ∧ lib.ToLower (fileExtension f) = key) :
    ∀ key idx,
      idx ∈ positionsAt (AddFile lib index relPath name (fileExtension relPath)).ExtensionMap key ↔
        ∃ f, fileAt (AddFile lib index relPath name (fileExtension relPath)) idx = some f ∧
          lib.ToLower (fileExtension f) = key := by
  intro key idx
  exact exact_after_AddFile lib index relPath name (fileExtension relPath)
    (positionsAt index.ExtensionMap) _ (fun f => lib.ToLower (fileExtension f))
    (lib.ToLower (fileExtension relPath)) rfl
    (fun k => positionsAt_mapAppend index.ExtensionMap _ k _) key idx
    (fun i => hinv key i)

theorem foldl_AddFile_exact (lib : PathLib) (relPaths : List String) :
    ∀ index : FileIndex, NameMapExact lib index →
    (∀ key idx, idx ∈ positionsAt index.ExtensionMap key ↔
      ∃ f, fileAt index idx = some f ∧ lib.ToLower (fileExtension f) = key) →
    NameMapExact lib (relPaths.foldl (fun index relPath =>
      AddFile lib index relPath (pathBase relPath) (filepathExt (pathBase relPath))) index) ∧
    ∀ key idx, idx ∈ positionsAt (relPaths.foldl (fun index relPath =>
      AddFile lib index relPath (pathBase relPath)
        (filepathExt (pathBase relPath))) index).ExtensionMap key ↔
      ∃ f, fileAt (relPaths.foldl (fun index relPath =>
        AddFile lib index relPath (pathBase relPath)
          (filepathExt (pathBase relPath))) index) idx = some f ∧
        lib.ToLower (fileExtension f) = key := by
  induction relPaths with
  | nil => intro index h1 h2; exact ⟨h1, h2⟩
  | cons p rest ih =>
    intro index h1 h2
    rw [List.foldl_cons]
    exact ih _ (NameMapExact_AddFile lib index p _ h1)
      (extension_exact_AddFile lib index p (pathBase p) h2)

/-- The index built by adding the paths met by the walk satisfies the index invariant: both
maps are exact, and every position they hold is valid. -/
theorem indexOfPaths_exact (lib : PathLib) (rootDir : String) (relPaths : List String) :
    NameMapExact lib (indexOfPaths lib rootDir relPaths) ∧
      ExtensionMapExact lib (indexOfPaths lib rootDir relPaths) ∧
      PositionsValid (indexOfPaths lib rootDir relPaths) := by
  have hall := foldl_AddFile_exact lib relPaths (NewFileIndex rootDir)
    (by intro key idx; simp [NewFileIndex, positionsAt, fileAt])
    (by intro key idx; simp [NewFileIndex, positionsAt, fileAt])
  refine ⟨hall.1, fun ext _ idx => hall.2 _ idx, ?_, ?_⟩
  · intro key idx hidx
    obtain ⟨f, hf, -⟩ := (hall.1 key idx).1 hidx
    exact ⟨f, hf⟩
  · intro key idx hidx
    obtain ⟨f, hf, -⟩ := (hall.2 key idx).1 hidx
    exact ⟨f, hf⟩

/-- With valid positions `FindFiles` returns, with a nil error, for every pattern. -/
theorem FindFiles_returns (h : Host) (lib : PathLib) (index : FileIndex)
    (hv : PositionsValid index) (pattern : String) :
    ∃ res, FindFiles h lib index pattern = some (res, none) := by
  unfold FindFiles
  split
  · simp only
    rw [collectAt_eq lib index _ _ [] (hv.1 _)]
    exact ⟨_, rfl⟩
  · split
    · rw [collectAt_eq lib index _ _ [] (hv.1 _)]
      exact ⟨_, rfl⟩
    · split
      · simp only
        rw [collectAt_eq lib index _ _ [] (hv.2 _)]
        exact ⟨_, rfl⟩
      · split
        · exact ⟨_, rfl⟩
        · exact ⟨_, rfl⟩

/-- What `FindFiles` returns for an exact-path pattern, as a set: the indexed paths that equal
the target up to simple case folding and whose lowercase filename is the lowercase filename
of the target. -/
theorem FindFiles_exact_path_mem (h : Host) (lib : PathLib) (index : FileIndex) (t : String)
    (hinv : NameMapExact lib index) :
    ∃ res, FindFiles h lib index ("/" ++ t) = some (res, none) ∧
      ∀ p, p ∈ res ↔ ∃ f ∈ index.Files, lib.EqualFold f t = true ∧
        lib.ToLower (pathBase f) = lib.ToLower (pathBase t) ∧ p = lib.Join index.RootDir f := by
  refine ⟨_, FindFiles_exact_path h lib index t hinv, ?_⟩
  intro p
  rw [mem_collected]
  constructor
  · rintro ⟨idx, hidx, f, hf, hk, rfl⟩
    obtain ⟨f1, hf1, hkey⟩ := (hinv _ idx).1 hidx
    rw [hf] at hf1
    cases hf1
    exact ⟨f, mem_files_of_fileAt index idx f hf, hk, hkey, rfl⟩
  · rintro ⟨f, hmem, hk, hkey, rfl⟩
    obtain ⟨idx, hf⟩ := fileAt_of_mem_files index f hmem
    exact ⟨idx, (hinv _ idx).2 ⟨f, hf, hkey⟩, f, hf, hk, rfl⟩

/-- Reading equality up to case as equality of the lowercase forms does not change the
picture: the index of a project whose only file is `İndex.js` holds the path under the key
`index.js`, the lowercase forms of the path and of the target `index.js` are equal, and the
path is not returned, because simple case folding tells them apart. -/
theorem demo_dotted_capital :
    demoLib.ToLower "İndex.js" = demoLib.ToLower "index.js" ∧
      demoLib.EqualFold "İndex.js" "index.js" = false ∧
      FindFiles demoHost demoLib (indexOfPaths demoLib "/proj" ["İndex.js"]) "/index.js" =
        some ([], none) := by
  decide

/-- On a file index with valid positions, a run of `DetectFrameworks` whose filtered rules
have no tier key with a nil body returns a result and a nil error. -/
theorem DetectFrameworks_returns_on_index (h : Host) (lib : PathLib) (e : CanvasEngine)
    (index : FileIndex) (languages : List String) (hv : PositionsValid index)
    (hbody : ∀ r ∈ filterRulesByLanguages e languages, ∀ lv ∈ ["L1", "L2", "L3"],
      r.Levels.lookup lv ≠ some none) :
    ∃ res, DetectFrameworks h e (NewIndexMatcher h lib index) languages = some (res, none) := by
  apply DetectFrameworks_returns
  refine ⟨?_, hbody⟩
  intro pat hpat
  obtain ⟨res, hres⟩ := FindFiles_returns h lib index hv pat
  unfold NewIndexMatcher at hpat
  rw [hres] at hpat
  cases hpat

theorem dot_append_ne_empty (e : String) : "." ++ e ≠ "" := by
  intro hh
  have hlen := congrArg String.length hh
  simp only [String.length_append] at hlen
  have h1 : (".").length = 1 := rfl
  have h0 : ("").length = 0 := rfl
  omega

/-! ### The claims on the file index and `FindFiles` -/

/-- C11 (`DetectFrameworks` never crashes), evaluated at a failing input: the file index of the
concrete project satisfies the index invariant, and with the single loaded rule `Broken`, whose
tier key `L1` is present with a nil body, the run for the language `Go` aborts instead of
returning a result: the body of the tier is dereferenced to read its path patterns. -/
theorem C11_nil_tier_body_aborts :
    NameMapExact demoLib demoIndex ∧ ExtensionMapExact demoLib demoIndex ∧
      PositionsValid demoIndex ∧
      brokenRule.Levels.lookup "L1" = some none ∧
      DetectFrameworks demoHost (loadEmbeddedRules emptyEngine [brokenRule])
        (NewIndexMatcher demoHost demoLib demoIndex) ["Go"] = none :=
  ⟨(indexOfPaths_exact demoLib "/proj" demoPaths).1,
    (indexOfPaths_exact demoLib "/proj" demoPaths).2.1,
    (indexOfPaths_exact demoLib "/proj" demoPaths).2.2, by decide, by decide⟩

/-- C17 (exact-path patterns), evaluated at a failing input: the index of a project whose only
file is `ſetup.py` satisfies the index invariant, the indexed path equals the target `setup.py`
ignoring case (`strings.EqualFold` holds of the two), and yet `FindFiles` returns no path for
the pattern `/setup.py`: the filename map is read under the lowercase filename `setup.py` of the
target, while the path is registered under its own lowercase filename `ſetup.py`. -/
theorem C17_exact_path_misses_fold_equal_name :
    NameMapExact demoLib longSIndex ∧ ExtensionMapExact demoLib longSIndex ∧
      "ſetup.py" ∈ longSIndex.Files ∧
      demoLib.EqualFold "ſetup.py" "setup.py" = true ∧
      demoLib.ToLower (pathBase "ſetup.py") ≠ demoLib.ToLower (pathBase "setup.py") ∧
      FindFiles demoHost demoLib longSIndex "/setup.py" = some ([], none) :=
  ⟨(indexOfPaths_exact demoLib "/proj" longSPaths).1,
    (indexOfPaths_exact demoLib "/proj" longSPaths).2.1, by decide, by decide, by decide,
    by decide⟩

/-- C18 (filename patterns): for every file index whose filename map is exact and every
pattern containing neither `/` nor `*`, `FindFiles` returns, with a nil error, exactly the
absolute forms of the indexed paths, at any depth, whose filename equals the pattern ignoring
case, that is, whose lowercase filename is the lowercase pattern. -/
theorem C18_filename_pattern (h : Host) (lib : PathLib) (index : FileIndex) (pattern : String)
    (hinv : NameMapExact lib index)
    (hslash : stringsContains pattern "/" = false)
    (hstar : stringsContains pattern "*" = false) :
    ∃ res, FindFiles h lib index pattern = some (res, none) ∧
      ∀ p, p ∈ res ↔ ∃ f ∈ index.Files,
        lib.ToLower (pathBase f) = lib.ToLower pattern ∧ p = lib.Join index.RootDir f := by
  refine ⟨_, FindFiles_filename h lib index pattern hslash hstar ?_, ?_⟩
  · intro idx hidx
    obtain ⟨f, hf, -⟩ := (hinv _ idx).1 hidx
    exact ⟨f, hf⟩
  · intro p
    simp only [List.mem_map, List.mem_filterMap]
    constructor
    · rintro ⟨f, ⟨idx, hidx, hf⟩, rfl⟩
      obtain ⟨f1, hf1, hkey⟩ := (hinv _ idx).1 hidx
      rw [hf] at hf1
      cases hf1
      exact ⟨f, mem_files_of_fileAt index idx f hf, hkey, rfl⟩
    · rintro ⟨f, hmem, hkey, rfl⟩
      obtain ⟨idx, hf⟩ := fileAt_of_mem_files index f hmem
      exact ⟨f, ⟨idx, (hinv _ idx).2 ⟨f, hf, hkey⟩, hf⟩, rfl⟩

/-- C18 on the concrete project: the pattern `MAIN.go` finds the two files named `Main.GO` and
`main.go`, at their depths. -/
theorem C18_witness :
    NameMapExact demoLib demoIndex ∧ stringsContains "MAIN.go" "/" = false ∧
      stringsContains "MAIN.go" "*" = false ∧
      ∃ res, FindFiles demoHost demoLib demoIndex "MAIN.go" = some (res, none) ∧
        ∀ p, p ∈ res ↔ ∃ f ∈ demoIndex.Files,
          demoLib.ToLower (pathBase f) = demoLib.ToLower "MAIN.go" ∧
            p = demoLib.Join demoIndex.RootDir f :=
  ⟨(indexOfPaths_exact demoLib "/proj" demoPaths).1, by decide, by decide,
    C18_filename_pattern demoHost demoLib demoIndex "MAIN.go"
      (indexOfPaths_exact demoLib "/proj" demoPaths).1 (by decide) (by decide)⟩

/-- C19 (extension patterns): for every file index whose extension map is exact and every
pattern `*.ext` (the part after the star holds no `/`), `FindFiles` returns, with a nil error,
exactly the absolute forms of the indexed paths whose lowercase extension is the lowercase form
of `.ext`: every returned path has that lowercase extension, and every indexed file whose
extension equals `.ext` ignoring case is returned. The letter case of the pattern does not
matter: a pattern `*.ext2` with the same lowercase form returns the same paths. -/
theorem C19_extension_pattern (h : Host) (lib : PathLib) (index : FileIndex) (e : String)
    (hinv : ExtensionMapExact lib index)
    (hslash : stringsContains e "/" = false) :
    (∃ res, FindFiles h lib index ("*." ++ e) = some (res, none) ∧
      ∀ p, p ∈ res ↔ ∃ f ∈ index.Files,
        lib.ToLower (fileExtension f) = lib.ToLower ("." ++ e) ∧
          p = lib.Join index.RootDir f) ∧
    ∀ e2, stringsContains e2 "/" = false → lib.ToLower ("." ++ e2) = lib.ToLower ("." ++ e) →
      FindFiles h lib index ("*." ++ e2) = FindFiles h lib index ("*." ++ e) := by
  have hvalid : ∀ e1 : String, ∀ idx ∈ positionsAt index.ExtensionMap (lib.ToLower ("." ++ e1)),
      ∃ f, fileAt index idx = some f := by
    intro e1 idx hidx
    obtain ⟨f, hf, -⟩ := (hinv _ (dot_append_ne_empty e1) idx).1 hidx
    exact ⟨f, hf⟩
  refine ⟨⟨_, FindFiles_extension h lib index e hslash (hvalid e), ?_⟩, ?_⟩
  · intro p
    simp only [List.mem_map, List.mem_filterMap]
    constructor
    · rintro ⟨f, ⟨idx, hidx, hf⟩, rfl⟩
      obtain ⟨f1, hf1, hkey⟩ := (hinv _ (dot_append_ne_empty e) idx).1 hidx
      rw [hf] at hf1
      cases hf1
      exact ⟨f, mem_files_of_fileAt index idx f hf, hkey, rfl⟩
    · rintro ⟨f, hmem, hkey, rfl⟩
      obtain ⟨idx, hf⟩ := fileAt_of_mem_files index f hmem
      exact ⟨f, ⟨idx, (hinv _ (dot_append_ne_empty e) idx).2 ⟨f, hf, hkey⟩, hf⟩, rfl⟩
  · intro e2 hslash2 hsame
    rw [FindFiles_extension h lib index e2 hslash2 (hvalid e2),
      FindFiles_extension h lib index e hslash (hvalid e), hsame]

/-- C19 on the concrete project: the pattern `*.Go` finds the files with the extensions `.GO`
and `.go`, and so does the pattern `*.go`. -/
theorem C19_witness :
    ExtensionMapExact demoLib demoIndex ∧ stringsContains "Go" "/" = false ∧
      (∃ res, FindFiles demoHost demoLib demoIndex ("*." ++ "Go") = some (res, none) ∧
        ∀ p, p ∈ res ↔ ∃ f ∈ demoIndex.Files,
          demoLib.ToLower (fileExtension f) = demoLib.ToLower ("." ++ "Go") ∧
            p = demoLib.Join demoIndex.RootDir f) ∧
      FindFiles demoHost demoLib demoIndex ("*." ++ "go") =
        FindFiles demoHost demoLib demoIndex ("*." ++ "Go") :=
  ⟨(indexOfPaths_exact demoLib "/proj" demoPaths).2.1, by decide,
    (C19_extension_pattern demoHost demoLib demoIndex "Go"
      (indexOfPaths_exact demoLib "/proj" demoPaths).2.1 (by decide)).1,
    (C19_extension_pattern demoHost demoLib demoIndex "Go"
      (indexOfPaths_exact demoLib "/proj" demoPaths).2.1 (by decide)).2 "go" (by decide)
      (by decide)⟩

/-- C20 (directory-prefix patterns): for every file index and every pattern that ends with `/`
and does not start with `/`, `FindFiles` returns, with a nil error, exactly the absolute forms
of the indexed relative paths whose lowercase form starts with the lowercase pattern, in index
order. -/
theorem C20_directory_pattern (h : Host) (lib : PathLib) (index : FileIndex) (pattern : String)
    (hsuf : stringsHasSuffix pattern "/" = true)
    (hpre : stringsHasPrefix pattern "/" = false) :
    FindFiles h lib index pattern =
        some ((index.Files.filter (fun f =>
          stringsHasPrefix (lib.ToLower f) (lib.ToLower pattern))).map
            (lib.Join index.RootDir), none) ∧
      ∀ p, p ∈ (index.Files.filter (fun f =>
          stringsHasPrefix (lib.ToLower f) (lib.ToLower pattern))).map (lib.Join index.RootDir) ↔
        ∃ f ∈ index.Files, stringsHasPrefix (lib.ToLower f) (lib.ToLower pattern) = true ∧
          p = lib.Join index.RootDir f := by
  refine ⟨FindFiles_directory h lib index pattern hsuf hpre, ?_⟩
  intro p
  simp only [List.mem_map, List.mem_filter]
  constructor
  · rintro ⟨f, ⟨hmem, hk⟩, rfl⟩
    exact ⟨f, hmem, hk, rfl⟩
  · rintro ⟨f, hmem, hk, rfl⟩
    exact ⟨f, ⟨hmem, hk⟩, rfl⟩

/-- C20 on the concrete project: the pattern `Src/` finds the files under `src/` and under
`SRC/`. -/
theorem C20_witness :
    stringsHasSuffix "Src/" "/" = true ∧ stringsHasPrefix "Src/" "/" = false ∧
      FindFiles demoHost demoLib demoIndex "Src/" =
        some ((demoIndex.Files.filter (fun f =>
          stringsHasPrefix (demoLib.ToLower f) (demoLib.ToLower "Src/"))).map
            (demoLib.Join demoIndex.RootDir), none) ∧
      (demoIndex.Files.filter (fun f =>
          stringsHasPrefix (demoLib.ToLower f) (demoLib.ToLower "Src/"))).map
            (demoLib.Join demoIndex.RootDir) = ["/proj/src/App/Main.GO", "/proj/SRC/main.go"] :=
  ⟨by decide, by decide,
    (C20_directory_pattern demoHost demoLib demoIndex "Src/" (by decide) (by decide)).1,
    by decide⟩

/-! ### The general glob class, errors and order of `FindFiles` -/

/-- What `FindFiles` returns for a pattern of the general glob class: the absolute forms of the
indexed paths that `matchPath` accepts without error, in index order. -/
theorem FindFiles_general (h : Host) (lib : PathLib) (index : FileIndex) (pattern : String)
    (hgen : isGeneralGlob pattern = true) :
    FindFiles h lib index pattern =
      some ((index.Files.filter (globAccepts h lib pattern)).map (lib.Join index.RootDir),
        none) := by
  unfold isGeneralGlob at hgen
  simp only [Bool.and_eq_true, Bool.not_eq_true'] at hgen
  obtain ⟨⟨⟨h1, h2⟩, h3⟩, h4⟩ := hgen
  unfold FindFiles
  have h1n : ¬ stringsHasPrefix pattern "/" = true := by rw [h1]; simp
  rw [if_neg h1n]
  have h2n : ¬ (!stringsContains pattern "/" && !stringsContains pattern "*") = true := by
    rw [h2]; simp
  rw [if_neg h2n]
  have h3n : ¬ (stringsHasPrefix pattern "*." &&
      !stringsContains (sliceFrom pattern 1) "/") = true := by
    rw [h3]; simp
  rw [if_neg h3n]
  have h4n : ¬ stringsHasSuffix pattern "/" = true := by rw [h4]; simp
  rw [if_neg h4n, collectFiles_eq]
  rfl

/-- When the loop over positions returns, every position was valid. -/
theorem collectAt_some_valid (lib : PathLib) (index : FileIndex) (keep : String → Bool) :
    ∀ (ps : List Int) (results r : List String),
    collectAt lib index keep ps results = some r →
    ∀ idx ∈ ps, ∃ f, fileAt index idx = some f := by
  intro ps
  induction ps with
  | nil => intro results r _ idx hidx; simp at hidx
  | cons i rest ih =>
    intro results r hrun idx hidx
    unfold collectAt at hrun
    rcases hf : fileAt index i with _ | f
    · rw [hf] at hrun
      cases hrun
    · rw [hf] at hrun
      simp only at hrun
      rcases List.mem_cons.1 hidx with rfl | hmem
      · exact ⟨f, hf⟩
      · by_cases hk : keep f = true
        · rw [if_pos hk] at hrun
          exact ih _ r hrun idx hmem
        · rw [if_neg hk] at hrun
          exact ih _ r hrun idx hmem

/-- The files at strictly increasing valid positions, all at least `k`, form a subsequence of
the path sequence from position `k` on. -/
theorem filesAt_sublist_drop (index : FileIndex) :
    ∀ (ps : List Int) (k : Nat), ps.Pairwise (fun a b => a < b) →
    (∀ idx ∈ ps, (k : Int) ≤ idx) → (∀ idx ∈ ps, ∃ f, fileAt index idx = some f) →
    (ps.filterMap (fileAt index)).Sublist (index.Files.drop k) := by
  intro ps
  induction ps with
  | nil => intro k _ _ _; simp
  | cons i rest ih =>
    intro k hpw hge hvalid
    obtain ⟨f, hf⟩ := hvalid i (List.mem_cons_self _ _)
    obtain ⟨h0, hget⟩ := (fileAt_eq_some index i f).1 hf
    have hlt : i.toNat < index.Files.length := by
      rcases Nat.lt_or_ge i.toNat index.Files.length with hl | hl
      · exact hl
      · rw [List.getElem?_eq_none hl] at hget
        cases hget
    have hfi : index.Files[i.toNat] = f := by
      rw [List.getElem?_eq_getElem hlt] at hget
      exact Option.some.inj hget
    have hrest := ih (i.toNat + 1) (List.Pairwise.of_cons hpw)
      (fun idx hidx => by
        have := List.rel_of_pairwise_cons hpw hidx
        omega)
      (fun idx hidx => hvalid idx (List.mem_cons_of_mem _ hidx))
    have hki : k ≤ i.toNat := by
      have := hge i (List.mem_cons_self _ _)
      omega
    rw [List.filterMap_cons, hf]
    simp only
    have hdrop : index.Files.drop i.toNat = f :: index.Files.drop (i.toNat + 1) := by
      rw [List.drop_eq_getElem_cons hlt, hfi]
    exact ((List.Sublist.cons₂ f hrest).trans (hdrop ▸ List.Sublist.refl _)).trans
      (List.drop_sublist_drop_left index.Files hki)

theorem filesAt_sublist (index : FileIndex) (ps : List Int)
    (hpw : ps.Pairwise (fun a b => a < b))
    (hvalid : ∀ idx ∈ ps, ∃ f, fileAt index idx = some f) :
    (ps.filterMap (fileAt index)).Sublist index.Files := by
  have := filesAt_sublist_drop index ps 0 hpw
    (fun idx hidx => by
      obtain ⟨f, hf⟩ := hvalid idx hidx
      have := ((fileAt_eq_some index idx f).1 hf).1
      simpa using this)
    hvalid
  simpa using this

/-- When the loop over strictly increasing positions returns from no results, it returns the
absolute forms of a subsequence of the path sequence. -/
theorem collectAt_sublist (lib : PathLib) (index : FileIndex) (keep : String → Bool)
    (ps : List Int) (r : List String) (hpw : ps.Pairwise (fun a b => a < b))
    (hrun : collectAt lib index keep ps [] = some r) :
    ∃ fs : List String, fs.Sublist index.Files ∧ r = fs.map (lib.Join index.RootDir) := by
  have hvalid := collectAt_some_valid lib index keep ps [] r hrun
  rw [collectAt_eq lib index keep ps [] hvalid] at hrun
  refine ⟨(ps.filterMap (fileAt index)).filter keep,
    (List.filter_sublist _).trans (filesAt_sublist index ps hpw hvalid), ?_⟩
  simpa using (Option.some.inj hrun).symm

theorem mapAppend_increasing (m : List (String × List Int)) (n : Nat) (k : String)
    (hm : ∀ key, (positionsAt m key).Pairwise (fun a b => a < b) ∧
      ∀ idx ∈ positionsAt m key, idx < (n : Int)) :
    ∀ key, (positionsAt (mapAppend m k (n : Int)) key).Pairwise (fun a b => a < b) ∧
      ∀ idx ∈ positionsAt (mapAppend m k (n : Int)) key, idx < ((n + 1 : Nat) : Int) := by
  intro key
  rw [positionsAt_mapAppend]
  by_cases hk : key = k
  · rw [if_pos hk]
    constructor
    · rw [List.pairwise_append]
      refine ⟨(hm k).1, List.pairwise_singleton _ _, ?_⟩
      intro a ha b hb
      rw [List.mem_singleton] at hb
      rw [hb]
      exact (hm k).2 a ha
    · intro idx hidx
      rcases List.mem_append.1 hidx with h1 | h1
      · have := (hm k).2 idx h1
        omega
      · rw [List.mem_singleton] at h1
        omega
  · rw [if_neg hk]
    refine ⟨(hm key).1, ?_⟩
    intro idx hidx
    have := (hm key).2 idx hidx
    omega

theorem foldl_AddFile_increasing (lib : PathLib) (relPaths : List String) :
    ∀ index : FileIndex,
    (∀ key, (positionsAt index.NameMap key).Pairwise (fun a b => a < b) ∧
      ∀ idx ∈ positionsAt index.NameMap key, idx < (index.Files.length : Int)) →
    (∀ key, (positionsAt index.ExtensionMap key).Pairwise (fun a b => a < b) ∧
      ∀ idx ∈ positionsAt index.ExtensionMap key, idx < (index.Files.length : Int)) →
    PositionsIncreasing (relPaths.foldl (fun index relPath =>
      AddFile lib index relPath (pathBase relPath) (filepathExt (pathBase relPath))) index) := by
  induction relPaths with
  | nil => intro index h1 h2; exact ⟨fun key => (h1 key).1, fun key => (h2 key).1⟩
  | cons p rest ih =>
    intro index h1 h2
    rw [List.foldl_cons]
    apply ih
    · intro key
      have := mapAppend_increasing index.NameMap index.Files.length
        (lib.ToLower (pathBase p)) h1 key
      simpa [AddFile] using this
    · intro key
      have := mapAppend_increasing index.ExtensionMap index.Files.length
        (lib.ToLower (filepathExt (pathBase p))) h2 key
      simpa [AddFile] using this

/-- The position lists of the index built by the walk are in strictly increasing order. -/
theorem indexOfPaths_increasing (lib : PathLib) (rootDir : String) (relPaths : List String) :
    PositionsIncreasing (indexOfPaths lib rootDir relPaths) := by
  unfold indexOfPaths
  apply foldl_AddFile_increasing
  · intro key
    simp [NewFileIndex, positionsAt]
  · intro key
    simp [NewFileIndex, positionsAt]

theorem demo_glob_expression :
    "(?i:" ++ ("^" ++ stringsReplaceAll (stringsReplaceAll (regexpQuoteMeta "**/*.go")
        "\\*\\*" ".*") "\\*" "[^/]*" ++ "$") ++ ")" = "(?i:^.*/[^/]*\\.go$)" ∧
      parseGlobItems "(?i:^.*/[^/]*\\.go$)".data = none ∧
      parseGlobItems ".*/[^/]*\\.go$)".data =
        some [GlobItem.anySeq, GlobItem.lit '/', GlobItem.segSeq, GlobItem.lit '.',
          GlobItem.lit 'g', GlobItem.lit 'o'] ∧
      FindFiles globHost demoLib newlineIndex "src/**" =
        some (["/proj/src/app/Main.GO", "/proj/src/app/notes.md"], none) ∧
      FindFiles globHost demoLib newlineIndex "SRC/*/*.go" =
        some (["/proj/src/app/Main.GO"], none) := by
  decide

/-! ### The expression that `matchPath` builds -/

theorem globTokens_two_stars (ps : List Char) :
    globTokens ('*' :: '*' :: ps) = GlobItem.anySeq :: globTokens ps := by
  rw [globTokens]

theorem globTokens_one_star (ps : List Char) (hps : ps.head? ≠ some '*') :
    globTokens ('*' :: ps) = GlobItem.segSeq :: globTokens ps := by
  rw [globTokens]
  intro qs hqs
  rw [hqs] at hps
  exact hps rfl

theorem globTokens_char (c : Char) (ps : List Char) (hc : c ≠ '*') :
    globTokens (c :: ps) = GlobItem.lit c :: globTokens ps := by
  rw [globTokens]
  · intro qs hh
    exact absurd hh hc
  · exact hc

/-- The three shapes of a non-empty pattern. -/
theorem pattern_shape (c : Char) (ps : List Char) :
    (c = '*' ∧ ∃ qs, ps = '*' :: qs) ∨ (c = '*' ∧ ps.head? ≠ some '*') ∨ c ≠ '*' := by
  by_cases hc : c = '*'
  · cases ps with
    | nil => exact Or.inr (Or.inl ⟨hc, by simp⟩)
    | cons d qs =>
      by_cases hd : d = '*'
      · exact Or.inl ⟨hc, qs, by rw [hd]⟩
      · exact Or.inr (Or.inl ⟨hc, by simpa using hd⟩)
  · exact Or.inr (Or.inr hc)

theorem globTokens_plain : ∀ (n : Nat) (p : List Char), p.length ≤ n → '\\' ∉ p →
    ∀ item ∈ globTokens p, plainItem item = true := by
  intro n
  induction n with
  | zero =>
    intro p hlen _ item hitem
    have : p = [] := List.length_eq_zero.mp (Nat.le_zero.mp hlen)
    subst this
    simp [globTokens] at hitem
  | succ n ih =>
    intro p hlen hno item hitem
    cases p with
    | nil => simp [globTokens] at hitem
    | cons c ps =>
      have hlen1 : ps.length ≤ n := by simp at hlen; omega
      have hno1 : '\\' ∉ ps := fun hh => hno (List.mem_cons_of_mem _ hh)
      rcases pattern_shape c ps with ⟨rfl, qs, rfl⟩ | ⟨rfl, hps⟩ | hc
      · rw [globTokens_two_stars, List.mem_cons] at hitem
        rcases hitem with rfl | hitem
        · rfl
        · exact ih qs (by simp at hlen1; omega)
            (fun hh => hno1 (List.mem_cons_of_mem _ hh)) item hitem
      · rw [globTokens_one_star ps hps, List.mem_cons] at hitem
        rcases hitem with rfl | hitem
        · rfl
        · exact ih ps hlen1 hno1 item hitem
      · rw [globTokens_char c ps hc, List.mem_cons] at hitem
        rcases hitem with rfl | hitem
        · have hb : c ≠ '\\' := fun hh => hno (by simp [hh])
          simp [plainItem, hc, hb]
        · exact ih ps hlen1 hno1 item hitem

theorem quoteChar_head (c : Char) (hc : c ≠ '\\') (rest : List Char) :
    ∃ d tail, quoteChar c ++ rest = d :: tail ∧
      (d = '\\' → isRegexpMeta c = true ∧ tail = c :: rest) ∧
      (d ≠ '\\' → d = c ∧ tail = rest) := by
  unfold quoteChar
  by_cases hm : isRegexpMeta c = true
  · rw [if_pos hm]
    exact ⟨'\\', c :: rest, rfl, fun _ => ⟨hm, rfl⟩, fun hh => absurd rfl hh⟩
  · rw [if_neg hm]
    exact ⟨c, rest, rfl, fun hh => absurd hh hc, fun _ => ⟨rfl, rfl⟩⟩

/-- The first replacement of `matchPath` on the quoted text of one plain character. -/
theorem replace_stars_char (c : Char) (hc : c ≠ '*') (hb : c ≠ '\\') (rest : List Char) :
    replaceChars ['\\', '*', '\\', '*'] ['.', '*'] 0 (quoteChar c ++ rest) =
      quoteChar c ++ replaceChars ['\\', '*', '\\', '*'] ['.', '*'] 0 rest := by
  unfold quoteChar
  by_cases hm : isRegexpMeta c = true
  · rw [if_pos hm]
    have h1 : (['\\', '*', '\\', '*'] : List Char).isPrefixOf ('\\' :: c :: rest) = false := by
      simp [List.isPrefixOf, Ne.symm hc]
    have h2 : (['\\', '*', '\\', '*'] : List Char).isPrefixOf (c :: rest) = false := by
      simp [List.isPrefixOf, Ne.symm hb]
    simp only [List.cons_append, List.nil_append]
    rw [replaceChars, h1]
    simp only [Bool.false_eq_true, if_false]
    rw [replaceChars, h2]
    simp only [Bool.false_eq_true, if_false]
  · rw [if_neg hm]
    have h2 : (['\\', '*', '\\', '*'] : List Char).isPrefixOf (c :: rest) = false := by
      simp [List.isPrefixOf, Ne.symm hb]
    simp only [List.cons_append, List.nil_append]
    rw [replaceChars, h2]
    simp only [Bool.false_eq_true, if_false]

/-- The first replacement of `matchPath` on the quoted text of the items of a pattern. -/
theorem replace_stars_tokens : ∀ (n : Nat) (p : List Char), p.length ≤ n → '\\' ∉ p →
    replaceChars ['\\', '*', '\\', '*'] ['.', '*'] 0 (p.flatMap quoteChar) =
      (globTokens p).flatMap renderQuoted := by
  intro n
  induction n with
  | zero =>
    intro p hlen _
    have : p = [] := List.length_eq_zero.mp (Nat.le_zero.mp hlen)
    subst this
    simp [globTokens, replaceChars]
  | succ n ih =>
    intro p hlen hno
    cases p with
    | nil => simp [globTokens, replaceChars]
    | cons c ps =>
      have hlen1 : ps.length ≤ n := by simp at hlen; omega
      have hno1 : '\\' ∉ ps := fun hh => hno (List.mem_cons_of_mem _ hh)
      rcases pattern_shape c ps with ⟨rfl, qs, rfl⟩ | ⟨rfl, hps⟩ | hc
      · rw [globTokens_two_stars]
        have hq : ['*', '*'].flatMap quoteChar = ['\\', '*', '\\', '*'] := by decide
        have hsplit : ('*' :: '*' :: qs).flatMap quoteChar =
            '\\' :: '*' :: '\\' :: '*' :: qs.flatMap quoteChar := by
          have : ('*' :: '*' :: qs) = ['*', '*'] ++ qs := rfl
          rw [this, List.flatMap_append, hq]
          rfl
        rw [hsplit, replaceChars]
        have hpre : (['\\', '*', '\\', '*'] : List Char).isPrefixOf
            ('\\' :: '*' :: '\\' :: '*' :: qs.flatMap quoteChar) = true := by
          simp [List.isPrefixOf]
        rw [if_pos hpre]
        simp only [List.length_cons, List.length_nil, Nat.reduceAdd, Nat.add_one_sub_one,
          replaceChars]
        rw [ih qs (by simp at hlen1; omega) (fun hh => hno1 (List.mem_cons_of_mem _ hh))]
        simp [renderQuoted]
      · rw [globTokens_one_star ps hps]
        have hsplit : ('*' :: ps).flatMap quoteChar = '\\' :: '*' :: ps.flatMap quoteChar := by
          have hq : quoteChar '*' = ['\\', '*'] := by decide
          rw [List.flatMap_cons, hq]
          rfl
        have hnot : (['\\', '*'] : List Char).isPrefixOf (ps.flatMap quoteChar) = false := by
          cases ps with
          | nil => simp [List.isPrefixOf]
          | cons d qs =>
            have hd : d ≠ '*' := by simpa using hps
            have hdb : d ≠ '\\' := fun hh => hno1 (by simp [hh])
            rw [List.flatMap_cons]
            obtain ⟨e, tail, heq, hbs, hnbs⟩ := quoteChar_head d hdb (qs.flatMap quoteChar)
            rw [heq]
            by_cases he : e = '\\'
            · obtain ⟨-, htail⟩ := hbs he
              rw [he, htail]
              simp [List.isPrefixOf, Ne.symm hd]
            · simp [List.isPrefixOf, Ne.symm he]
        have hpre : (['\\', '*', '\\', '*'] : List Char).isPrefixOf
            ('\\' :: '*' :: ps.flatMap quoteChar) = false := by
          simpa [List.isPrefixOf] using hnot
        rw [hsplit, replaceChars, hpre]
        simp only [Bool.false_eq_true, if_false]
        have hpre2 : (['\\', '*', '\\', '*'] : List Char).isPrefixOf
            ('*' :: ps.flatMap quoteChar) = false := by
          simp [List.isPrefixOf]
        rw [replaceChars, hpre2]
        simp only [Bool.false_eq_true, if_false]
        rw [ih ps hlen1 hno1]
        simp [renderQuoted]
      · have hb : c ≠ '\\' := fun hh => hno (by simp [hh])
        rw [globTokens_char c ps hc, List.flatMap_cons, replace_stars_char c hc hb,
          ih ps hlen1 hno1]
        simp [renderQuoted]

/-- The second replacement of `matchPath` on the text left by the first. -/
theorem replace_star_tokens : ∀ ts : List GlobItem, (∀ item ∈ ts, plainItem item = true) →
    replaceChars ['\\', '*'] ['[', '^', '/', ']', '*'] 0 (ts.flatMap renderQuoted) =
      ts.flatMap renderItem := by
  intro ts
  induction ts with
  | nil => intro _; simp [replaceChars]
  | cons item rest ih =>
    intro hplain
    have ihr := ih (fun i hi => hplain i (List.mem_cons_of_mem _ hi))
    have hitem := hplain item (List.mem_cons_self _ _)
    rw [List.flatMap_cons, List.flatMap_cons]
    cases item with
    | lit c =>
      simp only [plainItem, Bool.and_eq_true, bne_iff_ne, ne_eq] at hitem
      obtain ⟨hc, hb⟩ := hitem
      simp only [renderQuoted, renderItem]
      unfold quoteChar
      by_cases hm : isRegexpMeta c = true
      · rw [if_pos hm]
        have h1 : (['\\', '*'] : List Char).isPrefixOf
            ('\\' :: c :: rest.flatMap renderQuoted) = false := by
          simp [List.isPrefixOf, Ne.symm hc]
        have h2 : (['\\', '*'] : List Char).isPrefixOf
            (c :: rest.flatMap renderQuoted) = false := by
          simp [List.isPrefixOf, Ne.symm hb]
        simp only [List.cons_append, List.nil_append]
        rw [replaceChars, h1]
        simp only [Bool.false_eq_true, if_false]
        rw [replaceChars, h2]
        simp only [Bool.false_eq_true, if_false]
        rw [ihr]
      · rw [if_neg hm]
        have h2 : (['\\', '*'] : List Char).isPrefixOf
            (c :: rest.flatMap renderQuoted) = false := by
          simp [List.isPrefixOf, Ne.symm hb]
        simp only [List.cons_append, List.nil_append]
        rw [replaceChars, h2]
        simp only [Bool.false_eq_true, if_false]
        rw [ihr]
    | anySeq =>
      simp only [renderQuoted, renderItem, List.cons_append, List.nil_append]
      have h1 : (['\\', '*'] : List Char).isPrefixOf
          ('.' :: '*' :: rest.flatMap renderQuoted) = false := by
        simp [List.isPrefixOf]
      have h2 : (['\\', '*'] : List Char).isPrefixOf
          ('*' :: rest.flatMap renderQuoted) = false := by
        simp [List.isPrefixOf]
      rw [replaceChars, h1]
      simp only [Bool.false_eq_true, if_false]
      rw [replaceChars, h2]
      simp only [Bool.false_eq_true, if_false]
      rw [ihr]
    | segSeq =>
      simp only [renderQuoted, renderItem, List.cons_append, List.nil_append]
      have h1 : (['\\', '*'] : List Char).isPrefixOf
          ('\\' :: '*' :: rest.flatMap renderQuoted) = true := by
        simp [List.isPrefixOf]
      rw [replaceChars, if_pos h1]
      simp only [List.length_cons, List.length_nil, Nat.reduceAdd, Nat.add_one_sub_one,
        replaceChars]
      rw [ihr]
      simp

theorem parseGlobFuel_succ (n : Nat) (s : List Char) :
    parseGlobFuel (n + 1) s =
      if s = ['$', ')'] then some []
      else if ['.', '*'].isPrefixOf s then
        (parseGlobFuel n (s.drop 2)).map (GlobItem.anySeq :: ·)
      else if ['[', '^', '/', ']', '*'].isPrefixOf s then
        (parseGlobFuel n (s.drop 5)).map (GlobItem.segSeq :: ·)
      else
        match s with
        | [] => none
        | c :: rest =>
          if c = '\\' then
            match rest with
            | [] => none
            | d :: rest2 =>
              if isRegexpMeta d then (parseGlobFuel n rest2).map (GlobItem.lit d :: ·) else none
          else if isRegexpMeta c then none
          else (parseGlobFuel n rest).map (GlobItem.lit c :: ·) := by
  rw [parseGlobFuel.eq_def]

/-- The model of `regexp` reads the expression of a pattern back as its items. -/
theorem parseGlobFuel_tokens : ∀ (ts : List GlobItem) (n : Nat), ts.length < n →
    (∀ item ∈ ts, plainItem item = true) →
    parseGlobFuel n (ts.flatMap renderItem ++ ['$', ')']) = some ts := by
  intro ts
  induction ts with
  | nil =>
    intro n hn _
    obtain ⟨m, rfl⟩ : ∃ m, n = m + 1 := ⟨n - 1, by simp at hn; omega⟩
    simp [parseGlobFuel_succ]
  | cons item rest ih =>
    intro n hn hplain
    obtain ⟨m, rfl⟩ : ∃ m, n = m + 1 := ⟨n - 1, by omega⟩
    have ihr := ih m (by simp at hn; omega) (fun i hi => hplain i (List.mem_cons_of_mem _ hi))
    have hitem := hplain item (List.mem_cons_self _ _)
    rw [List.flatMap_cons]
    cases item with
    | lit c =>
      simp only [plainItem, Bool.and_eq_true, bne_iff_ne, ne_eq] at hitem
      obtain ⟨hc, hb⟩ := hitem
      simp only [renderItem]
      unfold quoteChar
      by_cases hm : isRegexpMeta c = true
      · rw [if_pos hm]
        simp only [List.cons_append, List.nil_append]
        rw [parseGlobFuel_succ]
        have e1 : ¬ ('\\' :: c :: (rest.flatMap renderItem ++ ['$', ')']) = ['$', ')']) := by
          simp
        have e2 : (['.', '*'] : List Char).isPrefixOf
            ('\\' :: c :: (rest.flatMap renderItem ++ ['$', ')'])) = false := by
          simp [List.isPrefixOf]
        have e3 : (['[', '^', '/', ']', '*'] : List Char).isPrefixOf
            ('\\' :: c :: (rest.flatMap renderItem ++ ['$', ')'])) = false := by
          simp [List.isPrefixOf]
        rw [if_neg e1, e2, e3]
        simp only [Bool.false_eq_true, if_false, if_true, hm]
        rw [ihr]
        rfl
      · rw [if_neg hm]
        simp only [List.cons_append, List.nil_append]
        have hdollar : c ≠ '$' := by
          intro hh
          rw [hh] at hm
          exact hm (by decide)
        have hdot : c ≠ '.' := by
          intro hh
          rw [hh] at hm
          exact hm (by decide)
        have hbr : c ≠ '[' := by
          intro hh
          rw [hh] at hm
          exact hm (by decide)
        rw [parseGlobFuel_succ]
        have e1 : ¬ (c :: (rest.flatMap renderItem ++ ['$', ')']) = ['$', ')']) := by
          simp [hdollar]
        have e2 : (['.', '*'] : List Char).isPrefixOf
            (c :: (rest.flatMap renderItem ++ ['$', ')'])) = false := by
          simp [List.isPrefixOf, Ne.symm hdot]
        have e3 : (['[', '^', '/', ']', '*'] : List Char).isPrefixOf
            (c :: (rest.flatMap renderItem ++ ['$', ')'])) = false := by
          simp [List.isPrefixOf, Ne.symm hbr]
        rw [if_neg e1, e2, e3]
        simp only [Bool.false_eq_true, if_false, hb, hm]
        rw [ihr]
        rfl
    | anySeq =>
      simp only [renderItem, List.cons_append, List.nil_append]
      rw [parseGlobFuel_succ]
      have e1 : ¬ ('.' :: '*' :: (rest.flatMap renderItem ++ ['$', ')']) = ['$', ')']) := by
        simp
      have e2 : (['.', '*'] : List Char).isPrefixOf
          ('.' :: '*' :: (rest.flatMap renderItem ++ ['$', ')'])) = true := by
        simp [List.isPrefixOf]
      rw [if_neg e1, if_pos e2]
      simp only [List.drop_succ_cons, List.drop_zero]
      rw [ihr]
      rfl
    | segSeq =>
      simp only [renderItem, List.cons_append, List.nil_append]
      rw [parseGlobFuel_succ]
      have e1 : ¬ ('[' :: '^' :: '/' :: ']' :: '*' :: (rest.flatMap renderItem ++ ['$', ')']) =
          ['$', ')']) := by
        simp
      have e2 : (['.', '*'] : List Char).isPrefixOf
          ('[' :: '^' :: '/' :: ']' :: '*' :: (rest.flatMap renderItem ++ ['$', ')'])) =
          false := by
        simp [List.isPrefixOf]
      have e3 : (['[', '^', '/', ']', '*'] : List Char).isPrefixOf
          ('[' :: '^' :: '/' :: ']' :: '*' :: (rest.flatMap renderItem ++ ['$', ')'])) =
          true := by
        simp [List.isPrefixOf]
      rw [if_neg e1, e2]
      simp only [Bool.false_eq_true, if_false]
      rw [if_pos e3]
      simp only [List.drop_succ_cons, List.drop_zero]
      rw [ihr]
      rfl

theorem inits_drop_eq_tails : ∀ l : List Char,
    l.inits.map (fun taken => l.drop taken.length) = l.tails := by
  intro l
  induction l with
  | nil => rfl
  | cons a rest ih =>
    rw [List.inits_cons, List.tails_cons, List.map_cons, List.map_map]
    simp only [List.length_nil, List.drop_zero, List.cons.injEq, true_and]
    rw [← ih]
    apply List.map_congr_left
    intro t _
    simp

theorem any_congr_mem {α : Type} (l : List α) (f g : α → Bool)
    (hfg : ∀ x ∈ l, f x = g x) : l.any f = l.any g := by
  induction l with
  | nil => rfl
  | cons a rest ih =>
    rw [List.any_cons, List.any_cons, hfg a (List.mem_cons_self _ _),
      ih (fun x hx => hfg x (List.mem_cons_of_mem _ hx))]

theorem takeWhile_no_newline (name : List Char) (hnl : '\n' ∉ name) :
    name.takeWhile (fun c => c != '\n') = name := by
  rw [List.takeWhile_eq_self_iff]
  intro c hc
  simp only [bne_iff_ne, ne_eq]
  intro hh
  rw [hh] at hc
  exact hnl hc

/-- On a text without a newline, the items of a pattern match as the glob semantics of the
specification says. -/
theorem globItemsMatch_tokens : ∀ (n : Nat) (p name : List Char), p.length ≤ n →
    '\n' ∉ name →
    globItemsMatch (globTokens p) name =
      globMatches_spec (fun a b => foldOrbit a == foldOrbit b) p name := by
  intro n
  induction n with
  | zero =>
    intro p name hlen _
    have : p = [] := List.length_eq_zero.mp (Nat.le_zero.mp hlen)
    subst this
    rw [globTokens, globItemsMatch, globMatches_spec]
  | succ n ih =>
    intro p name hlen hnl
    cases p with
    | nil => rw [globTokens, globItemsMatch, globMatches_spec]
    | cons c ps =>
      have hlen1 : ps.length ≤ n := by simp at hlen; omega
      rcases pattern_shape c ps with ⟨rfl, qs, rfl⟩ | ⟨rfl, hps⟩ | hc
      · rw [globTokens_two_stars, globItemsMatch, globMatches_spec,
          takeWhile_no_newline name hnl, ← inits_drop_eq_tails, List.any_map]
        apply any_congr_mem
        intro taken _
        exact ih qs _ (by simp at hlen1; omega)
          (fun hh => hnl (List.mem_of_mem_drop hh))
      · rw [globTokens_one_star ps hps, globItemsMatch, globMatches_spec]
        · apply any_congr_mem
          intro taken _
          exact ih ps _ hlen1 (fun hh => hnl (List.mem_of_mem_drop hh))
        · intro qs hqs
          rw [hqs] at hps
          exact hps rfl
      · rw [globTokens_char c ps hc]
        cases name with
        | nil =>
          rw [globItemsMatch, globMatches_spec]
          · intro qs hh
            exact absurd hh hc
          · exact hc
        | cons x xs =>
          rw [globItemsMatch, globMatches_spec]
          · rw [ih ps xs hlen1 (fun hh => hnl (List.mem_cons_of_mem _ hh))]
          · intro qs hh
            exact absurd hh hc
          · exact hc

/-- The text of the expression that `matchPath` builds for a pattern without a backslash: the
items of the pattern, between `(?i:^` and `$)`. -/
theorem glob_expression_data (pattern : String) (hno : '\\' ∉ pattern.data) :
    ("(?i:" ++ ("^" ++ stringsReplaceAll (stringsReplaceAll (regexpQuoteMeta pattern)
        "\\*\\*" ".*") "\\*" "[^/]*" ++ "$") ++ ")").data =
      ['(', '?', 'i', ':', '^'] ++
        ((globTokens pattern.data).flatMap renderItem ++ ['$', ')']) := by
  have hq : (regexpQuoteMeta pattern).data = pattern.data.flatMap quoteChar := rfl
  have h1 : (stringsReplaceAll (regexpQuoteMeta pattern) "\\*\\*" ".*").data =
      (globTokens pattern.data).flatMap renderQuoted := by
    have := replace_stars_tokens pattern.data.length pattern.data (Nat.le_refl _) hno
    rw [← this, ← hq]
    rfl
  have h2 : (stringsReplaceAll (stringsReplaceAll (regexpQuoteMeta pattern)
      "\\*\\*" ".*") "\\*" "[^/]*").data = (globTokens pattern.data).flatMap renderItem := by
    have := replace_star_tokens (globTokens pattern.data)
      (globTokens_plain pattern.data.length pattern.data (Nat.le_refl _) hno)
    rw [← this, ← h1]
    rfl
  simp only [String.data_append, h2]
  simp

/-- With the model of `regexp`, on a pattern that holds `**` and no backslash, `matchPath`
reports no error and matches the items of the pattern against the whole name. -/
theorem matchPath_double_star (h : Host) (lib : PathLib) (pattern name : String)
    (hcompile : h.Compile = globCompile) (hslash : h.ToSlash pattern = pattern)
    (hstars : stringsContains pattern "**" = true) (hno : '\\' ∉ pattern.data) :
    matchPath h lib pattern name =
      (globItemsMatch (globTokens pattern.data) name.data, none) := by
  unfold matchPath
  simp only [hslash, hstars, if_true]
  unfold regexpMatchString
  rw [hcompile]
  unfold globCompile
  rw [glob_expression_data pattern hno]
  have hpre : (['(', '?', 'i', ':', '^'] : List Char).isPrefixOf
      (['(', '?', 'i', ':', '^'] ++
        ((globTokens pattern.data).flatMap renderItem ++ ['$', ')'])) = true := by
    simp [List.isPrefixOf]
  rw [if_pos hpre]
  have hdrop : (['(', '?', 'i', ':', '^'] ++
      ((globTokens pattern.data).flatMap renderItem ++ ['$', ')'])).drop 5 =
      (globTokens pattern.data).flatMap renderItem ++ ['$', ')'] := rfl
  rw [hdrop]
  have hparse : parseGlobItems ((globTokens pattern.data).flatMap renderItem ++ ['$', ')']) =
      some (globTokens pattern.data) := by
    unfold parseGlobItems
    apply parseGlobFuel_tokens
    · have hlen : (globTokens pattern.data).length ≤
          ((globTokens pattern.data).flatMap renderItem).length := by
        generalize globTokens pattern.data = ts
        induction ts with
        | nil => simp
        | cons item rest ih =>
          rw [List.flatMap_cons, List.length_append, List.length_cons]
          have : 1 ≤ (renderItem item).length := by
            cases item with
            | lit c =>
              simp only [renderItem, quoteChar]
              split <;> simp
            | anySeq => simp [renderItem]
            | segSeq => simp [renderItem]
          omega
      rw [List.length_append]
      simp only [List.length_cons, List.length_nil]
      omega
    · exact globTokens_plain pattern.data.length pattern.data (Nat.le_refl _) hno
  rw [hparse]
  simp only [Option.map_some']
  by_cases hm : globItemsMatch (globTokens pattern.data) name.data = true
  · simp [hm]
  · simp [hm]

/-- With the model of `regexp`, on a pattern that holds `**` and no backslash and a name
without a newline, `matchPath` decides the glob semantics of the specification. -/
theorem matchPath_double_star_spec (h : Host) (lib : PathLib) (pattern name : String)
    (hcompile : h.Compile = globCompile) (hslash : h.ToSlash pattern = pattern)
    (hstars : stringsContains pattern "**" = true) (hno : '\\' ∉ pattern.data)
    (hnl : '\n' ∉ name.data) :
    matchPath h lib pattern name =
      (globMatches_spec (fun a b => foldOrbit a == foldOrbit b) pattern.data name.data,
        none) := by
  rw [matchPath_double_star h lib pattern name hcompile hslash hstars hno,
    globItemsMatch_tokens pattern.data.length pattern.data name.data (Nat.le_refl _) hnl]

/-! ### The claims on glob patterns, errors and order -/

/-- C21 (general glob semantics), evaluated at a failing input: the pattern `**/*.go` reaches
the general glob class, the indexed path `my\ndir/file.go`, whose directory name holds a
newline, matches the whole pattern when `**` stands for any sequence of characters, and yet
`matchPath` reports no match and `FindFiles` does not return the path: `**` becomes `.*` in
the regular expression, and `.` does not match a newline. -/
theorem C21_double_star_stops_at_newline :
    isGeneralGlob "**/*.go" = true ∧
      "my\ndir/file.go" ∈ newlineIndex.Files ∧
      globMatches_spec (fun a b => foldOrbit a == foldOrbit b) "**/*.go".data
        "my\ndir/file.go".data = true ∧
      matchPath globHost demoLib "**/*.go" "my\ndir/file.go" = (false, none) ∧
      FindFiles globHost demoLib newlineIndex "**/*.go" =
        some (["/proj/src/app/Main.GO"], none) := by
  decide

/-- C22: on a file index whose positions are valid, `FindFiles` returns with a nil error for
every pattern; for a pattern of the general glob class every returned path is one that
`matchPath` accepted without error, so a pattern that the matcher rejects as malformed (an
error for every indexed path) yields zero matches and a nil error. -/
theorem C22_never_an_error (h : Host) (lib : PathLib) (index : FileIndex) (pattern : String)
    (hv : PositionsValid index) :
    ∃ res, FindFiles h lib index pattern = some (res, none) ∧
      (isGeneralGlob pattern = true →
        (∀ p ∈ res, ∃ f ∈ index.Files,
          matchPath h lib pattern f = (true, none) ∧ p = lib.Join index.RootDir f) ∧
        ((∀ f ∈ index.Files, (matchPath h lib pattern f).2 ≠ none) → res = [])) := by
  obtain ⟨res, hres⟩ := FindFiles_returns h lib index hv pattern
  refine ⟨res, hres, ?_⟩
  intro hgen
  rw [FindFiles_general h lib index pattern hgen] at hres
  have hres2 : res = (index.Files.filter (globAccepts h lib pattern)).map
      (lib.Join index.RootDir) := by
    have := Option.some.inj hres
    exact (congrArg Prod.fst this).symm
  constructor
  · intro p hp
    rw [hres2, List.mem_map] at hp
    obtain ⟨f, hf, rfl⟩ := hp
    rw [List.mem_filter] at hf
    refine ⟨f, hf.1, ?_, rfl⟩
    have hacc := hf.2
    unfold globAccepts at hacc
    rcases hm : matchPath h lib pattern f with ⟨matched, err⟩
    rw [hm] at hacc
    simp only [Bool.and_eq_true, Option.isNone_iff_eq_none] at hacc
    rw [hacc.1, hacc.2]
  · intro hbad
    rw [hres2]
    have hnone : index.Files.filter (globAccepts h lib pattern) = [] := by
      rw [List.filter_eq_nil_iff]
      intro f hf hacc
      unfold globAccepts at hacc
      rcases hm : matchPath h lib pattern f with ⟨matched, err⟩
      rw [hm] at hacc
      simp only [Bool.and_eq_true, Option.isNone_iff_eq_none] at hacc
      have := hbad f hf
      rw [hm] at this
      exact this hacc.1
    rw [hnone]
    rfl

/-- C22 on the concrete project: the pattern `src/[ab`, with an unclosed bracket, is rejected
by the matcher for every path and yields no match and a nil error. -/
theorem C22_witness :
    PositionsValid demoIndex ∧ isGeneralGlob "src/[ab" = true ∧
      (∀ f ∈ demoIndex.Files, (matchPath demoHost demoLib "src/[ab" f).2 ≠ none) ∧
      FindFiles demoHost demoLib demoIndex "src/[ab" = some ([], none) := by
  have hv := (indexOfPaths_exact demoLib "/proj" demoPaths).2.2
  obtain ⟨res, hrun, hgen⟩ := C22_never_an_error demoHost demoLib demoIndex "src/[ab" hv
  have hbad : ∀ f ∈ demoIndex.Files, (matchPath demoHost demoLib "src/[ab" f).2 ≠ none := by
    decide
  have hnil := (hgen (by decide)).2 hbad
  rw [hnil] at hrun
  exact ⟨hv, by decide, hbad, hrun⟩

theorem collectFiles_sublist (lib : PathLib) (index : FileIndex) (keep : String → Bool)
    (res : List String) (hrun : collectFiles lib index keep index.Files [] = res) :
    ∃ fs : List String, fs.Sublist index.Files ∧ res = fs.map (lib.Join index.RootDir) := by
  rw [collectFiles_eq] at hrun
  refine ⟨index.Files.filter keep, List.filter_sublist _, ?_⟩
  simpa using hrun.symm

/-- C23: on a file index whose position lists are in strictly increasing order, the list that
`FindFiles` returns, for a pattern of any class, is the list of the absolute forms of a
subsequence of the path sequence of the index: the paths come in the order of the index. -/
theorem C23_matches_in_index_order (h : Host) (lib : PathLib) (index : FileIndex)
    (pattern : String) (res : List String) (err : Option GoError)
    (hinc : PositionsIncreasing index)
    (hrun : FindFiles h lib index pattern = some (res, err)) :
    ∃ fs : List String, fs.Sublist index.Files ∧ res = fs.map (lib.Join index.RootDir) := by
  unfold FindFiles at hrun
  split at hrun
  · simp only at hrun
    rcases hc : collectAt lib index (fun f => lib.EqualFold f (stringsTrimPrefix pattern "/"))
        (positionsAt index.NameMap (lib.ToLower (pathBase (stringsTrimPrefix pattern "/"))))
        [] with _ | r
    · rw [hc] at hrun
      cases hrun
    · rw [hc] at hrun
      obtain ⟨fs, hfs, hr⟩ := collectAt_sublist lib index _ _ r (hinc.1 _) hc
      refine ⟨fs, hfs, ?_⟩
      rw [← hr]
      exact (congrArg Prod.fst (Option.some.inj hrun)).symm
  · split at hrun
    · rcases hc : collectAt lib index (fun _ => true)
          (positionsAt index.NameMap (lib.ToLower pattern)) [] with _ | r
      · rw [hc] at hrun
        cases hrun
      · rw [hc] at hrun
        obtain ⟨fs, hfs, hr⟩ := collectAt_sublist lib index _ _ r (hinc.1 _) hc
        refine ⟨fs, hfs, ?_⟩
        rw [← hr]
        exact (congrArg Prod.fst (Option.some.inj hrun)).symm
    · split at hrun
      · simp only at hrun
        rcases hc : collectAt lib index (fun _ => true)
            (positionsAt index.ExtensionMap (lib.ToLower (sliceFrom pattern 1))) [] with _ | r
        · rw [hc] at hrun
          cases hrun
        · rw [hc] at hrun
          obtain ⟨fs, hfs, hr⟩ := collectAt_sublist lib index _ _ r (hinc.2 _) hc
          refine ⟨fs, hfs, ?_⟩
          rw [← hr]
          exact (congrArg Prod.fst (Option.some.inj hrun)).symm
      · split at hrun
        · simp only at hrun
          exact collectFiles_sublist lib index _ res
            (congrArg Prod.fst (Option.some.inj hrun))
        · exact collectFiles_sublist lib index _ res
            (congrArg Prod.fst (Option.some.inj hrun))

/-- C23 on the concrete project: the two files with the extension `.go` come in the order of
the index. -/
theorem C23_witness :
    PositionsIncreasing demoIndex ∧
      FindFiles demoHost demoLib demoIndex "*.Go" =
        some (["/proj/src/App/Main.GO", "/proj/SRC/main.go"], none) ∧
      ∃ fs : List String, fs.Sublist demoIndex.Files ∧
        ["/proj/src/App/Main.GO", "/proj/SRC/main.go"] =
          fs.map (demoLib.Join demoIndex.RootDir) :=
  ⟨indexOfPaths_increasing demoLib "/proj" demoPaths, by decide,
    C23_matches_in_index_order demoHost demoLib demoIndex "*.Go" _ none
      (indexOfPaths_increasing demoLib "/proj" demoPaths) (by decide)⟩

/-! ### The profiling run: workers and the walk -/

theorem skipsDir_iff (name : String) :
    skipsDir name = true ↔ stringsHasPrefix name "." = true ∧ name ≠ "." := by
  unfold skipsDir
  simp

/-- The walk does not descend into a directory below the root that the callback skips:
nothing below it is indexed or sent to the workers. -/
theorem walkEntry_skipped (lib : PathLib) (maps : LangMaps) (dirPath rel name : String)
    (entries : List DirTree) (st : WalkState) (hskip : skipsDir name = true) :
    walkEntry lib maps dirPath rel (DirTree.dir name entries) st = st := by
  rw [walkEntry, if_pos hskip]

/-- The walk descends into every other directory below the root. -/
theorem walkEntry_descends (lib : PathLib) (maps : LangMaps) (dirPath rel name : String)
    (entries : List DirTree) (st : WalkState) (hskip : skipsDir name = false) :
    walkEntry lib maps dirPath rel (DirTree.dir name entries) st =
      walkEntries lib maps (lib.Join dirPath name) (relJoin rel name) entries st := by
  rw [walkEntry, hskip]
  simp

/-- The walk from a root whose last path element begins with `.` ends at once. -/
theorem walkProject_skipped (lib : PathLib) (maps : LangMaps) (absPath : String)
    (entries : List DirTree) (hskip : skipsDir (pathBase absPath) = true) :
    (walkProject lib maps absPath entries).fileIndex = NewFileIndex absPath ∧
      (walkProject lib maps absPath entries).tasks = [] := by
  unfold walkProject
  simp only [hskip, if_true, and_self]

/-- C24 (floor of one worker), evaluated at the failing inputs: with one, two or three CPUs the
number of workers, `runtime.NumCPU() / 4`, is zero, so the loop starts no worker; at least one
worker is started exactly from four CPUs on. -/
theorem C24_no_worker_below_four_cpus :
    workers 1 = 0 ∧ workers 2 = 0 ∧ workers 3 = 0 ∧ ∀ n, 1 ≤ workers n ↔ 4 ≤ n := by
  refine ⟨rfl, rfl, rfl, ?_⟩
  intro n
  unfold workers
  omega

/-- C25 (hidden-directory pruning), evaluated at a failing input: the walk of
`AnalyzeCodeProfile` from the root `/home/u/.dotfiles` runs the callback on the root under the
name `.dotfiles`, which begins with `.` and is not `.`, so the root is skipped: no file is
indexed and no task is sent, while the same entries under the root `/home/u/proj` are walked
(and their hidden directories pruned). -/
theorem C25_hidden_root_is_pruned :
    pathBase "/home/u/.dotfiles" = ".dotfiles" ∧
      skipsDir (pathBase "/home/u/.dotfiles") = true ∧
      (walkProject demoLib langMaps "/home/u/.dotfiles" demoEntries).fileIndex.Files = [] ∧
      (walkProject demoLib langMaps "/home/u/.dotfiles" demoEntries).tasks = [] ∧
      (walkProject demoLib langMaps "/home/u/proj" demoEntries).fileIndex.Files =
        ["main.go", "src/App.TSX", "src/notes", "Makefile"] ∧
      (walkProject demoLib langMaps "/home/u/proj" demoEntries).tasks.map
          (fun t => (t.Path, t.LangDef.Name)) =
        [("/home/u/proj/main.go", "Go"), ("/home/u/proj/src/App.TSX", "TSX"),
          ("/home/u/proj/Makefile", "Makefile")] := by
  decide

/-! ### The collector -/

theorem lookup_mapSet {β : Type} (m : List (String × β)) (k key : String) (v : β) :
    (mapSet m k v).lookup key = if key = k then some v else m.lookup key := by
  unfold mapSet
  by_cases hk : key = k
  · subst hk
    simp [List.lookup_cons]
  · have hb : (key == k) = false := by simpa using hk
    rw [if_neg hk, List.lookup_cons, hb]
    exact lookup_filter_ne k key hk m

theorem collectResult_error (st : Collected) (res : AnalysisResult) (herr : res.Err ≠ none) :
    collectResult st res = { stats := st.stats, errorFiles := st.errorFiles + 1 } := by
  unfold collectResult
  have : res.Err.isSome = true := by
    cases hres : res.Err with
    | none => exact absurd hres herr
    | some e => rfl
  rw [if_pos this]

theorem collectResult_ok (st : Collected) (res : AnalysisResult) (herr : res.Err = none) :
    collectResult st res =
      { stats := mapSet st.stats res.LangName (summaryAfter st res),
        errorFiles := st.errorFiles } := by
  unfold collectResult summaryAfter
  have : ¬ res.Err.isSome = true := by rw [herr]; simp
  rw [if_neg this]
  cases List.lookup res.LangName st.stats <;> simp

theorem summaryAfter_congr (a b : Collected) (res : AnalysisResult)
    (hsame : a.stats.lookup res.LangName = b.stats.lookup res.LangName) :
    summaryAfter a res = summaryAfter b res := by
  unfold summaryAfter
  rw [hsame]

theorem sameSummaries_refl (a : Collected) : SameSummaries a a :=
  ⟨rfl, fun _ => rfl⟩

theorem sameSummaries_trans {a b c : Collected} (hab : SameSummaries a b)
    (hbc : SameSummaries b c) : SameSummaries a c :=
  ⟨hab.1.trans hbc.1, fun name => (hab.2 name).trans (hbc.2 name)⟩

/-- A result leaves equivalent states equivalent. -/
theorem sameSummaries_step (a b : Collected) (res : AnalysisResult)
    (hsame : SameSummaries a b) :
    SameSummaries (collectResult a res) (collectResult b res) := by
  by_cases herr : res.Err = none
  · rw [collectResult_ok a res herr, collectResult_ok b res herr]
    refine ⟨hsame.1, ?_⟩
    intro name
    simp only [lookup_mapSet]
    rw [summaryAfter_congr a b res (hsame.2 _), hsame.2 name]
  · rw [collectResult_error a res herr, collectResult_error b res herr]
    exact ⟨by simp only [hsame.1], hsame.2⟩

/-- Two results may reach the collector in either order. -/
theorem sameSummaries_swap (st : Collected) (x y : AnalysisResult) :
    SameSummaries (collectResult (collectResult st x) y)
      (collectResult (collectResult st y) x) := by
  by_cases hx : x.Err = none
  · by_cases hy : y.Err = none
    · rw [collectResult_ok st x hx, collectResult_ok st y hy, collectResult_ok _ y hy,
        collectResult_ok _ x hx]
      refine ⟨rfl, ?_⟩
      intro name
      simp only [lookup_mapSet]
      by_cases hk : x.LangName = y.LangName
      · have hxy : summaryAfter
            { stats := mapSet st.stats x.LangName (summaryAfter st x),
              errorFiles := st.errorFiles } y =
            summaryAfter
            { stats := mapSet st.stats y.LangName (summaryAfter st y),
              errorFiles := st.errorFiles } x := by
          unfold summaryAfter
          simp only [lookup_mapSet, hk, if_true]
          cases List.lookup y.LangName st.stats with
          | none =>
            simp only [LangSummary.mk.injEq]
            refine ⟨trivial, ?_, ?_, ?_, trivial⟩ <;> omega
          | some s0 =>
            simp only [LangSummary.mk.injEq]
            refine ⟨trivial, ?_, ?_, ?_, trivial⟩ <;> omega
        rw [hxy, hk]
        by_cases hn : name = y.LangName
        · simp [hn]
        · simp [hn]
      · have hk2 : ¬ y.LangName = x.LangName := fun hh => hk hh.symm
        have h1 : summaryAfter
            { stats := mapSet st.stats x.LangName (summaryAfter st x),
              errorFiles := st.errorFiles } y = summaryAfter st y := by
          apply summaryAfter_congr
          simp only [lookup_mapSet, if_neg hk2]
        have h2 : summaryAfter
            { stats := mapSet st.stats y.LangName (summaryAfter st y),
              errorFiles := st.errorFiles } x = summaryAfter st x := by
          apply summaryAfter_congr
          simp only [lookup_mapSet, if_neg hk]
        rw [h1, h2]
        by_cases hn : name = y.LangName
        · have hn2 : ¬ name = x.LangName := by rw [hn]; exact hk2
          simp [hn, hk2]
        · simp [hn]
    · rw [collectResult_ok st x hx, collectResult_error st y hy, collectResult_error _ y hy,
        collectResult_ok _ x hx]
      exact ⟨rfl, fun _ => rfl⟩
  · by_cases hy : y.Err = none
    · rw [collectResult_error st x hx, collectResult_ok st y hy, collectResult_ok _ y hy,
        collectResult_error _ x hx]
      exact ⟨rfl, fun _ => rfl⟩
    · rw [collectResult_error st x hx, collectResult_error st y hy,
        collectResult_error _ y hy, collectResult_error _ x hx]
      exact ⟨rfl, fun _ => rfl⟩

theorem sameSummaries_foldl (results : List AnalysisResult) :
    ∀ a b : Collected, SameSummaries a b →
    SameSummaries (results.foldl collectResult a) (results.foldl collectResult b) := by
  induction results with
  | nil => intro a b hsame; exact hsame
  | cons r rest ih =>
    intro a b hsame
    exact ih _ _ (sameSummaries_step a b r hsame)

/-- The fold of the collector over two lists of results that are permutations of each other,
from equivalent states, ends in equivalent states. -/
theorem sameSummaries_perm {results results2 : List AnalysisResult}
    (hperm : results.Perm results2) :
    ∀ a b : Collected, SameSummaries a b →
    SameSummaries (results.foldl collectResult a) (results2.foldl collectResult b) := by
  induction hperm with
  | nil => intro a b hsame; exact hsame
  | cons x _ ih =>
    intro a b hsame
    exact ih _ _ (sameSummaries_step a b x hsame)
  | swap x y l =>
    intro a b hsame
    simp only [List.foldl_cons]
    exact sameSummaries_foldl l _ _
      (sameSummaries_trans (sameSummaries_swap a y x)
        (sameSummaries_step _ _ y (sameSummaries_step a b x hsame)))
  | trans _ _ ih1 ih2 =>
    intro a b hsame
    exact sameSummaries_trans (ih1 a a (sameSummaries_refl a)) (ih2 a b hsame)

theorem summaryAfter_eq (st : Collected) (res : AnalysisResult) :
    summaryAfter st res =
      { Name := (summaryOf st.stats res.LangName).Name,
        Code := (summaryOf st.stats res.LangName).Code + res.Stats.Code,
        Comment := (summaryOf st.stats res.LangName).Comment + res.Stats.Comment,
        Blank := (summaryOf st.stats res.LangName).Blank + res.Stats.Blank,
        Count := (summaryOf st.stats res.LangName).Count + 1 } := by
  unfold summaryAfter summaryOf
  cases List.lookup res.LangName st.stats <;> simp

theorem totalCount_filter (k : String) :
    ∀ m : List (String × LangSummary), (m.map Prod.fst).Nodup →
    totalCount (m.filter (fun p => p.1 != k)) + (summaryOf m k).Count = totalCount m := by
  intro m
  induction m with
  | nil => intro _; simp [totalCount, summaryOf]
  | cons a rest ih =>
    intro hnd
    obtain ⟨ak, av⟩ := a
    rw [List.map_cons, List.nodup_cons] at hnd
    have ihr := ih hnd.2
    by_cases hak : ak = k
    · subst hak
      have hfilter : rest.filter (fun p => p.1 != ak) = rest := by
        rw [List.filter_eq_self]
        intro p hp
        have : p.1 ≠ ak := by
          intro hh
          have hm : p.1 ∈ rest.map Prod.fst := List.mem_map_of_mem Prod.fst hp
          rw [hh] at hm
          exact hnd.1 hm
        simpa using this
      have hf : ((ak, av).1 != ak) = false := by simp
      rw [List.filter_cons, hf]
      simp only [Bool.false_eq_true, if_false]
      rw [hfilter]
      simp [totalCount, summaryOf, List.lookup_cons]
      omega
    · have hf : ((ak, av).1 != k) = true := by simpa using hak
      have hb : (k == ak) = false := by
        simp only [beq_eq_false_iff_ne, ne_eq]
        exact fun hh => hak hh.symm
      have hso : summaryOf ((ak, av) :: rest) k = summaryOf rest k := by
        unfold summaryOf
        rw [List.lookup_cons, hb]
      rw [List.filter_cons, hf, hso]
      simp only [if_true]
      have h1 : totalCount ((ak, av) :: rest.filter (fun p => p.1 != k)) =
          av.Count + totalCount (rest.filter (fun p => p.1 != k)) := by
        simp [totalCount]
      have h2 : totalCount ((ak, av) :: rest) = av.Count + totalCount rest := by
        simp [totalCount]
      rw [h1, h2]
      omega

theorem mapSet_keys_nodup {β : Type} (m : List (String × β)) (k : String) (v : β)
    (hnd : (m.map Prod.fst).Nodup) : ((mapSet m k v).map Prod.fst).Nodup := by
  unfold mapSet
  rw [List.map_cons, List.nodup_cons]
  constructor
  · intro hmem
    rw [List.mem_map] at hmem
    obtain ⟨p, hp, hpk⟩ := hmem
    rw [List.mem_filter] at hp
    have := hp.2
    simp only [bne_iff_ne, ne_eq] at this
    exact this hpk
  · exact List.Nodup.sublist ((List.filter_sublist _).map Prod.fst) hnd

/-- Each result adds one to the sum of the error count and the file counts. -/
theorem collectResult_total (st : Collected) (res : AnalysisResult)
    (hnd : (st.stats.map Prod.fst).Nodup) :
    ((collectResult st res).stats.map Prod.fst).Nodup ∧
      (collectResult st res).errorFiles + totalCount (collectResult st res).stats =
        st.errorFiles + totalCount st.stats + 1 := by
  by_cases herr : res.Err = none
  · rw [collectResult_ok st res herr]
    refine ⟨mapSet_keys_nodup _ _ _ hnd, ?_⟩
    have hf := totalCount_filter res.LangName st.stats hnd
    have hc : (summaryAfter st res).Count = (summaryOf st.stats res.LangName).Count + 1 := by
      rw [summaryAfter_eq]
    have hm : totalCount (mapSet st.stats res.LangName (summaryAfter st res)) =
        (summaryAfter st res).Count +
          totalCount (st.stats.filter (fun p => p.1 != res.LangName)) := by
      simp [mapSet, totalCount]
    simp only
    rw [hm, hc]
    omega
  · rw [collectResult_error st res herr]
    refine ⟨hnd, ?_⟩
    simp only
    omega

theorem collectResults_total (results : List AnalysisResult) :
    ∀ st : Collected, (st.stats.map Prod.fst).Nodup →
    (results.foldl collectResult st).errorFiles +
        totalCount (results.foldl collectResult st).stats =
      st.errorFiles + totalCount st.stats + results.length := by
  induction results with
  | nil => intro st _; simp
  | cons r rest ih =>
    intro st hnd
    obtain ⟨hnd2, hstep⟩ := collectResult_total st r hnd
    rw [List.foldl_cons, ih _ hnd2, hstep, List.length_cons]
    omega

/-! ### The claims on the collector -/

/-- C26: the fold of the collector over a list of results and over any permutation of it ends
with the same count of error files and, for every language name, the same summary (name, file
count, code, comment and blank totals) or none. -/
theorem C26_aggregation_order_independent (results results2 : List AnalysisResult)
    (hperm : results.Perm results2) :
    (collectResults results).errorFiles = (collectResults results2).errorFiles ∧
      ∀ name, (collectResults results).stats.lookup name =
        (collectResults results2).stats.lookup name :=
  sameSummaries_perm hperm _ _ (sameSummaries_refl _)

/-- C26 on the concrete results, taken in reverse order. -/
theorem C26_witness :
    demoResults.Perm demoResults.reverse ∧
      (collectResults demoResults).errorFiles = (collectResults demoResults.reverse).errorFiles ∧
      ∀ name, (collectResults demoResults).stats.lookup name =
        (collectResults demoResults.reverse).stats.lookup name :=
  ⟨(List.reverse_perm demoResults).symm,
    C26_aggregation_order_independent demoResults demoResults.reverse
      (List.reverse_perm demoResults).symm⟩

/-- C27: a result that carries an error adds one to the count of error files and leaves the map
of summaries as it is, whatever counts it carries; a result without error leaves the count of
error files as it is, puts under its language name the former summary of that language (or a
fresh one) with the file count grown by one and the code, comment and blank counts grown by
those of the result, and leaves the summary of every other language as it is. After the fold
over a list of results, the count of error files plus the sum of the file counts of the
summaries is the number of results. -/
theorem C27_every_result_counted_once (st : Collected) (res : AnalysisResult)
    (results : List AnalysisResult) :
    (res.Err ≠ none →
      collectResult st res = { stats := st.stats, errorFiles := st.errorFiles + 1 }) ∧
    (res.Err = none →
      (collectResult st res).errorFiles = st.errorFiles ∧
      (collectResult st res).stats.lookup res.LangName =
        some { Name := (summaryOf st.stats res.LangName).Name,
               Code := (summaryOf st.stats res.LangName).Code + res.Stats.Code,
               Comment := (summaryOf st.stats res.LangName).Comment + res.Stats.Comment,
               Blank := (summaryOf st.stats res.LangName).Blank + res.Stats.Blank,
               Count := (summaryOf st.stats res.LangName).Count + 1 } ∧
      ∀ name, name ≠ res.LangName →
        (collectResult st res).stats.lookup name = st.stats.lookup name) ∧
    (collectResults results).errorFiles + totalCount (collectResults results).stats =
      results.length := by
  refine ⟨collectResult_error st res, ?_, ?_⟩
  · intro herr
    rw [collectResult_ok st res herr]
    refine ⟨rfl, ?_, ?_⟩
    · simp only [lookup_mapSet, if_true]
      rw [summaryAfter_eq]
    · intro name hname
      simp only [lookup_mapSet, if_neg hname]
  · have := collectResults_total results { stats := [], errorFiles := 0 } (by simp)
    unfold collectResults
    rw [this]
    simp [totalCount]

/-- C27 on the concrete results: one error file and three counted files out of four
results. -/
theorem C27_witness :
    (collectResults demoResults).errorFiles = 1 ∧
      totalCount (collectResults demoResults).stats = 3 ∧
      (collectResults demoResults).errorFiles + totalCount (collectResults demoResults).stats =
        demoResults.length :=
  ⟨by decide, by decide,
    (C27_every_result_counted_once (collectResults [])
      (AnalysisResult.mk "Go" (FileStats.mk 0 0 0 0) none) demoResults).2.2⟩

/-! ### `convertToCodeProfile` -/

theorem summaries_loop (stats : List (String × LangSummary)) :
    ∀ acc : List LangSummary,
    stats.foldl (fun summaries entry => summaries ++ [entry.2]) acc =
      acc ++ stats.map Prod.snd := by
  induction stats with
  | nil => intro acc; simp
  | cons e rest ih =>
    intro acc
    rw [List.foldl_cons, ih]
    simp

/-- The value kept in `intBits` bits differs from the integer by a multiple of
`2 ^ intBits`. -/
theorem goInt_modEq (intBits : Nat) (x : Int) : goInt intBits x ≡ x [ZMOD 2 ^ intBits] := by
  unfold goInt
  have h := (Int.mod_modEq (x + 2 ^ (intBits - 1)) (2 ^ intBits)).sub_right
    (2 ^ (intBits - 1))
  simpa using h

theorem goInt_eq_of_modEq (intBits : Nat) (x y : Int) (h : x ≡ y [ZMOD 2 ^ intBits]) :
    goInt intBits x = goInt intBits y := by
  unfold goInt
  have h2 : (x + 2 ^ (intBits - 1)) % 2 ^ intBits = (y + 2 ^ (intBits - 1)) % 2 ^ intBits :=
    h.add_right _
  rw [h2]

/-- An integer that fits in `intBits` bits is kept as it is. -/
theorem goInt_of_fits (intBits : Nat) (hbits : 0 < intBits) (x : Int)
    (hlow : -2 ^ (intBits - 1) ≤ x) (hhigh : x < 2 ^ (intBits - 1)) :
    goInt intBits x = x := by
  unfold goInt
  have hpow : (2 : Int) ^ intBits = 2 * 2 ^ (intBits - 1) := by
    have hw : intBits = (intBits - 1) + 1 := by omega
    conv_lhs => rw [hw]
    rw [pow_succ]
    ring
  rw [Int.emod_eq_of_lt (by omega) (by omega)]
  omega

theorem goInt_of_nat_fits (intBits : Nat) (hbits : 0 < intBits) (n : Nat)
    (hn : n < 2 ^ (intBits - 1)) : goInt intBits (n : Int) = (n : Int) := by
  have hpos : (0 : Int) ≤ 2 ^ (intBits - 1) := by positivity
  apply goInt_of_fits intBits hbits
  · omega
  · exact_mod_cast hn

theorem goInt_idem (intBits : Nat) (x : Int) :
    goInt intBits (goInt intBits x) = goInt intBits x :=
  goInt_eq_of_modEq intBits _ _ (goInt_modEq intBits x)

theorem le_sum_of_mem (l : List Nat) (x : Nat) (hx : x ∈ l) : x ≤ l.sum := by
  induction l with
  | nil => simp at hx
  | cons a rest ih =>
    rw [List.sum_cons]
    rcases List.mem_cons.1 hx with h | h
    · omega
    · have := ih h
      omega

/-- The second loop of `convertToCodeProfile`, from a profile whose totals are `int` values:
the language infos are appended in order and each total is the `int` value of the total before
the loop plus the sum over the summaries. -/
theorem addLangInfo_loop (intBits : Nat) (summaries : List LangSummary) :
    ∀ profile : CodeProfile,
    goInt intBits profile.TotalFiles = profile.TotalFiles →
    goInt intBits profile.TotalLines = profile.TotalLines →
    (summaries.foldl (addLangInfo intBits) profile).LanguageInfos =
        profile.LanguageInfos ++ summaries.map (langInfoOf intBits) ∧
      (summaries.foldl (addLangInfo intBits) profile).TotalFiles =
        goInt intBits (profile.TotalFiles + ((summaries.map fun s => s.Count).sum : Nat)) ∧
      (summaries.foldl (addLangInfo intBits) profile).TotalLines =
        goInt intBits (profile.TotalLines +
          ((summaries.map fun s => s.Code + s.Comment + s.Blank).sum : Nat)) ∧
      (summaries.foldl (addLangInfo intBits) profile).ErrorFiles = profile.ErrorFiles ∧
      (summaries.foldl (addLangInfo intBits) profile).Path = profile.Path := by
  induction summaries with
  | nil =>
    intro profile hf hl
    simp [hf, hl]
  | cons s rest ih =>
    intro profile _ _
    have hfiles : (addLangInfo intBits profile s).TotalFiles =
        goInt intBits (profile.TotalFiles + goInt intBits s.Count) := rfl
    have hlines : (addLangInfo intBits profile s).TotalLines =
        goInt intBits (profile.TotalLines +
          goInt intBits (goInt intBits (goInt intBits s.Code + goInt intBits s.Comment) +
            goInt intBits s.Blank)) := rfl
    have hinfos : (addLangInfo intBits profile s).LanguageInfos =
        profile.LanguageInfos ++ [langInfoOf intBits s] := rfl
    obtain ⟨h1, h2, h3, h4, h5⟩ := ih (addLangInfo intBits profile s)
      (by rw [hfiles, goInt_idem]) (by rw [hlines, goInt_idem])
    rw [List.foldl_cons, h1, h2, h3, h4, h5, hfiles, hlines, hinfos]
    refine ⟨by simp, ?_, ?_, rfl, rfl⟩
    · apply goInt_eq_of_modEq
      simp only [List.map_cons, List.sum_cons, Nat.cast_add]
      have e := ((goInt_modEq intBits (profile.TotalFiles + goInt intBits s.Count)).trans
        ((Int.ModEq.refl profile.TotalFiles).add (goInt_modEq intBits s.Count))).add_right
        (((rest.map fun s => s.Count).sum : Nat) : Int)
      rw [add_assoc] at e
      exact e
    · apply goInt_eq_of_modEq
      simp only [List.map_cons, List.sum_cons, Nat.cast_add]
      have einner : goInt intBits (goInt intBits (goInt intBits s.Code +
          goInt intBits s.Comment) + goInt intBits s.Blank) ≡
          (s.Code : Int) + s.Comment + s.Blank [ZMOD 2 ^ intBits] :=
        (goInt_modEq intBits _).trans
          (((goInt_modEq intBits _).trans
            ((goInt_modEq intBits s.Code).add (goInt_modEq intBits s.Comment))).add
            (goInt_modEq intBits s.Blank))
      have e := ((goInt_modEq intBits _).trans
        ((Int.ModEq.refl profile.TotalLines).add einner)).add_right
        (((rest.map fun s => s.Code + s.Comment + s.Blank).sum : Nat) : Int)
      rw [add_assoc] at e
      exact e

/-- C28: for every map of summaries, in whatever order its entries are met, and every width
of `int`, `convertToCodeProfile` produces one language info per summary, with the name of the
summary and its file count and code, comment and blank totals as `int` values; `TotalFiles`
is the `int` value of the sum of the file counts, `TotalLines` the `int` value of the sum of
code + comment + blank over the summaries, and `ErrorFiles` is the error count it was given,
which does not enter `TotalFiles`. When the two sums fit in an `int`, the counts of the
language infos are those of the summaries and the totals are the two sums. -/
theorem C28_output_assembly (intBits : Nat) (classify : Classifier) (absPath : String)
    (stats : List (String × LangSummary)) (errorFiles : Int) (hbits : 0 < intBits) :
    (convertToCodeProfile intBits classify absPath stats errorFiles).LanguageInfos =
        stats.map (fun entry => langInfoOf intBits entry.2) ∧
      (convertToCodeProfile intBits classify absPath stats errorFiles).TotalFiles =
        goInt intBits ((stats.map fun entry => entry.2.Count).sum : Nat) ∧
      (convertToCodeProfile intBits classify absPath stats errorFiles).TotalLines =
        goInt intBits
          ((stats.map fun entry => entry.2.Code + entry.2.Comment + entry.2.Blank).sum : Nat) ∧
      (convertToCodeProfile intBits classify absPath stats errorFiles).ErrorFiles =
        errorFiles ∧
      (convertToCodeProfile intBits classify absPath stats errorFiles).Path = absPath ∧
      ((stats.map fun entry => entry.2.Count).sum < 2 ^ (intBits - 1) →
        (stats.map fun entry => entry.2.Code + entry.2.Comment + entry.2.Blank).sum <
          2 ^ (intBits - 1) →
        (convertToCodeProfile intBits classify absPath stats errorFiles).LanguageInfos =
            stats.map (fun entry => exactLangInfo entry.2) ∧
          (convertToCodeProfile intBits classify absPath stats errorFiles).TotalFiles =
            ((stats.map fun entry => entry.2.Count).sum : Nat) ∧
          (convertToCodeProfile intBits classify absPath stats errorFiles).TotalLines =
            ((stats.map fun entry =>
              entry.2.Code + entry.2.Comment + entry.2.Blank).sum : Nat)) := by
  have hzero : goInt intBits 0 = 0 :=
    goInt_of_nat_fits intBits hbits 0 (Nat.pos_pow_of_pos _ (by decide))
  have hloop := addLangInfo_loop intBits (stats.map Prod.snd)
    { Path := absPath, TotalFiles := 0, TotalLines := 0, ErrorFiles := errorFiles,
      FrontendLanguages := [], BackendLanguages := [], DesktopLanguages := [],
      OtherLanguages := [], Languages := [], ExpandLanguages := [], LanguageInfos := [] }
    hzero hzero
  obtain ⟨h1, h2, h3, h4, h5⟩ := hloop
  have g1 : (convertToCodeProfile intBits classify absPath stats errorFiles).LanguageInfos =
      stats.map (fun entry => langInfoOf intBits entry.2) := by
    unfold convertToCodeProfile
    simp only [summaries_loop, List.nil_append]
    rw [h1, List.map_map]
    rfl
  have g2 : (convertToCodeProfile intBits classify absPath stats errorFiles).TotalFiles =
      goInt intBits ((stats.map fun entry => entry.2.Count).sum : Nat) := by
    unfold convertToCodeProfile
    simp only [summaries_loop, List.nil_append]
    rw [h2, List.map_map]
    simp only [Int.zero_add]
    rfl
  have g3 : (convertToCodeProfile intBits classify absPath stats errorFiles).TotalLines =
      goInt intBits
        ((stats.map fun entry => entry.2.Code + entry.2.Comment + entry.2.Blank).sum : Nat) := by
    unfold convertToCodeProfile
    simp only [summaries_loop, List.nil_append]
    rw [h3, List.map_map]
    simp only [Int.zero_add]
    rfl
  refine ⟨g1, g2, g3, ?_, ?_, ?_⟩
  · unfold convertToCodeProfile
    simp only [summaries_loop, List.nil_append]
    rw [h4]
  · unfold convertToCodeProfile
    simp only [summaries_loop, List.nil_append]
    rw [h5]
  · intro hfiles hlines
    refine ⟨?_, ?_, ?_⟩
    · rw [g1]
      apply List.map_congr_left
      intro entry hentry
      have hc : entry.2.Count ≤ (stats.map fun entry => entry.2.Count).sum :=
        le_sum_of_mem _ _ (List.mem_map.mpr ⟨entry, hentry, rfl⟩)
      have hl : entry.2.Code + entry.2.Comment + entry.2.Blank ≤
          (stats.map fun entry => entry.2.Code + entry.2.Comment + entry.2.Blank).sum :=
        le_sum_of_mem _ _ (List.mem_map.mpr ⟨entry, hentry, rfl⟩)
      unfold langInfoOf exactLangInfo
      rw [goInt_of_nat_fits intBits hbits entry.2.Count (by omega),
        goInt_of_nat_fits intBits hbits entry.2.Code (by omega),
        goInt_of_nat_fits intBits hbits entry.2.Comment (by omega),
        goInt_of_nat_fits intBits hbits entry.2.Blank (by omega)]
    · rw [g2, goInt_of_nat_fits intBits hbits _ hfiles]
    · rw [g3, goInt_of_nat_fits intBits hbits _ hlines]

/-- The totals of the profile of the concrete results with an `int` of 64 bits: the sums fit,
and the totals are the sums. -/
theorem C28_witness :
    0 < 64 ∧
      (convertToCodeProfile 64 demoClassifier "/home/u/proj" (collectResults demoResults).stats
        1).TotalFiles =
        goInt 64 (((collectResults demoResults).stats.map fun entry => entry.2.Count).sum : Nat) ∧
      (convertToCodeProfile 64 demoClassifier "/home/u/proj" (collectResults demoResults).stats
        1).ErrorFiles = 1 :=
  ⟨by decide,
    (C28_output_assembly 64 demoClassifier "/home/u/proj" (collectResults demoResults).stats 1
      (by decide)).2.1,
    (C28_output_assembly 64 demoClassifier "/home/u/proj" (collectResults demoResults).stats 1
      (by decide)).2.2.2.1⟩

/-- The profile of the concrete results, with an `int` of 64 bits and of 32 bits. -/
theorem demo_profile :
    convertToCodeProfile 64 demoClassifier "/home/u/proj" (collectResults demoResults).stats
        (collectResults demoResults).errorFiles =
      { Path := "/home/u/proj", TotalFiles := 3, TotalLines := 26, ErrorFiles := 1,
        LanguageInfos :=
          [{ Name := "Go", Files := 2, CodeLines := 11, CommentLines := 3, BlankLines := 4 },
           { Name := "TSX", Files := 1, CodeLines := 7, CommentLines := 0, BlankLines := 1 }],
        FrontendLanguages := [], BackendLanguages := [], DesktopLanguages := [],
        OtherLanguages := ["Go", "TSX"], Languages := ["Go", "TSX"],
        ExpandLanguages := ["Go", "TSX", "JavaScript"] } ∧
      (convertToCodeProfile 32 demoClassifier "/home/u/proj" (collectResults demoResults).stats
        (collectResults demoResults).errorFiles).TotalLines = 26 := by
  decide

/-- A summary whose line counts do not fit together in 64 bits: the total wraps around to the
least `int`, while the language info holds the counts as they are. -/
theorem demo_profile_wraps :
    (convertToCodeProfile 64 demoClassifier "/home/u/proj" hugeStats 0).TotalLines =
        -9223372036854775808 ∧
      (convertToCodeProfile 64 demoClassifier "/home/u/proj" hugeStats 0).TotalFiles = 1 ∧
      (convertToCodeProfile 64 demoClassifier "/home/u/proj" hugeStats 0).LanguageInfos =
        [{ Name := "Go", Files := 1, CodeLines := 9223372036854775807, CommentLines := 1,
           BlankLines := 0 }] := by
  decide

/-! ### Language lookup -/

set_option maxRecDepth 100000 in
/-- Facts read off the table `LangDefines` and the maps built from it: every listed extension
and filename is registered under its definition, every entry of the maps comes from the table,
no extension is listed twice, and every listed extension is lowercase. -/
theorem langMaps_table :
    (∀ d ∈ LangDefines, ∀ ext ∈ d.Extensions, langMaps.extToLanguage.lookup ext = some d) ∧
      (∀ d ∈ LangDefines, ∀ fname ∈ d.Filenames,
        langMaps.fileToLanguage.lookup fname = some d) ∧
      (∀ e ∈ langMaps.extToLanguage, e.2 ∈ LangDefines ∧ e.1 ∈ e.2.Extensions) ∧
      (∀ e ∈ langMaps.fileToLanguage, e.2 ∈ LangDefines ∧ e.1 ∈ e.2.Filenames) ∧
      (LangDefines.flatMap fun d => d.Extensions).Nodup ∧
      (∀ d ∈ LangDefines, ∀ ext ∈ d.Extensions, stringsToLower ext = ext) := by
  decide

theorem mem_of_lookup_eq_some {β : Type} (key : String) (v : β) :
    ∀ m : List (String × β), m.lookup key = some v → (key, v) ∈ m := by
  intro m
  induction m with
  | nil => intro hl; simp at hl
  | cons a rest ih =>
    intro hl
    obtain ⟨ak, av⟩ := a
    rw [List.lookup_cons] at hl
    by_cases hk : key = ak
    · subst hk
      simp only [beq_self_eq_true] at hl
      rw [Option.some.inj hl]
      exact List.mem_cons_self _ _
    · have hb : (key == ak) = false := by simpa using hk
      rw [hb] at hl
      exact List.mem_cons_of_mem _ (ih hl)

/-- C29: with the maps that `initFileInfoToLangeMap` builds from `LangDefines`, a file whose
extension is, in lowercase, an extension listed by a definition of the table resolves to that
definition, whatever the letter case of the extension and whatever the filename (no extension
is listed by two definitions, and every listed extension is lowercase); the definition found
under the extension is returned before the filename is looked at; when the extension finds
none, the filename is looked up as it is, and a filename listed by a definition finds it;
every definition found comes from the table under an extension or a filename it lists; and a
file for which neither lookup finds a definition yields none and gets no task. -/
theorem C29_language_lookup (lib : PathLib) (path name : String) :
    (∀ d ∈ LangDefines, ∀ ext ∈ d.Extensions, lib.ToLower (filepathExt path) = ext →
      parseFileLangByLangeMap lib langMaps path name = some d) ∧
    (∀ d1 ∈ LangDefines, ∀ d2 ∈ LangDefines, ∀ ext ∈ d1.Extensions,
      ext ∈ d2.Extensions → d1 = d2) ∧
    (∀ d ∈ LangDefines, ∀ ext ∈ d.Extensions, stringsToLower ext = ext) ∧
    (∀ d, langMaps.extToLanguage.lookup (lib.ToLower (filepathExt path)) = some d →
      parseFileLangByLangeMap lib langMaps path name = some d ∧
        d ∈ LangDefines ∧ lib.ToLower (filepathExt path) ∈ d.Extensions) ∧
    (langMaps.extToLanguage.lookup (lib.ToLower (filepathExt path)) = none →
      parseFileLangByLangeMap lib langMaps path name = langMaps.fileToLanguage.lookup name ∧
      (∀ d ∈ LangDefines, name ∈ d.Filenames →
        parseFileLangByLangeMap lib langMaps path name = some d) ∧
      (∀ d, langMaps.fileToLanguage.lookup name = some d →
        d ∈ LangDefines ∧ name ∈ d.Filenames) ∧
      (langMaps.fileToLanguage.lookup name = none →
        parseFileLangByLangeMap lib langMaps path name = none ∧
          ∀ (st : WalkState) (relPath : String),
            (visitFile lib langMaps st path relPath name).tasks = st.tasks)) := by
  obtain ⟨hext, hfile, hextmem, hfilemem, -, hlower⟩ := langMaps_table
  refine ⟨?_, ?_, hlower, ?_, ?_⟩
  · intro d hd ext hmem hcase
    unfold parseFileLangByLangeMap
    simp only [hcase, hext d hd ext hmem]
  · intro d1 hd1 d2 hd2 ext h1 h2
    have e1 := hext d1 hd1 ext h1
    have e2 := hext d2 hd2 ext h2
    rw [e1] at e2
    exact Option.some.inj e2
  · intro d hl
    refine ⟨?_, hextmem _ (mem_of_lookup_eq_some _ _ _ hl)⟩
    unfold parseFileLangByLangeMap
    simp only [hl]
  · intro hnone
    have hparse : parseFileLangByLangeMap lib langMaps path name =
        langMaps.fileToLanguage.lookup name := by
      unfold parseFileLangByLangeMap
      simp only [hnone]
    refine ⟨hparse, ?_, ?_, ?_⟩
    · intro d hd hmem
      rw [hparse]
      exact hfile d hd name hmem
    · intro d hl
      exact hfilemem _ (mem_of_lookup_eq_some _ _ _ hl)
    · intro hnone2
      rw [hnone2] at hparse
      refine ⟨hparse, ?_⟩
      intro st relPath
      unfold visitFile
      simp only [hparse]

/-- The lookup on concrete files: the extension in any letter case, the extension before the
filename, the exact filename, and no definition. -/
theorem demo_language_lookup :
    (parseFileLangByLangeMap demoLib langMaps "/p/src/App.TSX" "App.TSX").map (fun d => d.Name) =
        some "TSX" ∧
      (parseFileLangByLangeMap demoLib langMaps "/p/Makefile.go" "Makefile.go").map
        (fun d => d.Name) = some "Go" ∧
      (parseFileLangByLangeMap demoLib langMaps "/p/Makefile" "Makefile").map
        (fun d => d.Name) = some "Makefile" ∧
      parseFileLangByLangeMap demoLib langMaps "/p/makefile" "makefile" = none ∧
      parseFileLangByLangeMap demoLib langMaps "/p/notes.txt" "notes.txt" = none := by
  decide

/-! ### `ExpandLanguages` -/

theorem seenAt_mapSet (seen : List (String × Bool)) (k x : String) :
    seenAt (mapSet seen k true) x = (decide (x = k) || seenAt seen x) := by
  unfold seenAt
  rw [lookup_mapSet]
  by_cases hx : x = k
  · simp [hx]
  · simp [hx]

theorem seenAt_loop (langs : List String) :
    ∀ (seen : List (String × Bool)) (x : String),
    seenAt (langs.foldl (fun seen l => mapSet seen l true) seen) x =
      (decide (x ∈ langs) || seenAt seen x) := by
  induction langs with
  | nil => intro seen x; simp
  | cons l rest ih =>
    intro seen x
    rw [List.foldl_cons, ih, seenAt_mapSet]
    by_cases h1 : x = l
    · simp [h1]
    · by_cases h2 : x ∈ rest
      · simp [h1, h2]
      · simp [h1, h2]

/-- One guarded call of `add`, on a state in which `seen` tells what is in the list: the
language is appended when the guard holds and the language is not in the list yet, and `seen`
still tells what is in the list. -/
theorem addLang_step (st : ExpandState) (guard : Bool) (newLang : String)
    (hinv : ∀ x, seenAt st.seen x = decide (x ∈ st.langs)) :
    (∀ x, seenAt (if guard = true then addLang st newLang else st).seen x =
        decide (x ∈ (if guard = true then addLang st newLang else st).langs)) ∧
      (if guard = true then addLang st newLang else st).langs =
        st.langs ++ (if guard = true ∧ newLang ∉ st.langs then [newLang] else []) := by
  by_cases hg : guard = true
  · rw [if_pos hg]
    unfold addLang
    by_cases hin : newLang ∈ st.langs
    · have hs : seenAt st.seen newLang = true := by rw [hinv]; simpa using hin
      simp [hs, hin, hinv]
    · have hs : seenAt st.seen newLang = false := by rw [hinv]; simpa using hin
      simp only [hs, Bool.not_false, if_true, hg, hin, not_false_eq_true, and_self]
      refine ⟨?_, trivial⟩
      intro x
      rw [seenAt_mapSet, hinv]
      by_cases hx : x = newLang
      · simp [hx]
      · by_cases hx2 : x ∈ st.langs
        · simp [hx, hx2]
        · simp [hx, hx2]
  · rw [if_neg hg]
    simp [hg, hinv]

theorem mem_append_extra (x t : String) (langs : List String) (c : Prop) [Decidable c]
    (hne : x ≠ t) : x ∈ langs ++ (if c then [t] else []) ↔ x ∈ langs := by
  by_cases hc : c
  · simp [hc, hne]
  · simp [hc]

/-- The result of `ExpandLanguages`: the input list followed by the languages it adds, in the
order of the four guarded calls of `add`. -/
theorem ExpandLanguages_eq (langs : List String) :
    ExpandLanguages langs =
      langs ++
        (if ("TypeScript" ∈ langs ∨ "TSX" ∈ langs ∨ "JSX" ∈ langs ∨ "Vue" ∈ langs) ∧
            "JavaScript" ∉ langs then ["JavaScript"] else []) ++
        (if ("SCSS" ∈ langs ∨ "Less" ∈ langs) ∧ "CSS" ∉ langs then ["CSS"] else []) ++
        (if "Kotlin" ∈ langs ∧ "Java" ∉ langs then ["Java"] else []) ++
        (if "C++" ∈ langs ∧ "C" ∉ langs then ["C"] else []) := by
  have hinv0 : ∀ x, seenAt (langs.foldl (fun seen l => mapSet seen l true) []) x =
      decide (x ∈ langs) := by
    intro x
    rw [seenAt_loop]
    simp [seenAt]
  unfold ExpandLanguages
  simp only []
  generalize langs.foldl (fun seen l => mapSet seen l true) [] = seen0 at hinv0 ⊢
  obtain ⟨hi1, hl1⟩ := addLang_step { langs := langs, seen := seen0 }
    (seenAt seen0 "TypeScript" || seenAt seen0 "TSX" || seenAt seen0 "JSX" ||
      seenAt seen0 "Vue") "JavaScript" hinv0
  generalize (if (seenAt seen0 "TypeScript" || seenAt seen0 "TSX" || seenAt seen0 "JSX" ||
      seenAt seen0 "Vue") = true then addLang { langs := langs, seen := seen0 } "JavaScript"
    else { langs := langs, seen := seen0 }) = st1 at hi1 hl1 ⊢
  obtain ⟨hi2, hl2⟩ := addLang_step st1 (seenAt st1.seen "SCSS" || seenAt st1.seen "Less")
    "CSS" hi1
  generalize (if (seenAt st1.seen "SCSS" || seenAt st1.seen "Less") = true
    then addLang st1 "CSS" else st1) = st2 at hi2 hl2 ⊢
  obtain ⟨hi3, hl3⟩ := addLang_step st2 (seenAt st2.seen "Kotlin") "Java" hi2
  generalize (if seenAt st2.seen "Kotlin" = true then addLang st2 "Java" else st2) = st3
    at hi3 hl3 ⊢
  obtain ⟨-, hl4⟩ := addLang_step st3 (seenAt st3.seen "C++") "C" hi3
  rw [hl4]
  simp only [hi3, hl3, hi2, hl2, hi1, hl1, hinv0, Bool.or_eq_true, decide_eq_true_eq, List.mem_append,
    mem_append_extra _ _ _ _ (by decide : "SCSS" ≠ "JavaScript"),
    mem_append_extra _ _ _ _ (by decide : "Less" ≠ "JavaScript"),
    mem_append_extra _ _ _ _ (by decide : "CSS" ≠ "JavaScript"),
    mem_append_extra _ _ _ _ (by decide : "Kotlin" ≠ "JavaScript"),
    mem_append_extra _ _ _ _ (by decide : "Kotlin" ≠ "CSS"),
    mem_append_extra _ _ _ _ (by decide : "Java" ≠ "JavaScript"),
    mem_append_extra _ _ _ _ (by decide : "Java" ≠ "CSS"),
    mem_append_extra _ _ _ _ (by decide : "C++" ≠ "JavaScript"),
    mem_append_extra _ _ _ _ (by decide : "C++" ≠ "CSS"),
    mem_append_extra _ _ _ _ (by decide : "C++" ≠ "Java"),
    mem_append_extra _ _ _ _ (by decide : "C" ≠ "JavaScript"),
    mem_append_extra _ _ _ _ (by decide : "C" ≠ "CSS"),
    mem_append_extra _ _ _ _ (by decide : "C" ≠ "Java")]
  simp only [or_assoc]

/-- C30: the result of `ExpandLanguages` is the input list followed by `JavaScript` when the
input holds `TypeScript`, `TSX`, `JSX` or `Vue`, by `CSS` when it holds `SCSS` or `Less`, by
`Java` when it holds `Kotlin` and by `C` when it holds `C++`, in this order, each only when the
input does not hold it already; nothing else is added. -/
theorem C30_alias_expansion (langs : List String) :
    ExpandLanguages langs =
      langs ++
        (if ("TypeScript" ∈ langs ∨ "TSX" ∈ langs ∨ "JSX" ∈ langs ∨ "Vue" ∈ langs) ∧
            "JavaScript" ∉ langs then ["JavaScript"] else []) ++
        (if ("SCSS" ∈ langs ∨ "Less" ∈ langs) ∧ "CSS" ∉ langs then ["CSS"] else []) ++
        (if "Kotlin" ∈ langs ∧ "Java" ∉ langs then ["Java"] else []) ++
        (if "C++" ∈ langs ∧ "C" ∉ langs then ["C"] else []) :=
  ExpandLanguages_eq langs

theorem demo_expand :
    ExpandLanguages ["Go", "TSX", "Kotlin", "Java", "C++"] =
        ["Go", "TSX", "Kotlin", "Java", "C++", "JavaScript", "C"] ∧
      ExpandLanguages ["Less", "Vue", "JavaScript"] = ["Less", "Vue", "JavaScript", "CSS"] ∧
      ExpandLanguages ["typescript", "Go"] = ["typescript", "Go"] ∧
      ExpandLanguages [] = [] := by
  decide

/-! ### `canvas.expandLanguages` -/

/-- The result of `canvas.expandLanguages`: the input list, followed by `JavaScript` when the
input holds `TypeScript`, `TSX` or `JSX` and does not hold `JavaScript`. -/
theorem expandLanguages_eq (langs : List String) :
    expandLanguages langs =
      langs ++ (if ("TypeScript" ∈ langs ∨ "TSX" ∈ langs ∨ "JSX" ∈ langs) ∧
        "JavaScript" ∉ langs then ["JavaScript"] else []) := by
  have hinv : ∀ x, seenAt (langs.foldl (fun seen l => mapSet seen l true) []) x =
      decide (x ∈ langs) := by
    intro x
    rw [seenAt_loop]
    simp [seenAt]
  unfold expandLanguages
  simp only [hinv, Bool.or_eq_true, decide_eq_true_eq, Bool.not_eq_true', decide_eq_false_iff_not]
  by_cases h1 : "TypeScript" ∈ langs ∨ "TSX" ∈ langs ∨ "JSX" ∈ langs
  · have h1b : ("TypeScript" ∈ langs ∨ "TSX" ∈ langs) ∨ "JSX" ∈ langs := by
      rcases h1 with h | h | h
      · exact Or.inl (Or.inl h)
      · exact Or.inl (Or.inr h)
      · exact Or.inr h
    by_cases h2 : "JavaScript" ∈ langs
    · simp [h1, h1b, h2]
    · simp [h1, h1b, h2]
  · have h1b : ¬ (("TypeScript" ∈ langs ∨ "TSX" ∈ langs) ∨ "JSX" ∈ langs) := by
      intro h
      apply h1
      rcases h with (h | h) | h
      · exact Or.inl h
      · exact Or.inr (Or.inl h)
      · exact Or.inr (Or.inr h)
    simp [h1, h1b]

/-- C31: `canvas.expandLanguages` does not add `JavaScript` to a language list that holds
`Vue` and none of `TypeScript`, `TSX`, `JSX`: on the list of a Vue project the result is the
input; `langengine.ExpandLanguages` adds `JavaScript` to the same list. -/
theorem C31_vue_does_not_imply_javascript :
    expandLanguages ["Vue", "CSS", "HTML"] = ["Vue", "CSS", "HTML"] ∧
      "JavaScript" ∉ expandLanguages ["Vue", "CSS", "HTML"] ∧
      "JavaScript" ∉ expandLanguages ["Vue"] ∧
      "JavaScript" ∈ ExpandLanguages ["Vue", "CSS", "HTML"] ∧
      "JavaScript" ∈ expandLanguages ["TypeScript"] ∧
      "JavaScript" ∈ expandLanguages ["Go", "JSX"] := by
  decide

/-! ### `applyHeuristics` -/

/-- C32: for a language rule whose name is `javascript` or `typescript` in lowercase, and every
dependency set, `applyHeuristics` returns backend when the set holds one of `express`, `koa`,
`nestjs`, `fastify`, `hapi`, whatever the rule declares and whatever else the set holds; when
the set holds none of them and holds one of `react`, `vue`, `@angular/core`, `next`, `nuxt`,
it returns frontend. -/
theorem C32_javascript_dependency_heuristic (lib : PathLib) (glob : String → List String)
    (root : String) (r : LangRule) (deps : List (String × Bool))
    (hname : lib.ToLower r.Name = "javascript" ∨ lib.ToLower r.Name = "typescript") :
    ((seenAt deps "express" = true ∨ seenAt deps "koa" = true ∨ seenAt deps "nestjs" = true ∨
        seenAt deps "fastify" = true ∨ seenAt deps "hapi" = true) →
      applyHeuristics lib glob root r deps = CategoryBackend) ∧
    (¬ (seenAt deps "express" = true ∨ seenAt deps "koa" = true ∨
        seenAt deps "nestjs" = true ∨ seenAt deps "fastify" = true ∨
        seenAt deps "hapi" = true) →
      (seenAt deps "react" = true ∨ seenAt deps "vue" = true ∨
        seenAt deps "@angular/core" = true ∨ seenAt deps "next" = true ∨
        seenAt deps "nuxt" = true) →
      applyHeuristics lib glob root r deps = CategoryFrontend) := by
  constructor
  · intro hback
    have hb : (seenAt deps "express" || seenAt deps "koa" || seenAt deps "nestjs" ||
        seenAt deps "fastify" || seenAt deps "hapi") = true := by
      simp only [Bool.or_eq_true]
      tauto
    unfold applyHeuristics
    simp only
    rw [if_pos ⟨hname, hb⟩]
  · intro hnot hfront
    have hb : ¬ (seenAt deps "express" || seenAt deps "koa" || seenAt deps "nestjs" ||
        seenAt deps "fastify" || seenAt deps "hapi") = true := by
      simp only [Bool.or_eq_true]
      tauto
    have hf : (seenAt deps "react" || seenAt deps "vue" || seenAt deps "@angular/core" ||
        seenAt deps "next" || seenAt deps "nuxt") = true := by
      simp only [Bool.or_eq_true]
      tauto
    unfold applyHeuristics
    simp only
    rw [if_neg (fun hc => hb hc.2), if_pos ⟨hname, hf⟩]

/-- The heuristic on a rule named `JavaScript` that declares the category desktop, with a
backend and a frontend dependency. -/
theorem C32_witness :
    (stringsToLower "JavaScript" = "javascript" ∨ stringsToLower "JavaScript" = "typescript") ∧
      applyHeuristics demoLib demoGlob "/proj" (LangRule.mk "JavaScript" "desktop" noFeatures)
        [("react", true), ("express", true)] = CategoryBackend :=
  ⟨by decide,
    (C32_javascript_dependency_heuristic demoLib demoGlob "/proj"
      (LangRule.mk "JavaScript" "desktop" noFeatures) [("react", true), ("express", true)]
      (by decide)).1 (by decide)⟩

/-- The heuristic on concrete rules: a frontend dependency alone, no listed dependency (the
declared category decides), and a rule with another name (the dependencies are not read). -/
theorem demo_heuristics :
    applyHeuristics demoLib demoGlob "/proj" (LangRule.mk "TYPESCRIPT" "desktop" noFeatures)
        [("lodash", true), ("vue", true)] = CategoryFrontend ∧
      applyHeuristics demoLib demoGlob "/proj" (LangRule.mk "JavaScript" "desktop" noFeatures)
        [("lodash", true)] = CategoryDesktop ∧
      applyHeuristics demoLib demoGlob "/proj" (LangRule.mk "Go" "backend" noFeatures)
        [("react", true)] = CategoryBackend ∧
      applyHeuristics demoLib demoGlob "/proj"
        (LangRule.mk "HTML" "" (LangFeatures.mk "" [] ["*.html"] [])) [] = CategoryFrontend ∧
      applyHeuristics demoLib demoGlob "/proj" (LangRule.mk "Zig" "" noFeatures) [] =
        CategoryOther := by
  decide

/-! ### `GetSupportedFrameworks` -/

/-- C33: the engine reached by adding the framework rules `Spring` for Java, `Gin` for Go and
`Spring` for Kotlin holds the three rules in its rule list, and `GetSupportedFrameworks`
returns two entries: no entry has the name `Spring` and the language Java. -/
theorem C33_same_name_framework_is_dropped :
    springEngine.rules = [springJavaRule, ginRule, springKotlinRule] ∧
      springJavaRule.Type_ = RuleTypeFramework ∧
      GetSupportedFrameworks springEngine =
        some [FrameworkMetadata.mk "Gin" "Go" [("L1", "go.mod")],
          FrameworkMetadata.mk "Spring" "Kotlin" [("L1", "build.gradle.kts")]] ∧
      (∀ frameworks, GetSupportedFrameworks springEngine = some frameworks →
        ¬ ∃ m ∈ frameworks, m.Name = springJavaRule.Name ∧
          m.Language = springJavaRule.Language) := by
  have hres : GetSupportedFrameworks springEngine =
      some [FrameworkMetadata.mk "Gin" "Go" [("L1", "go.mod")],
        FrameworkMetadata.mk "Spring" "Kotlin" [("L1", "build.gradle.kts")]] := by
    decide
  refine ⟨by decide, by decide, hres, ?_⟩
  intro frameworks hf
  rw [hres] at hf
  have := Option.some.inj hf
  subst this
  decide

/-! ### `DetectCategories` -/

theorem mem_Mapkeys_mapSet (m : List (String × Bool)) (k x : String) (v : Bool) :
    x ∈ Mapkeys (mapSet m k v) ↔ x = k ∨ x ∈ Mapkeys m := by
  unfold Mapkeys mapSet
  simp only [List.map_cons, List.mem_cons, List.mem_map, List.mem_filter, bne_iff_ne, ne_eq]
  constructor
  · rintro (h | ⟨p, ⟨hp, -⟩, rfl⟩)
    · exact Or.inl h
    · exact Or.inr ⟨p, hp, rfl⟩
  · rintro (h | ⟨p, hp, rfl⟩)
    · exact Or.inl h
    · by_cases hk : p.1 = k
      · exact Or.inl hk
      · exact Or.inr ⟨p, ⟨hp, hk⟩, rfl⟩

theorem filePatternLoop_category (lib : PathLib) (glob : String → List String) (root : String)
    (r : LangRule) : ∀ (patterns : List String) (category : String),
    filePatternLoop lib glob root r patterns = some category →
      category = CategoryFrontend ∨ category = CategoryBackend := by
  intro patterns
  induction patterns with
  | nil => intro category h; simp [filePatternLoop] at h
  | cons p rest ih =>
    intro category h
    unfold filePatternLoop at h
    split at h
    · split at h
      · exact Or.inl (Option.some.inj h).symm
      · exact Or.inr (Option.some.inj h).symm
    · exact ih category h

/-- The function `applyHeuristics` returns one of the four categories. -/
theorem applyHeuristics_category (lib : PathLib) (glob : String → List String) (root : String)
    (r : LangRule) (deps : List (String × Bool)) :
    applyHeuristics lib glob root r deps = CategoryFrontend ∨
      applyHeuristics lib glob root r deps = CategoryBackend ∨
      applyHeuristics lib glob root r deps = CategoryDesktop ∨
      applyHeuristics lib glob root r deps = CategoryOther := by
  unfold applyHeuristics
  simp only
  split
  · exact Or.inr (Or.inl rfl)
  · split
    · exact Or.inl rfl
    · split
      · rename_i hcat
        exact hcat
      · split
        · exact Or.inl rfl
        · split
          · rename_i category hloop
            rcases filePatternLoop_category lib glob root r _ category hloop with h | h
            · exact Or.inl h
            · exact Or.inr (Or.inl h)
          · exact Or.inr (Or.inr (Or.inr rfl))

theorem categoryOf_category (lib : PathLib) (glob : String → List String)
    (ruleMap : List (String × LangRule)) (root : String) (deps : List (String × Bool))
    (name : String) :
    categoryOf lib glob ruleMap root deps name = CategoryFrontend ∨
      categoryOf lib glob ruleMap root deps name = CategoryBackend ∨
      categoryOf lib glob ruleMap root deps name = CategoryDesktop ∨
      categoryOf lib glob ruleMap root deps name = CategoryOther := by
  unfold categoryOf
  split
  · exact applyHeuristics_category lib glob root _ deps
  · exact Or.inr (Or.inr (Or.inr rfl))

/-- The body of the loop of `DetectCategories` puts the name into the set of its category and
into the set of all names. -/
theorem detectCategory_eq (lib : PathLib) (glob : String → List String)
    (ruleMap : List (String × LangRule)) (root : String) (deps : List (String × Bool))
    (sets : CategorySets) (li : LangInfo) :
    detectCategory lib glob ruleMap root deps sets li =
      { frontedSet :=
          if categoryOf lib glob ruleMap root deps li.Name = CategoryFrontend then
            mapSet sets.frontedSet li.Name true else sets.frontedSet
        backendSet :=
          if categoryOf lib glob ruleMap root deps li.Name = CategoryBackend then
            mapSet sets.backendSet li.Name true else sets.backendSet
        desktopSet :=
          if categoryOf lib glob ruleMap root deps li.Name = CategoryDesktop then
            mapSet sets.desktopSet li.Name true else sets.desktopSet
        otherSet :=
          if categoryOf lib glob ruleMap root deps li.Name = CategoryOther then
            mapSet sets.otherSet li.Name true else sets.otherSet
        allSet := mapSet sets.allSet li.Name true } := by
  have hcat := categoryOf_category lib glob ruleMap root deps li.Name
  unfold categoryOf at hcat ⊢
  unfold detectCategory
  cases hlook : ruleMap.lookup (lib.ToLower li.Name) with
  | none =>
    simp only [hlook]
    simp [CategoryFrontend, CategoryBackend, CategoryDesktop, CategoryOther]
  | some langRule =>
    simp only [hlook] at hcat ⊢
    rcases hcat with h | h | h | h <;> simp only [h] <;>
      simp [CategoryFrontend, CategoryBackend, CategoryDesktop, CategoryOther]

theorem mem_keys_guarded (m : List (String × Bool)) (k x : String) (c : Prop) [Decidable c] :
    x ∈ Mapkeys (if c then mapSet m k true else m) ↔ (x = k ∧ c) ∨ x ∈ Mapkeys m := by
  by_cases hc : c
  · rw [if_pos hc, mem_Mapkeys_mapSet]
    simp [hc]
  · rw [if_neg hc]
    simp [hc]

theorem nodup_keys_guarded (m : List (String × Bool)) (k : String) (c : Prop) [Decidable c]
    (hnd : (Mapkeys m).Nodup) : (Mapkeys (if c then mapSet m k true else m)).Nodup := by
  by_cases hc : c
  · rw [if_pos hc]
    exact mapSet_keys_nodup m k true hnd
  · rw [if_neg hc]
    exact hnd

theorem setsClassify_step (lib : PathLib) (glob : String → List String)
    (ruleMap : List (String × LangRule)) (root : String) (deps : List (String × Bool))
    (done : List String) (sets : CategorySets) (li : LangInfo)
    (hinv : SetsClassify (categoryOf lib glob ruleMap root deps) done sets) :
    SetsClassify (categoryOf lib glob ruleMap root deps) (done ++ [li.Name])
      (detectCategory lib glob ruleMap root deps sets li) := by
  obtain ⟨h1, h2, h3, h4, h5, n1, n2, n3, n4, n5⟩ := hinv
  rw [detectCategory_eq]
  refine ⟨?_, ?_, ?_, ?_, ?_, nodup_keys_guarded _ _ _ n1, nodup_keys_guarded _ _ _ n2,
    nodup_keys_guarded _ _ _ n3, nodup_keys_guarded _ _ _ n4, mapSet_keys_nodup _ _ _ n5⟩
  · intro x
    simp only [mem_keys_guarded, h1, List.mem_append, List.mem_singleton]
    constructor
    · rintro (⟨rfl, hc⟩ | ⟨hx, hc⟩)
      · exact ⟨Or.inr rfl, hc⟩
      · exact ⟨Or.inl hx, hc⟩
    · rintro ⟨hx | rfl, hc⟩
      · exact Or.inr ⟨hx, hc⟩
      · exact Or.inl ⟨rfl, hc⟩
  · intro x
    simp only [mem_keys_guarded, h2, List.mem_append, List.mem_singleton]
    constructor
    · rintro (⟨rfl, hc⟩ | ⟨hx, hc⟩)
      · exact ⟨Or.inr rfl, hc⟩
      · exact ⟨Or.inl hx, hc⟩
    · rintro ⟨hx | rfl, hc⟩
      · exact Or.inr ⟨hx, hc⟩
      · exact Or.inl ⟨rfl, hc⟩
  · intro x
    simp only [mem_keys_guarded, h3, List.mem_append, List.mem_singleton]
    constructor
    · rintro (⟨rfl, hc⟩ | ⟨hx, hc⟩)
      · exact ⟨Or.inr rfl, hc⟩
      · exact ⟨Or.inl hx, hc⟩
    · rintro ⟨hx | rfl, hc⟩
      · exact Or.inr ⟨hx, hc⟩
      · exact Or.inl ⟨rfl, hc⟩
  · intro x
    simp only [mem_keys_guarded, h4, List.mem_append, List.mem_singleton]
    constructor
    · rintro (⟨rfl, hc⟩ | ⟨hx, hc⟩)
      · exact ⟨Or.inr rfl, hc⟩
      · exact ⟨Or.inl hx, hc⟩
    · rintro ⟨hx | rfl, hc⟩
      · exact Or.inr ⟨hx, hc⟩
      · exact Or.inl ⟨rfl, hc⟩
  · intro x
    simp only [mem_Mapkeys_mapSet, h5, List.mem_append, List.mem_singleton]
    exact Or.comm

theorem setsClassify_loop (lib : PathLib) (glob : String → List String)
    (ruleMap : List (String × LangRule)) (root : String) (deps : List (String × Bool)) :
    ∀ (langs : List LangInfo) (done : List String) (sets : CategorySets),
    SetsClassify (categoryOf lib glob ruleMap root deps) done sets →
    SetsClassify (categoryOf lib glob ruleMap root deps)
      (done ++ langs.map (fun li => li.Name))
      (langs.foldl (detectCategory lib glob ruleMap root deps) sets) := by
  intro langs
  induction langs with
  | nil => intro done sets hinv; simpa using hinv
  | cons li rest ih =>
    intro done sets hinv
    have := ih (done ++ [li.Name]) _ (setsClassify_step lib glob ruleMap root deps done sets li hinv)
    simpa [List.append_assoc] using this

/-- C39: `DetectCategories` partitions the language names: every name of the input is in
exactly one of the lists frontend, backend, desktop and other (in other when the rule map has
no rule for its lowercase form), the four lists hold input names only, no list holds a name
twice, and the list of all languages holds exactly the names of the input, each once. -/
theorem C39_categories_partition (lib : PathLib) (glob : String → List String)
    (ruleMap : List (String × LangRule)) (packageDeps : String → List (String × Bool))
    (root : String) (langs : List LangInfo) :
    let cats := DetectCategories lib glob ruleMap packageDeps root langs
    (∀ li ∈ langs, ([cats.frontend, cats.backend, cats.desktop, cats.other].filter
        (fun l => decide (li.Name ∈ l))).length = 1) ∧
      (∀ li ∈ langs, ruleMap.lookup (lib.ToLower li.Name) = none → li.Name ∈ cats.other) ∧
      (∀ x, x ∈ cats.frontend ∨ x ∈ cats.backend ∨ x ∈ cats.desktop ∨ x ∈ cats.other →
        x ∈ langs.map (fun li => li.Name)) ∧
      cats.frontend.Nodup ∧ cats.backend.Nodup ∧ cats.desktop.Nodup ∧ cats.other.Nodup ∧
      cats.all.Nodup ∧ (∀ x, x ∈ cats.all ↔ x ∈ langs.map (fun li => li.Name)) := by
  intro cats
  have hstart : SetsClassify (categoryOf lib glob ruleMap root (packageDeps root)) []
      { frontedSet := [], backendSet := [], desktopSet := [], otherSet := [], allSet := [] } := by
    simp [SetsClassify, Mapkeys]
  have hinv := setsClassify_loop lib glob ruleMap root (packageDeps root) langs [] _ hstart
  rw [List.nil_append] at hinv
  obtain ⟨h1, h2, h3, h4, h5, n1, n2, n3, n4, n5⟩ := hinv
  have e1 : ∀ x, x ∈ cats.frontend ↔ x ∈ langs.map (fun li => li.Name) ∧
      categoryOf lib glob ruleMap root (packageDeps root) x = CategoryFrontend := h1
  have e2 : ∀ x, x ∈ cats.backend ↔ x ∈ langs.map (fun li => li.Name) ∧
      categoryOf lib glob ruleMap root (packageDeps root) x = CategoryBackend := h2
  have e3 : ∀ x, x ∈ cats.desktop ↔ x ∈ langs.map (fun li => li.Name) ∧
      categoryOf lib glob ruleMap root (packageDeps root) x = CategoryDesktop := h3
  have e4 : ∀ x, x ∈ cats.other ↔ x ∈ langs.map (fun li => li.Name) ∧
      categoryOf lib glob ruleMap root (packageDeps root) x = CategoryOther := h4
  refine ⟨?_, ?_, ?_, n1, n2, n3, n4, n5, h5⟩
  · intro li hli
    have hmem : li.Name ∈ langs.map (fun li => li.Name) := List.mem_map.mpr ⟨li, hli, rfl⟩
    rcases categoryOf_category lib glob ruleMap root (packageDeps root) li.Name
      with h | h | h | h <;>
      simp [List.filter, e1, e2, e3, e4, hmem, h, CategoryFrontend, CategoryBackend,
        CategoryDesktop, CategoryOther]
  · intro li hli hnone
    rw [e4]
    refine ⟨List.mem_map.mpr ⟨li, hli, rfl⟩, ?_⟩
    unfold categoryOf
    rw [hnone]
  · intro x hx
    rcases hx with hx | hx | hx | hx
    · exact ((e1 x).1 hx).1
    · exact ((e2 x).1 hx).1
    · exact ((e3 x).1 hx).1
    · exact ((e4 x).1 hx).1

/-- The classifier on the concrete project: `Go`, met twice, is listed once; `TypeScript`,
declared frontend, is backend by the dependency `express`; `Rust` has no rule. -/
theorem demo_categories :
    (DetectCategories demoLib demoGlob demoRuleMap demoDeps "/proj" demoLangs).frontend =
        ["Elm", "HTML"] ∧
      (DetectCategories demoLib demoGlob demoRuleMap demoDeps "/proj" demoLangs).backend =
        ["Go", "TypeScript"] ∧
      (DetectCategories demoLib demoGlob demoRuleMap demoDeps "/proj" demoLangs).desktop =
        ["Swift"] ∧
      (DetectCategories demoLib demoGlob demoRuleMap demoDeps "/proj" demoLangs).other =
        ["Zig", "Rust"] ∧
      (DetectCategories demoLib demoGlob demoRuleMap demoDeps "/proj" demoLangs).all =
        ["Zig", "Elm", "Rust", "Go", "Swift", "HTML", "TypeScript"] := by
  decide

/-! ### Suffix patterns with a further dot -/

/-- C34: on the index of a project that holds `app.min.js`, `dist/vendor.MIN.js`, `main.js` and
`backup.tar.gz`, which satisfies the index invariant, `FindFiles` returns no path for the
patterns `*.min.js` and `*.tar.gz`, although the lowercase filenames of indexed paths end with
`.min.js` and `.tar.gz`; for `*.js` it returns the three scripts. -/
theorem C34_suffix_with_further_dot_finds_nothing :
    NameMapExact demoLib minifiedIndex ∧ ExtensionMapExact demoLib minifiedIndex ∧
      PositionsValid minifiedIndex ∧
      "app.min.js" ∈ minifiedIndex.Files ∧
      stringsContains "min.js" "/" = false ∧
      stringsHasSuffix (stringsToLower (pathBase "app.min.js"))
        ("." ++ stringsToLower "min.js") = true ∧
      FindFiles globHost demoLib minifiedIndex ("*." ++ "min.js") = some ([], none) ∧
      stringsHasSuffix (stringsToLower (pathBase "backup.tar.gz"))
        ("." ++ stringsToLower "tar.gz") = true ∧
      FindFiles globHost demoLib minifiedIndex ("*." ++ "tar.gz") = some ([], none) ∧
      FindFiles globHost demoLib minifiedIndex "*.js" =
        some (["/proj/app.min.js", "/proj/dist/vendor.MIN.js", "/proj/main.js"], none) ∧
      FindFiles globHost demoLib minifiedIndex "*.gz" =
        some (["/proj/backup.tar.gz"], none) :=
  ⟨(indexOfPaths_exact demoLib "/proj" minifiedPaths).1,
    (indexOfPaths_exact demoLib "/proj" minifiedPaths).2.1,
    (indexOfPaths_exact demoLib "/proj" minifiedPaths).2.2,
    by decide, by decide, by decide, by decide, by decide, by decide, by decide, by decide⟩

/-! ### Index access in bounds -/

/-- C35: on a file index in which every position stored in the filename map and in the
extension map is a valid index into the path sequence, `FindFiles` reads no position out of
range: for every pattern the run ends with a list of paths and a nil error. -/
theorem C35_index_access_in_bounds (h : Host) (lib : PathLib) (index : FileIndex)
    (pattern : String) (hv : PositionsValid index) :
    ∃ res, FindFiles h lib index pattern = some (res, none) :=
  FindFiles_returns h lib index hv pattern

/-- The index of the concrete project has valid positions, and a lookup returns. -/
theorem C35_witness :
    PositionsValid demoIndex ∧
      ∃ res, FindFiles globHost demoLib demoIndex "*.go" = some (res, none) :=
  ⟨(indexOfPaths_exact demoLib "/proj" demoPaths).2.2,
    C35_index_access_in_bounds globHost demoLib demoIndex "*.go"
      (indexOfPaths_exact demoLib "/proj" demoPaths).2.2⟩

/-- A position out of range makes the run abort: the index expression is reached with the
position 3 on a path sequence of length one. -/
theorem dangling_position_aborts :
    FindFiles globHost demoLib danglingIndex "*.go" = none ∧
      FindFiles globHost demoLib danglingIndex "gone.go" = none ∧
      FindFiles globHost demoLib danglingIndex "/gone.go" = none ∧
      FindFiles globHost demoLib danglingIndex "main.go" = some (["/proj/main.go"], none) := by
  decide

/-! ### The position of an overriding rule -/

theorem upsert_set (rule : FrameworkRuleDefinition) :
    ∀ rules : List FrameworkRuleDefinition, ruleIdentity rule ∈ rules.map ruleIdentity →
    ∃ i, i < rules.length ∧ (rules[i]?).map ruleIdentity = some (ruleIdentity rule) ∧
      (∀ j, j < i → (rules[j]?).map ruleIdentity ≠ some (ruleIdentity rule)) ∧
      upsert rule rules = rules.set i rule := by
  intro rules
  induction rules with
  | nil => intro h; simp at h
  | cons r rest ih =>
    intro h
    by_cases hs : sameIdentity r rule = true
    · refine ⟨0, by simp, ?_, by intro j hj; omega, ?_⟩
      · simp [(sameIdentity_iff r rule).1 hs]
      · simp [upsert, hs]
    · have hne : ruleIdentity r ≠ ruleIdentity rule :=
        fun hc => hs ((sameIdentity_iff r rule).2 hc)
      have hrest : ruleIdentity rule ∈ rest.map ruleIdentity := by
        simp only [List.map_cons, List.mem_cons] at h
        rcases h with h | h
        · exact absurd h.symm hne
        · exact h
      obtain ⟨i, hi, hid, hfirst, hset⟩ := ih hrest
      refine ⟨i + 1, by simp only [List.length_cons]; omega, by simpa using hid, ?_, ?_⟩
      · intro j hj
        cases j with
        | zero => simpa using hne
        | succ j => simpa using hfirst j (by omega)
      · simp [upsert, hs, hset]

/-- C36: when `addRule` is called with a rule whose identity is in the rule list, the rule
list after the call is the list before it with the new rule at the position of the first rule
of that identity: the length, every other position and the sequence of identities are
unchanged. -/
theorem C36_override_keeps_position (e : CanvasEngine) (rule : FrameworkRuleDefinition)
    (hexists : ruleIdentity rule ∈ e.rules.map ruleIdentity) :
    ∃ i, i < e.rules.length ∧
      (e.rules[i]?).map ruleIdentity = some (ruleIdentity rule) ∧
      (∀ j, j < i → (e.rules[j]?).map ruleIdentity ≠ some (ruleIdentity rule)) ∧
      (addRule e rule).rules = e.rules.set i rule ∧
      (addRule e rule).rules.length = e.rules.length ∧
      (addRule e rule).rules[i]? = some rule ∧
      (∀ j, j ≠ i → (addRule e rule).rules[j]? = e.rules[j]?) ∧
      (addRule e rule).rules.map ruleIdentity = e.rules.map ruleIdentity := by
  obtain ⟨i, hi, hid, hfirst, hset⟩ := upsert_set rule e.rules hexists
  have hrules : (addRule e rule).rules = e.rules.set i rule := by
    rw [addRule_rules, hset]
  refine ⟨i, hi, hid, hfirst, hrules, ?_, ?_, ?_, ?_⟩
  · rw [hrules, List.length_set]
  · rw [hrules, List.getElem?_set_self hi]
  · intro j hj
    rw [hrules, List.getElem?_set_ne (Ne.symm hj)]
  · rw [addRule_rules, upsert_identities, if_pos hexists]

/-- An override of the first of three rules: the new rule, with other tiers, takes the first
position. -/
theorem C36_witness :
    ruleIdentity springOverride ∈ springEngine.rules.map ruleIdentity ∧
      ∃ i, i < springEngine.rules.length ∧
        (springEngine.rules[i]?).map ruleIdentity = some (ruleIdentity springOverride) ∧
        (∀ j, j < i →
          (springEngine.rules[j]?).map ruleIdentity ≠ some (ruleIdentity springOverride)) ∧
        (addRule springEngine springOverride).rules = springEngine.rules.set i springOverride ∧
        (addRule springEngine springOverride).rules.length = springEngine.rules.length ∧
        (addRule springEngine springOverride).rules[i]? = some springOverride ∧
        (∀ j, j ≠ i →
          (addRule springEngine springOverride).rules[j]? = springEngine.rules[j]?) ∧
        (addRule springEngine springOverride).rules.map ruleIdentity =
          springEngine.rules.map ruleIdentity :=
  ⟨by decide, C36_override_keeps_position springEngine springOverride (by decide)⟩

/-- The override on the concrete engine. -/
theorem demo_override :
    (addRule springEngine springOverride).rules =
        [springOverride, ginRule, springKotlinRule] ∧
      (addRule springEngine (FrameworkRuleDefinition.mk "Gin" "component" "Go" "web" [])).rules =
        [springJavaRule, ginRule, springKotlinRule,
          FrameworkRuleDefinition.mk "Gin" "component" "Go" "web" []] := by
  decide

/-! ### Idempotence of `ExpandLanguages` -/

theorem mem_guarded_singleton (x t : String) (c : Prop) [Decidable c] :
    x ∈ (if c then [t] else []) ↔ x = t ∧ c := by
  by_cases hc : c
  · simp [hc]
  · simp [hc]

/-- The members of the result of `ExpandLanguages`. -/
theorem mem_ExpandLanguages (langs : List String) (x : String) :
    x ∈ ExpandLanguages langs ↔
      x ∈ langs ∨
      (x = "JavaScript" ∧
        ("TypeScript" ∈ langs ∨ "TSX" ∈ langs ∨ "JSX" ∈ langs ∨ "Vue" ∈ langs) ∧
          "JavaScript" ∉ langs) ∨
      (x = "CSS" ∧ ("SCSS" ∈ langs ∨ "Less" ∈ langs) ∧ "CSS" ∉ langs) ∨
      (x = "Java" ∧ "Kotlin" ∈ langs ∧ "Java" ∉ langs) ∨
      (x = "C" ∧ "C++" ∈ langs ∧ "C" ∉ langs) := by
  rw [ExpandLanguages_eq langs]
  simp only [List.mem_append, mem_guarded_singleton, or_assoc]

/-- A language that is not one of the four added ones is in the result only when it is in the
input. -/
theorem mem_ExpandLanguages_other (langs : List String) (x : String)
    (h1 : x ≠ "JavaScript") (h2 : x ≠ "CSS") (h3 : x ≠ "Java") (h4 : x ≠ "C") :
    x ∈ ExpandLanguages langs ↔ x ∈ langs := by
  rw [mem_ExpandLanguages]
  simp only [h1, h2, h3, h4, false_and, or_false]

/-- The result of `ExpandLanguages` holds, with every language that calls for an addition, the
language that is added for it. -/
theorem ExpandLanguages_closed (langs : List String) :
    (("TypeScript" ∈ ExpandLanguages langs ∨ "TSX" ∈ ExpandLanguages langs ∨
        "JSX" ∈ ExpandLanguages langs ∨ "Vue" ∈ ExpandLanguages langs) →
      "JavaScript" ∈ ExpandLanguages langs) ∧
    (("SCSS" ∈ ExpandLanguages langs ∨ "Less" ∈ ExpandLanguages langs) →
      "CSS" ∈ ExpandLanguages langs) ∧
    ("Kotlin" ∈ ExpandLanguages langs → "Java" ∈ ExpandLanguages langs) ∧
    ("C++" ∈ ExpandLanguages langs → "C" ∈ ExpandLanguages langs) := by
  rw [mem_ExpandLanguages_other langs "TypeScript" (by decide) (by decide) (by decide)
      (by decide),
    mem_ExpandLanguages_other langs "TSX" (by decide) (by decide) (by decide) (by decide),
    mem_ExpandLanguages_other langs "JSX" (by decide) (by decide) (by decide) (by decide),
    mem_ExpandLanguages_other langs "Vue" (by decide) (by decide) (by decide) (by decide),
    mem_ExpandLanguages_other langs "SCSS" (by decide) (by decide) (by decide) (by decide),
    mem_ExpandLanguages_other langs "Less" (by decide) (by decide) (by decide) (by decide),
    mem_ExpandLanguages_other langs "Kotlin" (by decide) (by decide) (by decide) (by decide),
    mem_ExpandLanguages_other langs "C++" (by decide) (by decide) (by decide) (by decide)]
  refine ⟨?_, ?_, ?_, ?_⟩
  · intro h
    rw [mem_ExpandLanguages]
    by_cases ht : "JavaScript" ∈ langs
    · exact Or.inl ht
    · exact Or.inr (Or.inl ⟨rfl, h, ht⟩)
  · intro h
    rw [mem_ExpandLanguages]
    by_cases ht : "CSS" ∈ langs
    · exact Or.inl ht
    · exact Or.inr (Or.inr (Or.inl ⟨rfl, h, ht⟩))
  · intro h
    rw [mem_ExpandLanguages]
    by_cases ht : "Java" ∈ langs
    · exact Or.inl ht
    · exact Or.inr (Or.inr (Or.inr (Or.inl ⟨rfl, h, ht⟩)))
  · intro h
    rw [mem_ExpandLanguages]
    by_cases ht : "C" ∈ langs
    · exact Or.inl ht
    · exact Or.inr (Or.inr (Or.inr (Or.inr ⟨rfl, h, ht⟩)))

/-- C38: `ExpandLanguages` is idempotent: applied to its own result it adds nothing, for the
result holds `JavaScript`, `CSS`, `Java` and `C` wherever a language calls for them. -/
theorem C38_expand_languages_idempotent (langs : List String) :
    ExpandLanguages (ExpandLanguages langs) = ExpandLanguages langs := by
  obtain ⟨k1, k2, k3, k4⟩ := ExpandLanguages_closed langs
  rw [ExpandLanguages_eq (ExpandLanguages langs)]
  rw [if_neg (fun hc => hc.2 (k1 hc.1)), if_neg (fun hc => hc.2 (k2 hc.1)),
    if_neg (fun hc => hc.2 (k3 hc.1)), if_neg (fun hc => hc.2 (k4 hc.1))]
  simp only [List.append_nil]

/-- The second application on concrete lists. -/
theorem demo_expand_twice :
    ExpandLanguages (ExpandLanguages ["Go", "TSX", "Kotlin", "C++"]) =
        ["Go", "TSX", "Kotlin", "C++", "JavaScript", "Java", "C"] ∧
      ExpandLanguages (ExpandLanguages ["Vue", "Less"]) =
        ["Vue", "Less", "JavaScript", "CSS"] := by
  decide

/-! ### A recursive glob that starts with `**/` -/

/-- Only `/` folds to `/`. -/
theorem foldOrbit_slash (x : Char) (h : foldOrbit '/' = foldOrbit x) : x = '/' := by
  have h0 : foldOrbit '/' = '/' := by decide
  rw [h0] at h
  unfold foldOrbit at h
  split at h
  · exact absurd h (by decide)
  · split at h
    · exact absurd h (by decide)
    · unfold Char.toUpper at h
      simp only at h
      split at h
      · rename_i hrange
        exfalso
        generalize x.toNat = n at hrange h
        obtain ⟨hlow, hhigh⟩ := hrange
        interval_cases n <;> exact absurd h (by decide)
      · exact h.symm

/-- The items `.*` and `/` at the head of an expression accept no text without `/`. -/
theorem globItemsMatch_needs_slash (items : List GlobItem) (text : List Char)
    (h : '/' ∉ text) :
    globItemsMatch (GlobItem.anySeq :: GlobItem.lit '/' :: items) text = false := by
  rw [globItemsMatch, List.any_eq_false]
  intro taken _
  cases hd : text.drop taken.length with
  | nil => simp [globItemsMatch]
  | cons x xs =>
    have hx : x ∈ text := List.mem_of_mem_drop (hd ▸ List.mem_cons_self x xs)
    have hne : x ≠ '/' := fun hc => h (hc ▸ hx)
    rw [globItemsMatch]
    simp only [Bool.and_eq_true, beq_iff_eq, not_and]
    intro hfold
    exact absurd (foldOrbit_slash x hfold) hne

theorem parseGlobFuel_zero (s : List Char) : parseGlobFuel 0 s = none := by
  rw [parseGlobFuel.eq_def]

/-- The text `.*/` at the head of an expression is read as the items `.*` and `/`, when the
expression is read at all. -/
theorem parseGlobFuel_any_slash (n : Nat) (w : List Char) :
    parseGlobFuel n ('.' :: '*' :: '/' :: w) = none ∨
      ∃ items, parseGlobFuel n ('.' :: '*' :: '/' :: w) =
        some (GlobItem.anySeq :: GlobItem.lit '/' :: items) := by
  cases n with
  | zero => exact Or.inl (parseGlobFuel_zero _)
  | succ n =>
    rw [parseGlobFuel_succ]
    have h1 : ¬ ('.' :: '*' :: '/' :: w = ['$', ')']) := by simp
    have h2 : (['.', '*'] : List Char).isPrefixOf ('.' :: '*' :: '/' :: w) = true := by
      simp [List.isPrefixOf]
    rw [if_neg h1, if_pos h2]
    have hdrop : ('.' :: '*' :: '/' :: w).drop 2 = '/' :: w := rfl
    rw [hdrop]
    cases n with
    | zero => left; rw [parseGlobFuel_zero]; rfl
    | succ n =>
      rw [parseGlobFuel_succ]
      have h3 : ¬ ('/' :: w = ['$', ')']) := by simp
      have h4 : ¬ (['.', '*'] : List Char).isPrefixOf ('/' :: w) = true := by
        simp [List.isPrefixOf]
      have h5 : ¬ (['[', '^', '/', ']', '*'] : List Char).isPrefixOf ('/' :: w) = true := by
        simp [List.isPrefixOf]
      have h6 : ¬ ('/' = '\\') := by decide
      have h7 : ¬ (isRegexpMeta '/' = true) := by decide
      rw [if_neg h3, if_neg h4, if_neg h5]
      simp only [h6, h7, if_false]
      cases parseGlobFuel n w with
      | none => left; rfl
      | some items => right; exact ⟨items, rfl⟩

/-- The expression that `matchPath` builds for a pattern `**/` followed by any text begins
with `(?i:^.*/`. -/
theorem recursive_glob_expression (rest : String) :
    ∃ w : List Char,
      ("(?i:" ++ ("^" ++ stringsReplaceAll (stringsReplaceAll (regexpQuoteMeta ("**/" ++ rest))
        "\\*\\*" ".*") "\\*" "[^/]*" ++ "$") ++ ")").data =
        ['(', '?', 'i', ':', '^'] ++ ('.' :: '*' :: '/' :: w) := by
  have hq : (regexpQuoteMeta ("**/" ++ rest)).data =
      '\\' :: '*' :: '\\' :: '*' :: '/' :: (regexpQuoteMeta rest).data := by
    unfold regexpQuoteMeta
    have hd : ("**/" ++ rest).data = '*' :: '*' :: '/' :: rest.data := by
      rw [String.data_append]
      rfl
    have hstar : isRegexpMeta '*' = true := by decide
    have hsl : isRegexpMeta '/' = false := by decide
    simp only [hd, List.flatMap_cons, hstar, hsl, if_true, Bool.false_eq_true, if_false,
      List.cons_append, List.nil_append]
  have h1 : (stringsReplaceAll (regexpQuoteMeta ("**/" ++ rest)) "\\*\\*" ".*").data =
      '.' :: '*' :: '/' ::
        replaceChars ['\\', '*', '\\', '*'] ['.', '*'] 0 (regexpQuoteMeta rest).data := by
    unfold stringsReplaceAll
    rw [hq]
    have hp : (['\\', '*', '\\', '*'] : List Char).isPrefixOf
        ('\\' :: '*' :: '\\' :: '*' :: '/' :: (regexpQuoteMeta rest).data) = true := by
      simp [List.isPrefixOf]
    have hn : (['\\', '*', '\\', '*'] : List Char).isPrefixOf
        ('/' :: (regexpQuoteMeta rest).data) = false := by
      simp [List.isPrefixOf]
    show replaceChars ['\\', '*', '\\', '*'] ['.', '*'] 0
      ('\\' :: '*' :: '\\' :: '*' :: '/' :: (regexpQuoteMeta rest).data) = _
    rw [replaceChars, if_pos hp]
    simp only [List.length_cons, List.length_nil]
    rw [replaceChars, replaceChars, replaceChars, replaceChars, hn]
    simp
  have h2 : (stringsReplaceAll (stringsReplaceAll (regexpQuoteMeta ("**/" ++ rest))
      "\\*\\*" ".*") "\\*" "[^/]*").data =
      '.' :: '*' :: '/' :: replaceChars ['\\', '*'] ['[', '^', '/', ']', '*'] 0
        (replaceChars ['\\', '*', '\\', '*'] ['.', '*'] 0 (regexpQuoteMeta rest).data) := by
    unfold stringsReplaceAll at h1 ⊢
    simp only at h1 ⊢
    rw [h1]
    show replaceChars ['\\', '*'] ['[', '^', '/', ']', '*'] 0 _ = _
    rw [replaceChars, replaceChars, replaceChars]
    simp [List.isPrefixOf]
  refine ⟨replaceChars ['\\', '*'] ['[', '^', '/', ']', '*'] 0
    (replaceChars ['\\', '*', '\\', '*'] ['.', '*'] 0 (regexpQuoteMeta rest).data) ++
      ['$', ')'], ?_⟩
  simp only [String.data_append, h2]
  simp

/-- C37: for every pattern `**/` followed by any text, and every name without `/`, `matchPath`
returns false: the expression it builds begins with `.*/`, which asks for a `/` in the name
(with the model of `regexp` for the expressions of `matchPath`; `filepath.ToSlash` may replace
separators in the text after `**/`). -/
theorem C37_recursive_glob_needs_directory (h : Host) (lib : PathLib) (rest name : String)
    (hcompile : h.Compile = globCompile)
    (hslash : ∃ rest2, h.ToSlash ("**/" ++ rest) = "**/" ++ rest2)
    (hname : '/' ∉ name.data) :
    (matchPath h lib ("**/" ++ rest) name).1 = false := by
  obtain ⟨rest2, hrest2⟩ := hslash
  have hstars : stringsContains ("**/" ++ rest2) "**" = true := by
    rw [stringsContains_iff]
    refine ⟨[], '/' :: rest2.data, ?_⟩
    rw [String.data_append]
    rfl
  unfold matchPath
  simp only [hrest2, hstars, if_true]
  unfold regexpMatchString
  rw [hcompile]
  unfold globCompile
  obtain ⟨w, hw⟩ := recursive_glob_expression rest2
  rw [hw]
  have hpre : (['(', '?', 'i', ':', '^'] : List Char).isPrefixOf
      (['(', '?', 'i', ':', '^'] ++ ('.' :: '*' :: '/' :: w)) = true := by
    simp [List.isPrefixOf]
  rw [if_pos hpre]
  have hdrop : (['(', '?', 'i', ':', '^'] ++ ('.' :: '*' :: '/' :: w)).drop 5 =
      '.' :: '*' :: '/' :: w := rfl
  rw [hdrop]
  unfold parseGlobItems
  rcases parseGlobFuel_any_slash (('.' :: '*' :: '/' :: w).length + 1) w with hp | ⟨items, hp⟩
  · rw [hp]
    rfl
  · rw [hp]
    simp only [Option.map_some']
    rw [globItemsMatch_needs_slash items name.data hname]
    rfl

/-- The pattern `**/*.go` against the file `main.go` of the root directory. -/
theorem C37_witness :
    globHost.Compile = globCompile ∧
      (∃ rest2, globHost.ToSlash ("**/" ++ "*.go") = "**/" ++ rest2) ∧
      '/' ∉ "main.go".data ∧
      (matchPath globHost demoLib ("**/" ++ "*.go") "main.go").1 = false :=
  ⟨rfl, ⟨"*.go", by decide⟩, by decide,
    C37_recursive_glob_needs_directory globHost demoLib "*.go" "main.go" rfl
      ⟨"*.go", by decide⟩ (by decide)⟩

/-- The pattern `**/*.go` on the index of a project: the file `main.go` of the root directory
is not returned, the file below a directory is; a text with a backslash after `**/` gives an
expression that asks for a `/` as well. -/
theorem demo_recursive_glob :
    FindFiles globHost demoLib newlineIndex "**/*.go" =
        some (["/proj/src/app/Main.GO"], none) ∧
      "main.go" ∈ newlineIndex.Files ∧
      matchPath globHost demoLib "**/*.go" "src/app/Main.GO" = (true, none) ∧
      matchPath globHost demoLib "**/\\*" "main.go" = (false, none) ∧
      matchPath globHost demoLib "**/\\*" "a/\\b" = (true, none) := by
  decide

/-! ### What `GetSupportedFrameworks` does report -/

theorem mem_upsert (rule r : FrameworkRuleDefinition) :
    ∀ rules : List FrameworkRuleDefinition, r ∈ upsert rule rules → r = rule ∨ r ∈ rules := by
  intro rules
  induction rules with
  | nil => intro h; simpa [upsert] using h
  | cons a rest ih =>
    intro h
    unfold upsert at h
    split at h
    · rcases List.mem_cons.1 h with h | h
      · exact Or.inl h
      · exact Or.inr (List.mem_cons_of_mem _ h)
    · rcases List.mem_cons.1 h with h | h
      · exact Or.inr (h ▸ List.mem_cons_self _ _)
      · rcases ih h with h | h
        · exact Or.inl h
        · exact Or.inr (List.mem_cons_of_mem _ h)

theorem self_mem_upsert (rule : FrameworkRuleDefinition) :
    ∀ rules : List FrameworkRuleDefinition, rule ∈ upsert rule rules := by
  intro rules
  induction rules with
  | nil => simp [upsert]
  | cons a rest ih =>
    unfold upsert
    split
    · exact List.mem_cons_self _ _
    · exact List.mem_cons_of_mem _ ih

theorem mem_upsert_of_ne (rule r : FrameworkRuleDefinition)
    (hne : ruleIdentity r ≠ ruleIdentity rule) :
    ∀ rules : List FrameworkRuleDefinition, r ∈ rules → r ∈ upsert rule rules := by
  intro rules
  induction rules with
  | nil => intro h; simp at h
  | cons a rest ih =>
    intro h
    unfold upsert
    split
    · rename_i hs
      rcases List.mem_cons.1 h with h | h
      · subst h
        exact absurd ((sameIdentity_iff r rule).1 hs) hne
      · exact List.mem_cons_of_mem _ h
    · rcases List.mem_cons.1 h with h | h
      · exact h ▸ List.mem_cons_self _ _
      · exact List.mem_cons_of_mem _ (ih h)

theorem addRule_frameworkRules (e : CanvasEngine) (rule : FrameworkRuleDefinition) :
    (addRule e rule).frameworkRules =
      if rule.Type_ = RuleTypeFramework then mapSet e.frameworkRules rule.Name rule
      else e.frameworkRules := by
  unfold addRule
  simp only
  split
  · rfl
  · split <;> rfl

/-- The agreement of the map `frameworkRules` with the rule list is kept by `addRule`. -/
theorem FrameworkMapOK_addRule (e : CanvasEngine) (rule : FrameworkRuleDefinition)
    (hok : FrameworkMapOK e) : FrameworkMapOK (addRule e rule) := by
  obtain ⟨h1, h2, h3⟩ := hok
  unfold FrameworkMapOK
  rw [addRule_rules, addRule_frameworkRules]
  by_cases ht : rule.Type_ = RuleTypeFramework
  · simp only [if_pos ht]
    refine ⟨?_, ?_, mapSet_keys_nodup _ _ _ h3⟩
    · intro name r hl
      rw [lookup_mapSet] at hl
      by_cases hn : name = rule.Name
      · rw [if_pos hn] at hl
        have := Option.some.inj hl
        subst this
        exact ⟨self_mem_upsert _ _, ht, hn.symm⟩
      · rw [if_neg hn] at hl
        obtain ⟨hr, hrt, hrn⟩ := h1 name r hl
        refine ⟨mem_upsert_of_ne rule r ?_ _ hr, hrt, hrn⟩
        intro hid
        apply hn
        have := congrArg Prod.fst hid
        simp only [ruleIdentity] at this
        rw [← hrn, this]
    · intro r hr _
      rw [lookup_mapSet]
      by_cases hn : r.Name = rule.Name
      · exact ⟨rule, by rw [if_pos hn]⟩
      · rw [if_neg hn]
        rcases mem_upsert rule r _ hr with h | h
        · exact absurd (h ▸ rfl) hn
        · rename_i hrt
          exact h2 r h hrt
  · simp only [if_neg ht]
    refine ⟨?_, ?_, h3⟩
    · intro name r hl
      obtain ⟨hr, hrt, hrn⟩ := h1 name r hl
      refine ⟨mem_upsert_of_ne rule r ?_ _ hr, hrt, hrn⟩
      intro hid
      apply ht
      have := congrArg (fun p => p.2.1) hid
      simp only [ruleIdentity] at this
      rw [← this, hrt]
    · intro r hr hrt
      rcases mem_upsert rule r _ hr with h | h
      · exact absurd (h ▸ hrt) ht
      · exact h2 r h hrt

theorem FrameworkMapOK_loaded (rs : List FrameworkRuleDefinition) :
    ∀ e : CanvasEngine, FrameworkMapOK e → FrameworkMapOK (loadEmbeddedRules e rs) := by
  induction rs with
  | nil => intro e hok; exact hok
  | cons r rest ih =>
    intro e hok
    exact ih (addRule e r) (FrameworkMapOK_addRule e r hok)

theorem mem_insertByName (x y : FrameworkMetadata) :
    ∀ l : List FrameworkMetadata, y ∈ insertByName x l ↔ y = x ∨ y ∈ l := by
  intro l
  induction l with
  | nil => simp [insertByName]
  | cons a rest ih =>
    unfold insertByName
    split
    · simp
    · simp only [List.mem_cons, ih]
      tauto

theorem mem_sortByName (y : FrameworkMetadata) :
    ∀ l : List FrameworkMetadata, y ∈ sortByName l ↔ y ∈ l := by
  intro l
  induction l with
  | nil => simp [sortByName]
  | cons a rest ih =>
    have hstep : sortByName (a :: rest) = insertByName a (sortByName rest) := rfl
    rw [hstep, mem_insertByName, ih, List.mem_cons]

theorem frameworksLoop_reports :
    ∀ (entries : List (String × FrameworkRuleDefinition)) (acc fs : List FrameworkMetadata),
    frameworksLoop entries acc = some fs →
      (∀ m ∈ acc, m ∈ fs) ∧
      ∀ p ∈ entries, ∃ m ∈ fs, m.Name = p.2.Name ∧ m.Language = p.2.Language := by
  intro entries
  induction entries with
  | nil =>
    intro acc fs h
    have := Option.some.inj h
    subst this
    exact ⟨fun m hm => hm, fun p hp => by simp at hp⟩
  | cons a rest ih =>
    intro acc fs h
    obtain ⟨k, rule⟩ := a
    unfold frameworksLoop at h
    split at h
    · exact absurd h (by simp)
    · rename_i levels _
      obtain ⟨hacc, hrest⟩ := ih _ fs h
      refine ⟨fun m hm => hacc m (List.mem_append_left _ hm), ?_⟩
      intro p hp
      rcases List.mem_cons.1 hp with hp | hp
      · subst hp
        exact ⟨_, hacc _ (List.mem_append_right _ (List.mem_singleton_self _)), rfl, rfl⟩
      · exact hrest p hp

/-- In an engine reached by `addRule` calls, a framework rule of the rule list whose name no
other framework rule of the list bears has an entry with its name and language in the result
of `GetSupportedFrameworks`. -/
theorem GetSupportedFrameworks_reports_unique_name (rs : List FrameworkRuleDefinition)
    (frameworks : List FrameworkMetadata) (r : FrameworkRuleDefinition)
    (hres : GetSupportedFrameworks (loadEmbeddedRules emptyEngine rs) = some frameworks)
    (hr : r ∈ (loadEmbeddedRules emptyEngine rs).rules) (hrt : r.Type_ = RuleTypeFramework)
    (huniq : ∀ r2 ∈ (loadEmbeddedRules emptyEngine rs).rules,
      r2.Type_ = RuleTypeFramework → r2.Name = r.Name → r2 = r) :
    ∃ m ∈ frameworks, m.Name = r.Name ∧ m.Language = r.Language := by
  have hstart : FrameworkMapOK emptyEngine := by
    refine ⟨?_, ?_, ?_⟩ <;> simp [emptyEngine]
  obtain ⟨h1, h2, -⟩ := FrameworkMapOK_loaded rs emptyEngine hstart
  obtain ⟨r2, hl⟩ := h2 r hr hrt
  obtain ⟨hr2, hr2t, hr2n⟩ := h1 _ _ hl
  have heq : r2 = r := huniq r2 hr2 hr2t hr2n
  subst heq
  unfold GetSupportedFrameworks at hres
  cases hloop : frameworksLoop (loadEmbeddedRules emptyEngine rs).frameworkRules [] with
  | none => rw [hloop] at hres; simp at hres
  | some fs =>
    rw [hloop] at hres
    have hfs : sortByName fs = frameworks := Option.some.inj hres
    obtain ⟨-, hall⟩ := frameworksLoop_reports _ _ _ hloop
    obtain ⟨m, hm, hmn, hml⟩ := hall _ (mem_of_lookup_eq_some _ _ _ hl)
    exact ⟨m, hfs ▸ (mem_sortByName m fs).2 hm, hmn, hml⟩

/-- The rule `Gin` of the concrete engine, the only one of its name, is reported. -/
theorem demo_gin_reported :
    ∃ m ∈ [FrameworkMetadata.mk "Gin" "Go" [("L1", "go.mod")],
        FrameworkMetadata.mk "Spring" "Kotlin" [("L1", "build.gradle.kts")]],
      m.Name = ginRule.Name ∧ m.Language = ginRule.Language :=
  GetSupportedFrameworks_reports_unique_name [springJavaRule, ginRule, springKotlinRule]
    _ ginRule (by decide) (by decide) (by decide) (by decide)

/-! ### Why a suffix with a further dot finds nothing -/

/-- Only `.` becomes `.` in lowercase. -/
theorem unicodeToLower_dot (c : Char) (h : unicodeToLower c = '.') : c = '.' := by
  unfold unicodeToLower at h
  split at h
  · exact absurd h (by decide)
  · split at h
    · exact absurd h (by decide)
    · unfold Char.toLower at h
      simp only at h
      split at h
      · rename_i hrange
        exfalso
        generalize c.toNat = n at hrange h
        obtain ⟨hlow, hhigh⟩ := hrange
        interval_cases n <;> exact absurd h (by decide)
      · exact h

/-- The extension that `filepath.Ext` returns is empty or a dot followed by a text without a
dot. -/
theorem extChars_shape : ∀ (rev after : List Char), '.' ∉ after →
    extChars rev after = [] ∨ ∃ tail, extChars rev after = '.' :: tail ∧ '.' ∉ tail := by
  intro rev
  induction rev with
  | nil => intro after _; exact Or.inl rfl
  | cons c before ih =>
    intro after hafter
    unfold extChars
    split
    · exact Or.inl rfl
    · split
      · rename_i hdot
        exact Or.inr ⟨after, by rw [hdot], hafter⟩
      · rename_i hdot
        apply ih
        intro hmem
        rcases List.mem_cons.1 hmem with h | h
        · exact hdot h.symm
        · exact hafter h

/-- No lowercase extension equals the lowercase form of a dot followed by a text with a
further dot. -/
theorem lower_extension_ne (f e : String) (hdot : '.' ∈ e.data) :
    stringsToLower (fileExtension f) ≠ stringsToLower ("." ++ e) := by
  intro heq
  have hdata := congrArg String.data heq
  unfold stringsToLower fileExtension filepathExt at hdata
  simp only [String.data_append] at hdata
  have hl : unicodeToLower '.' = '.' := by decide
  simp only [List.singleton_append, List.map_cons, hl] at hdata
  rcases extChars_shape (pathBase f).data.reverse [] (by simp) with h | ⟨tail, h, htail⟩
  · rw [h] at hdata
    simp at hdata
  · rw [h] at hdata
    simp only [List.map_cons, hl, List.cons.injEq, true_and] at hdata
    have hmem : '.' ∈ e.data.map unicodeToLower := by
      rw [List.mem_map]
      exact ⟨'.', hdot, hl⟩
    rw [← hdata, List.mem_map] at hmem
    obtain ⟨c, hc, hcl⟩ := hmem
    exact htail (unicodeToLower_dot c hcl ▸ hc)

/-- On every file index that satisfies the index invariant, with the letter case functions of
the concrete library, a pattern `*.` followed by a text with a further dot returns no path. -/
theorem FindFiles_further_dot (h : Host) (index : FileIndex) (e : String)
    (hslash : stringsContains e "/" = false) (hdot : '.' ∈ e.data)
    (hexact : ExtensionMapExact demoLib index) (hv : PositionsValid index) :
    FindFiles h demoLib index ("*." ++ e) = some ([], none) := by
  rw [FindFiles_extension h demoLib index e hslash (hv.2 _)]
  have hnil : positionsAt index.ExtensionMap (demoLib.ToLower ("." ++ e)) = [] := by
    rw [List.eq_nil_iff_forall_not_mem]
    intro idx hidx
    obtain ⟨f, -, hf⟩ := (hexact ("." ++ e) (dot_append_ne_empty e) idx).1 hidx
    exact lower_extension_ne f e hdot hf
  rw [hnil]
  rfl

end CodeCanvas
